import Mathlib

/-!
Verification development for the xml-reader document-navigation engine
(src/src-tauri/src/xml_ops.rs).

Modelling conventions:
* A file's contents, and every Rust `String` / byte slice, is a `List Nat`
  of byte values (strings cross the Tauri boundary but are produced by
  `String::from_utf8_lossy`, so byte lists are faithful for the byte-level
  properties proved here).
* The quick_xml streaming reader used by the source is modelled by
  `read_event` / `tokenize` below: in the "closed" state the reader scans
  text up to and including the next `<` (so `buffer_position` afterwards is
  one past the `<`); a tag is consumed through its `>`; constructs starting
  with `?` or `!` are consumed to the first `>` (a simplification of the
  library's comment handling) and yield an ignored event.  This matches the
  position bookkeeping the source itself relies on in
  `extract_and_build_result` (the byte just before an event position is `<`
  exactly when the event was preceded by text).
* Progress percentages: the source computes `(pos as f64 / total as f64
  * 100.0) as u64`; this is modelled as exact `pos * 100 / total` (both are
  monotone in `pos`; the saturating cast at `total = 0` is reproduced).
* The process-wide cancellation flag is passed as an explicit boolean that
  is constant during one scan; `search_node` stores `false` before scanning,
  which the model mirrors by ignoring the incoming flag value.
* Progress notifications (`app.emit`) are modelled by accumulating the
  emitted percentages in a list that is returned next to the result.
* I/O never fails in the model (the file is the given byte list); `Result`
  values in the source become `Except (List Nat) _` with the same error
  strings.
-/

/-- ASCII bytes of a string literal, the bridge used for concrete inputs. -/
def str_bytes (s : String) : List Nat := s.toList.map (fun c => c.toNat)

/-- Decimal digits of a number as ASCII bytes (for formatted error strings). -/
def nat_bytes (n : Nat) : List Nat := (Nat.toDigits 10 n).map (fun c => c.toNat)

/-- Whitespace test used by quick_xml name splitting and attribute parsing. -/
def is_ws (b : Nat) : Bool := b == 32 || b == 9 || b == 10 || b == 13

/-- ASCII lowercasing of one byte (`u8::to_ascii_lowercase`). -/
def lower_byte (b : Nat) : Nat := if 65 ≤ b ∧ b ≤ 90 then b + 32 else b

/-- ASCII lowercasing of a byte string (`str::to_lowercase` on ASCII data). -/
def lower_bytes (bs : List Nat) : List Nat := bs.map lower_byte

/-- Events produced by the modelled quick_xml reader. -/
inductive XmlEvent where
  | startE (name : List Nat) (attrs : List (List Nat × List Nat))
  | endE (name : List Nat)
  | emptyE (name : List Nat) (attrs : List (List Nat × List Nat))
  | textE (s : List Nat)
  | otherE
  | eofE
  | errE
deriving DecidableEq, Repr

/-- Tag name as quick_xml reports it: bytes of the tag content up to the
first whitespace byte. -/
def qx_name (cnt : List Nat) : List Nat := cnt.takeWhile (fun b => !(is_ws b))

/-- Model of quick_xml attribute parsing over the tag content after the
name: skip whitespace, read a key up to `=` or whitespace, expect `=` and a
quoted value.  Only evaluated on concrete inputs; fuelled for totality. -/
def parse_attrs_go : Nat → List Nat → List (List Nat × List Nat)
  | 0, _ => []
  | fuel + 1, bs =>
    let bs1 := bs.dropWhile is_ws
    match bs1 with
    | [] => []
    | _ =>
      let key := bs1.takeWhile (fun b => !(is_ws b) && b != 61 && b != 47)
      let r1 := bs1.dropWhile (fun b => !(is_ws b) && b != 61 && b != 47)
      let r2 := r1.dropWhile is_ws
      match r2 with
      | 61 :: r3 =>
        let r4 := r3.dropWhile is_ws
        match r4 with
        | q :: r5 =>
          if q = 34 ∨ q = 39 then
            let v := r5.takeWhile (fun b => b != q)
            let r6 := r5.dropWhile (fun b => b != q)
            match r6 with
            | _ :: r7 => (key, v) :: parse_attrs_go fuel r7
            | [] => []
          else []
        | [] => []
      | _ => []

/-- Attributes of a tag whose content after the name is `bs`. -/
def parse_attrs (bs : List Nat) : List (List Nat × List Nat) :=
  parse_attrs_go (bs.length + 1) bs

/-- Classify the content between `<` and `>` into an event, as quick_xml
does: leading `/` is a closing tag, leading `?` or `!` a non-element
construct, a trailing `/` a self-closing (Empty) tag, anything else a Start
tag. -/
def classify_content (cnt : List Nat) : XmlEvent :=
  match cnt with
  | [] => .startE [] []
  | c :: _ =>
    if c = 47 then .endE (qx_name (cnt.drop 1))
    else if c = 63 ∨ c = 33 then .otherE
    else if cnt.getLast? = some 47 then
      let body := cnt.dropLast
      let n := qx_name body
      .emptyE n (parse_attrs (body.drop n.length))
    else
      let n := qx_name cnt
      .startE n (parse_attrs (cnt.drop n.length))

/-- One `read_event` step of the modelled reader.  `opened = true` means the
preceding text event already consumed the `<` of the upcoming tag.  Returns
the event, the number of bytes consumed and the new `opened` state. -/
def read_event (opened : Bool) (bs : List Nat) : XmlEvent × Nat × Bool :=
  if opened then
    match bs.findIdx? (fun b => b == 62) with
    | none => (.errE, 0, true)
    | some k => (classify_content (bs.take k), k + 1, false)
  else
    match bs with
    | [] => (.eofE, 0, false)
    | _ =>
      match bs.findIdx? (fun b => b == 60) with
      | some 0 =>
        match (bs.drop 1).findIdx? (fun b => b == 62) with
        | none => (.errE, 0, false)
        | some k => (classify_content ((bs.drop 1).take k), k + 2, false)
      | some j => (.textE (bs.take j), j + 1, true)
      | none => (.textE bs, bs.length, false)

/-- Full event stream of a byte suffix `bs` whose first byte sits at
absolute position `pos`.  Every entry carries the reader position before
the event (`buffer_position` at the top of the source's loops); the stream
always ends with an `eofE` or `errE` token. -/
def tokenize : Nat → Bool → List Nat → Nat → List (Nat × XmlEvent)
  | 0, _, _, pos => [(pos, .errE)]
  | fuel + 1, opened, bs, pos =>
    let r := read_event opened bs
    if r.1 = .eofE ∨ r.1 = .errE then [(pos, r.1)]
    else (pos, r.1) :: tokenize fuel r.2.2 (bs.drop r.2.1) (pos + r.2.1)

/-- Position after the event whose token was followed by `rest`
(`buffer_position` once the event has been read). -/
def next_pos (rest : List (Nat × XmlEvent)) (p : Nat) : Nat :=
  match rest with
  | (p2, _) :: _ => p2
  | [] => p

/-- The `SearchResult` struct returned over the Tauri boundary. -/
structure SearchResult where
  found : Bool
  xpath : List Nat
  element_text : List Nat
  context_before : List Nat
  context_after : List Nat
  offset : Nat
  line_number : Nat
deriving DecidableEq, Repr

/-- The all-empty result returned on cancellation and exhaustion. -/
def not_found_result : SearchResult :=
  { found := false, xpath := [], element_text := [], context_before := [],
    context_after := [], offset := 0, line_number := 0 }

/-- Model of `read_chunk_internal`: seek to `offset` (seeking past EOF is
legal) and read up to `size` bytes; a short read at EOF is not an error. -/
def read_chunk_internal (doc : List Nat) (offset : Nat) (size : Nat) :
    Except (List Nat) (List Nat) :=
  .ok ((doc.drop offset).take size)

/-- Model of `count_lines_up_to`: 1-based line number of `offset`, counting
newline bytes over the file prefix (the source reads it in chunks). -/
def count_lines_up_to (doc : List Nat) (offset : Nat) : Nat :=
  1 + (doc.take offset).countP (fun b => b == 10)

/-- Model of `extract_and_build_result`: refine the approximate start
(backward window of 2048 bytes, else forward scan of 256 bytes for `<`),
refine the approximate end (first `>` in a 128-byte window starting one
byte before it), then cut out the element text and display context. -/
def extract_and_build_result (doc : List Nat) (file_len approx_start approx_end : Nat)
    (xp : List Nat) : SearchResult :=
  let scan_start := if approx_start > 2048 then approx_start - 2048 else 0
  let n := approx_start - scan_start
  let scan_buf := (doc.drop scan_start).take n
  let exact_start :=
    if n > 0 then
      if scan_buf.getLast? = some 60 then approx_start - 1
      else
        match ((doc.drop approx_start).take 256).findIdx? (fun b => b == 60) with
        | some i => approx_start + i
        | none => approx_start
    else approx_start
  let fwd_start := if approx_end > 0 then approx_end - 1 else 0
  let fwd_buf := (doc.drop fwd_start).take (min 128 (file_len - fwd_start))
  let exact_end :=
    match fwd_buf.findIdx? (fun b => b == 62) with
    | some i => fwd_start + i + 1
    | none => approx_end
  let context_start := if exact_start > 2000 then exact_start - 2000 else 0
  { found := true
    xpath := xp
    element_text := (doc.drop exact_start).take (exact_end - exact_start)
    context_before := (doc.drop context_start).take (exact_start - context_start)
    context_after := (doc.drop exact_end).take (min 2000 (file_len - exact_end))
    offset := exact_start
    line_number := count_lines_up_to doc exact_start }

/-- Rust's `Vec::join("/")` on a stack of names. -/
def join_slash : List (List Nat) → List Nat
  | [] => []
  | [s] => s
  | s :: rest => s ++ 47 :: join_slash rest

/-- The slash-joined path the source builds with `format("/{}", join)`. -/
def xpath_of (stack : List (List Nat)) : List Nat :=
  47 :: join_slash stack

/-- Model of `find_element_end_pos`: keep reading events, tracking a depth
counter keyed to `tag_name`, until the matching close tag; a 10 MiB scan
cap, EOF and parse errors all end the scan with an approximate position
instead of an error. -/
def find_element_end_pos (tag_name : List Nat) (file_len initial_pos : Nat) :
    List (Nat × XmlEvent) → Nat → Nat
  | [], _ => file_len
  | (p, ev) :: rest, depth =>
    if p - initial_pos > 10485760 then p
    else
      match ev with
      | .startE n _ =>
        find_element_end_pos tag_name file_len initial_pos rest
          (if n = tag_name then depth + 1 else depth)
      | .endE n =>
        if n = tag_name then
          if depth = 1 then next_pos rest p
          else find_element_end_pos tag_name file_len initial_pos rest (depth - 1)
        else find_element_end_pos tag_name file_len initial_pos rest depth
      | .eofE => file_len
      | .errE => p
      | _ => find_element_end_pos tag_name file_len initial_pos rest depth

/-- Model of `key_matches`: equal length and byte-wise case-insensitive
equality. -/
def key_matches (key target : List Nat) : Bool :=
  key.length == target.length && lower_bytes key == lower_bytes target

/-- Model of `contains_ignore_case`: empty needle always matches, otherwise
slide a window of the needle's length over the haystack. -/
def contains_ignore_case : List Nat → List Nat → Bool
  | _, [] => true
  | [], _ :: _ => false
  | h :: hs, n :: ns =>
    if (h :: hs).length < (n :: ns).length then false
    else
      (lower_bytes ((h :: hs).take (n :: ns).length) == lower_bytes (n :: ns))
        || contains_ignore_case hs (n :: ns)

/-- Model of `element_matches_bytes` over the parsed tag name and attribute
list: selector tag/any/empty checks the tag name; then every attribute is
checked, against the fixed allow-list when the selector is `any` and
against the selector itself otherwise. -/
def element_matches_bytes (name : List Nat) (attrs : List (List Nat × List Nat))
    (query_bytes type_bytes : List Nat) : Bool :=
  ((type_bytes.isEmpty || type_bytes == str_bytes "tag" || type_bytes == str_bytes "any")
      && contains_ignore_case name query_bytes)
  || attrs.any (fun a =>
      (if type_bytes == str_bytes "any" then
        key_matches a.1 (str_bytes "guid") || key_matches a.1 (str_bytes "id")
          || key_matches a.1 (str_bytes "name") || key_matches a.1 (str_bytes "eaid")
          || key_matches a.1 (str_bytes "value") || key_matches a.1 (str_bytes "guidref")
      else key_matches a.1 type_bytes)
      && contains_ignore_case a.2 query_bytes)

/-- Progress percentage for position `p` of `file_len`:
`(p as f64 / len as f64 * 100.0) as u64` (the saturating cast at
`file_len = 0` included). -/
def progress_at (p file_len : Nat) : Nat :=
  if file_len = 0 then (if p = 0 then 0 else 18446744073709551615)
  else p * 100 / file_len

/-- The error string of the search loop's parse-error arm. -/
def search_err_msg (p : Nat) : List Nat :=
  str_bytes "Error at position " ++ nat_bytes p

/-- The scan loop of `search_node_internal` over the event stream: check the
cancellation flag, emit coalesced progress, push/pop the ancestor stack,
and on a matching Start or Empty tag locate the end, emit 100 and build the
result; EOF emits 100 and reports not-found. -/
def search_loop (flag : Bool) (doc : List Nat) (file_len : Nat)
    (query_bytes type_bytes : List Nat) :
    List (Nat × XmlEvent) → List (List Nat) → Nat → List Nat →
    (Except (List Nat) SearchResult) × List Nat
  | [], _, _, ems => (.ok not_found_result, ems ++ [100])
  | (p, ev) :: rest, stack, last_progress, ems =>
    if flag then (.ok not_found_result, ems)
    else
      let current_progress := progress_at p file_len
      let last2 := if current_progress > last_progress then current_progress else last_progress
      let ems2 := if current_progress > last_progress then ems ++ [current_progress] else ems
      match ev with
      | .startE name attrs =>
        if element_matches_bytes name attrs query_bytes type_bytes then
          let approx_end := find_element_end_pos name file_len (next_pos rest p) rest 1
          (.ok (extract_and_build_result doc file_len p approx_end
            (xpath_of (stack ++ [name]))), ems2 ++ [100])
        else
          search_loop flag doc file_len query_bytes type_bytes rest (stack ++ [name]) last2 ems2
      | .endE _ =>
        search_loop flag doc file_len query_bytes type_bytes rest stack.dropLast last2 ems2
      | .emptyE name attrs =>
        if element_matches_bytes name attrs query_bytes type_bytes then
          (.ok (extract_and_build_result doc file_len p (next_pos rest p)
            (xpath_of (stack ++ [name]))), ems2 ++ [100])
        else
          search_loop flag doc file_len query_bytes type_bytes rest stack last2 ems2
      | .eofE => (.ok not_found_result, ems2 ++ [100])
      | .errE => (.error (search_err_msg p), ems2)
      | _ => search_loop flag doc file_len query_bytes type_bytes rest stack last2 ems2

/-- Model of `search_node_internal`: seek to `start_offset`, scan the event
stream from there with an empty ancestor stack.  `flag` is the value of the
process-wide cancellation flag while this scan runs. -/
def search_node_internal (flag : Bool) (doc query type_ : List Nat)
    (start_offset : Nat) : (Except (List Nat) SearchResult) × List Nat :=
  let rem := doc.drop start_offset
  search_loop flag doc doc.length (lower_bytes query) (lower_bytes type_)
    (tokenize (rem.length + 1) false rem start_offset) [] 0 []

/-- Model of the `search_node` command: it stores `false` into the
cancellation flag before scanning, so the incoming flag value is discarded. -/
def search_node (_flag : Bool) (doc query type_ : List Nat) (start_offset : Nat) :
    (Except (List Nat) SearchResult) × List Nat :=
  search_node_internal false doc query type_ start_offset

/-- Model of the `cancel_search` command: it sets the flag to true. -/
def cancel_search (_flag : Bool) : Bool := true

/-- The loop of `get_first_child_internal`: the first Start or Empty event
after the root's own Start is the first child; an Empty event before any
Start means the root is self-closing. -/
def first_child_loop (doc : List Nat) (file_len : Nat) :
    List (Nat × XmlEvent) → Bool → List Nat → Except (List Nat) SearchResult
  | [], _, _ => .error (str_bytes "No child elements found")
  | (p, ev) :: rest, root_found, root_name =>
    match ev with
    | .startE name _ =>
      if root_found then
        let approx_end := find_element_end_pos name file_len (next_pos rest p) rest 1
        .ok (extract_and_build_result doc file_len p approx_end
          (xpath_of [root_name, name] ++ str_bytes " (first)"))
      else first_child_loop doc file_len rest true name
    | .emptyE name _ =>
      if root_found then
        .ok (extract_and_build_result doc file_len p (next_pos rest p)
          (xpath_of [root_name, name] ++ str_bytes " (first)"))
      else .error (str_bytes "Root element is empty (no children)")
    | .eofE => .error (str_bytes "No child elements found")
    | .errE => .error (str_bytes "Error")
    | _ => first_child_loop doc file_len rest root_found root_name

/-- Model of `get_first_child_internal`. -/
def get_first_child_internal (doc : List Nat) : Except (List Nat) SearchResult :=
  first_child_loop doc doc.length (tokenize (doc.length + 1) false doc 0) false []

/-- Tag kinds of the backward scanner's classifier. -/
inductive TagKind where
  | openK
  | closeK
  | emptyK
deriving DecidableEq, Repr

/-- Model of `extract_tag_name_from_bytes`: bytes up to the first space,
tab, newline, carriage return, `>` or `/`. -/
def extract_tag_name_from_bytes (bs : List Nat) : List Nat :=
  bs.takeWhile (fun b => !(b == 32 || b == 9 || b == 10 || b == 13 || b == 62 || b == 47))

/-- Model of `classify_tag`: given a complete `<...>` slice, return the
name, kind and byte length; `None` for `<?`/`<!` constructs and slices
shorter than 3 bytes. -/
def classify_tag (slice : List Nat) : Option (List Nat × TagKind × Nat) :=
  if slice.length < 3 then none
  else if slice.get? 1 = some 63 ∨ slice.get? 1 = some 33 then none
  else if slice.get? 1 = some 47 then
    some (extract_tag_name_from_bytes (slice.drop 2), .closeK, slice.length)
  else if slice.get? (slice.length - 2) = some 47 then
    some (extract_tag_name_from_bytes (slice.drop 1), .emptyK, slice.length)
  else some (extract_tag_name_from_bytes (slice.drop 1), .openK, slice.length)

/-- State of the backward chunked scan of `get_last_child_internal`. -/
structure LastScanState where
  depth : Int
  last_tag_end : Option Nat
  root_name : List Nat
deriving DecidableEq, Repr

/-- Tag resolution of the backward scanner at an absolute `<` position:
look for the `>` within the rest of the current chunk (`window` bytes), and
when the tag straddles the chunk boundary re-read up to 1024 bytes forward
from the `<`. -/
def resolve_backward_tag (doc : List Nat) (len abs_start window : Nat) :
    Option (List Nat × TagKind × Nat) :=
  match ((doc.drop abs_start).take window).findIdx? (fun b => b == 62) with
  | some gt => classify_tag (((doc.drop abs_start).take window).take (gt + 1))
  | none =>
    match ((doc.drop abs_start).take (min 1024 (len - abs_start))).findIdx?
        (fun b => b == 62) with
    | some gt =>
      classify_tag (((doc.drop abs_start).take (min 1024 (len - abs_start))).take (gt + 1))
    | none => none

/-- Inner loop of `get_last_child_internal`: walk one chunk right-to-left;
at each `<` resolve the tag; closing tags increase the depth (recording the
root name at depth 1 and the candidate end at depth 2), opening tags
decrease it (returning the candidate at depth 1, an error at depth 0), and
a self-closing tag at depth 1 is the answer. -/
def last_child_inner (doc : List Nat) (len current_pos read_size : Nat) :
    Nat → LastScanState → (Except (List Nat) SearchResult) ⊕ LastScanState
  | 0, st => .inr st
  | i + 1, st =>
    if doc.get? (current_pos + i) = some 60 then
      match resolve_backward_tag doc len (current_pos + i) (read_size - i) with
      | none => last_child_inner doc len current_pos read_size i st
      | some (tag_name, kind, tag_len) =>
        match kind with
        | .closeK =>
          last_child_inner doc len current_pos read_size i
            { depth := st.depth + 1
              last_tag_end :=
                if st.depth + 1 = 2 then some (current_pos + i + tag_len)
                else st.last_tag_end
              root_name := if st.depth + 1 = 1 then tag_name else st.root_name }
        | .openK =>
          match (if st.depth - 1 = 1 then st.last_tag_end else none) with
          | some e =>
            .inl (.ok (extract_and_build_result doc len (current_pos + i) e
              (xpath_of [st.root_name, tag_name] ++ str_bytes " (last)")))
          | none =>
            if st.depth - 1 = 0 then
              .inl (.error (str_bytes "No last child found (root exited)"))
            else
              last_child_inner doc len current_pos read_size i
                { st with depth := st.depth - 1 }
        | .emptyK =>
          if st.depth = 1 then
            .inl (.ok (extract_and_build_result doc len (current_pos + i)
              (current_pos + i + tag_len)
              (xpath_of [st.root_name, tag_name] ++ str_bytes " (last)")))
          else last_child_inner doc len current_pos read_size i st
    else last_child_inner doc len current_pos read_size i st

/-- Outer loop of `get_last_child_internal`: 64 KiB chunks moving backward
from end-of-file; exhausting the file reports "Last child not found".  The
fuel is a chunk-count bound. -/
def last_child_outer (doc : List Nat) (len : Nat) :
    Nat → Nat → LastScanState → Except (List Nat) SearchResult
  | 0, _, _ => .error (str_bytes "Last child not found")
  | fuel + 1, current_pos, st =>
    if current_pos = 0 then .error (str_bytes "Last child not found")
    else
      match last_child_inner doc len (current_pos - min current_pos 65536)
          (min current_pos 65536) (min current_pos 65536) st with
      | .inl r => r
      | .inr st2 => last_child_outer doc len fuel (current_pos - min current_pos 65536) st2

/-- Model of `get_last_child_internal`. -/
def get_last_child_internal (doc : List Nat) : Except (List Nat) SearchResult :=
  if doc.length = 0 then .error (str_bytes "File is empty")
  else last_child_outer doc doc.length (doc.length / 65536 + 2) doc.length
    { depth := 0, last_tag_end := none, root_name := [] }

/-- The replay loop of `reconstruct_xpath`: push and pop tag names while the
reader position is still short of the target offset. -/
def recon_loop (target : Nat) : List (Nat × XmlEvent) → List (List Nat) → List (List Nat)
  | [], stack => stack
  | (p, ev) :: rest, stack =>
    if p ≥ target then stack
    else
      match ev with
      | .startE name _ => recon_loop target rest (stack ++ [name])
      | .endE _ => recon_loop target rest stack.dropLast
      | .eofE => stack
      | .errE => stack
      | _ => recon_loop target rest stack

/-- Model of `reconstruct_xpath`. -/
def reconstruct_xpath (doc : List Nat) (target_offset : Nat) : List Nat :=
  xpath_of (recon_loop target_offset (tokenize (doc.length + 1) false doc 0) [])

/-- Model of the `resolve_xpath` command: the reconstructed parent path with
the given tag name appended after a slash. -/
def resolve_xpath (doc : List Nat) (offset : Nat) (tag_name : List Nat) : List Nat :=
  reconstruct_xpath doc offset ++ [47] ++ tag_name

/-- The replay loop of `find_parent_internal`, recording for every open
ancestor its name and the byte position before its Start event. -/
def parent_stack_loop (target : Nat) :
    List (Nat × XmlEvent) → List (List Nat × Nat) → List (List Nat × Nat)
  | [], st => st
  | (p, ev) :: rest, st =>
    if p ≥ target then st
    else
      match ev with
      | .startE name _ => parent_stack_loop target rest (st ++ [(name, p)])
      | .endE _ => parent_stack_loop target rest st.dropLast
      | .eofE => st
      | .errE => st
      | _ => parent_stack_loop target rest st

/-- The seek loop of `find_parent_internal`: read events until the Start
event of the ancestor's name; returns the position after that event and the
remaining stream. -/
def seek_ancestor_start (name : List Nat) :
    List (Nat × XmlEvent) → Option (Nat × List (Nat × XmlEvent))
  | [] => none
  | (p, ev) :: rest =>
    match ev with
    | .startE n _ => if n = name then some (next_pos rest p, rest) else seek_ancestor_start name rest
    | .eofE => none
    | .errE => none
    | _ => seek_ancestor_start name rest

/-- Model of `find_parent_internal`: replay to `child_offset`, demand
`ancestor_depth` strictly below the stack size (an explicit out-of-range
error otherwise), then locate the chosen ancestor's end and build the
result. -/
def find_parent_internal (doc : List Nat) (child_offset ancestor_depth : Nat) :
    Except (List Nat) SearchResult :=
  let file_len := doc.length
  let st := parent_stack_loop child_offset (tokenize (doc.length + 1) false doc 0) []
  if h : ancestor_depth < st.length then
    let anc := st.get ⟨ancestor_depth, h⟩
    let xp := xpath_of ((st.take (ancestor_depth + 1)).map Prod.fst)
    let toks := tokenize ((doc.drop anc.2).length + 1) false (doc.drop anc.2) anc.2
    match seek_ancestor_start anc.1 toks with
    | none => .error (str_bytes "Unexpected EOF while seeking ancestor start")
    | some ir =>
      .ok (extract_and_build_result doc file_len anc.2
        (find_element_end_pos anc.1 file_len ir.1 ir.2 1) xp)
  else
    .error (str_bytes "Ancestor depth " ++ nat_bytes ancestor_depth ++
      str_bytes " is out of range (stack has " ++ nat_bytes st.length ++
      str_bytes " entries)")

/-- Concrete document for the search-offset counterexample: a file whose
byte 1 is a stray `<` right before the element scanned from offset 2. -/
def cex3_doc : List Nat := str_bytes "a<<a/>"

/-- Concrete document for the first/last-child counterexample: one real
child followed by a comment whose body contains a `<`. -/
def cex4_doc : List Nat := str_bytes "<r><a/><!-- </x> --></r>"

/-- Concrete document for the resolve_xpath counterexample: the root itself
is the match. -/
def cex5_doc : List Nat := str_bytes "<root/>"

/-- The result `get_last_child_internal` computes on the sample document
used by witnesses. -/
def last_child_sample : SearchResult :=
  { found := true, xpath := str_bytes "/r/a (last)", element_text := str_bytes "<a/>",
    context_before := str_bytes "<r>", context_after := str_bytes "</r>",
    offset := 3, line_number := 1 }

/-- The fixed attribute-key allow-list of the `any` selector. -/
def any_attr_keys : List (List Nat) :=
  [str_bytes "guid", str_bytes "id", str_bytes "name", str_bytes "eaid",
   str_bytes "value", str_bytes "guidref"]

/-- The result `search_node_internal` computes on the sample document used
by witnesses. -/
def search_sample : SearchResult :=
  { found := true, xpath := str_bytes "/r/a", element_text := str_bytes "<a/>",
    context_before := str_bytes "<r>", context_after := str_bytes "</r>",
    offset := 3, line_number := 1 }

/-- Tag-name byte of the serialized document family used to compare the
two child scanners: any byte that is neither whitespace nor one of the
markup bytes `<`, `>`, `/`, `?`, `!`. -/
def name_byte (b : Nat) : Bool :=
  !(is_ws b || b == 60 || b == 62 || b == 47 || b == 63 || b == 33)

/-- Space, tab, newline or carriage return. -/
def ws_byte (b : Nat) : Bool := b == 32 || b == 9 || b == 10 || b == 13

/-- Attribute-section byte of the family: any byte except `<`, `>` and
`/`. -/
def attr_byte (b : Nat) : Bool := !(b == 60 || b == 62 || b == 47)

mutual
/-- Element trees of the serialized document family: name, attribute
section, children interleaved with whitespace text runs, trailing
whitespace before the close tag, and a self-closing flag. -/
inductive XTree where
  | elem (name : List Nat) (attrs : List Nat) (kids : XForest) (wend : List Nat) (self : Bool)
/-- Sibling sequences of the family: each child may be preceded by a
whitespace text run. -/
inductive XForest where
  | nil
  | cons (w : List Nat) (k : XTree) (ks : XForest)
end

mutual
/-- Serialization of a family tree: `<name attrs/>` when self-closing, else
`<name attrs>` children, trailing whitespace, `</name>`. -/
def ser : XTree → List Nat
  | .elem n a kids wend self =>
    if self then 60 :: (n ++ a ++ [47, 62])
    else (60 :: (n ++ a ++ [62])) ++ serForest kids ++ (wend ++ (60 :: 47 :: (n ++ [62])))
/-- Serialization of a sibling sequence. -/
def serForest : XForest → List Nat
  | .nil => []
  | .cons w k ks => w ++ (ser k ++ serForest ks)
end

mutual
/-- Well-formedness of a family tree: nonempty delimiter-free names,
attribute sections free of `<`, `>`, `/` beginning with a space, and
whitespace-only text runs. -/
def wf_tree : XTree → Bool
  | .elem n a kids wend _ =>
    !n.isEmpty && n.all name_byte && a.all attr_byte &&
      (a.isEmpty || a.head? == some 32) && wend.all ws_byte && wf_forest kids
/-- Well-formedness of a sibling sequence. -/
def wf_forest : XForest → Bool
  | .nil => true
  | .cons w k ks => w.all ws_byte && wf_tree k && wf_forest ks
end

/-- The close-tag token run of a non-self-closing element, preceded by the
text token of its optional trailing whitespace; `p` is the position where
that trailing region starts. -/
def wendClose (n wend : List Nat) (p : Nat) : List (Nat × XmlEvent) :=
  match wend with
  | [] => [(p, .endE n)]
  | _ => [(p, .textE wend), (p + wend.length + 1, .endE n)]

mutual
/-- The token run the forward reader produces over a serialized tree whose
`<` sits at absolute position `pos`; `sh` is 1 when a preceding text event
already consumed that `<` (the first tag token is then recorded one byte
later) and 0 when the tree is entered in the closed state. -/
def serTokens : XTree → Nat → Nat → List (Nat × XmlEvent)
  | .elem n a kids wend self, pos, sh =>
    if self then [(pos + sh, .emptyE n (parse_attrs a))]
    else (pos + sh, .startE n (parse_attrs a)) ::
      (serTokensF kids (pos + (n.length + a.length + 2)) ++
        wendClose n wend (pos + (n.length + a.length + 2) + (serForest kids).length))
/-- The token run over a serialized sibling sequence entered in the closed
state. -/
def serTokensF : XForest → Nat → List (Nat × XmlEvent)
  | .nil, _ => []
  | .cons [] k ks, pos => serTokens k pos 0 ++ serTokensF ks (pos + (ser k).length)
  | .cons (wb :: wt) k ks, pos =>
    (pos, .textE (wb :: wt)) ::
      (serTokens k (pos + (wb :: wt).length) 1 ++
        serTokensF ks (pos + (wb :: wt).length + (ser k).length))
end

/-- The canonical full token stream of a byte suffix: `tokenize` with the
fuel every loop of the source passes it. -/
def tokStream (bs : List Nat) (pos : Nat) : List (Nat × XmlEvent) :=
  tokenize (bs.length + 1) false bs pos

/-- The single child used by the scanner-agreement witness:
`<a id="x-y"> <b/> </a>`. -/
def c4_child : XTree :=
  .elem [97] [32, 105, 100, 61, 34, 120, 45, 121, 34]
    (.cons [32] (.elem [98] [] .nil [] true) .nil) [32] false

deriving instance DecidableEq for Except

/-- The token stream is never empty: it always ends with an EOF or error
token. -/
theorem tokenize_ne_nil (fuel : Nat) (opened : Bool) (bs : List Nat) (pos : Nat) :
    tokenize fuel opened bs pos ≠ [] := by
  cases fuel
  · simp [tokenize]
  · simp only [tokenize]
    split <;> simp

/-- Claim C10: for every offset at or past the file length, `read_chunk`
succeeds with the empty string instead of erroring, for any size. -/
theorem read_chunk_past_eof (doc : List Nat) (offset size : Nat)
    (h : doc.length ≤ offset) : read_chunk_internal doc offset size = .ok [] := by
  simp [read_chunk_internal, List.drop_eq_nil_of_le h]

/-- Witness for C10 at a concrete file and offset. -/
theorem read_chunk_past_eof_witness :
    (str_bytes "abc").length ≤ 5 ∧ read_chunk_internal (str_bytes "abc") 5 10 = .ok [] :=
  ⟨by decide, read_chunk_past_eof (str_bytes "abc") 5 10 (by decide)⟩

/-- Claim C8: whenever the requested ancestor depth is at least the size of
the ancestor stack recorded at the child offset, `find_parent` returns the
explicit out-of-range error (so the depth is never clamped to some other
ancestor). -/
theorem find_parent_depth_out_of_range (doc : List Nat) (child_offset ancestor_depth : Nat)
    (h : (parent_stack_loop child_offset (tokenize (doc.length + 1) false doc 0) []).length
        ≤ ancestor_depth) :
    find_parent_internal doc child_offset ancestor_depth =
      .error (str_bytes "Ancestor depth " ++ nat_bytes ancestor_depth ++
        str_bytes " is out of range (stack has " ++
        nat_bytes (parent_stack_loop child_offset
          (tokenize (doc.length + 1) false doc 0) []).length ++
        str_bytes " entries)") := by
  have hlt : ¬ ancestor_depth <
      (parent_stack_loop child_offset (tokenize (doc.length + 1) false doc 0) []).length := by
    omega
  simp only [find_parent_internal]
  rw [dif_neg hlt]

/-- Witness for C8 at a concrete document, offset and depth. -/
theorem find_parent_depth_out_of_range_witness :
    (parent_stack_loop 3 (tokenize ((str_bytes "<r><a/></r>").length + 1) false
        (str_bytes "<r><a/></r>") 0) []).length ≤ 1 ∧
    find_parent_internal (str_bytes "<r><a/></r>") 3 1 =
      .error (str_bytes "Ancestor depth " ++ nat_bytes 1 ++
        str_bytes " is out of range (stack has " ++
        nat_bytes (parent_stack_loop 3 (tokenize ((str_bytes "<r><a/></r>").length + 1) false
          (str_bytes "<r><a/></r>") 0) []).length ++
        str_bytes " entries)") :=
  ⟨by decide, find_parent_depth_out_of_range (str_bytes "<r><a/></r>") 3 1 (by decide)⟩

/-- Claim C1, counterexample: the flag is set (a cancel request arrived
before the call), yet the search finds the element — `search_node` stores
`false` into the flag before scanning, so a prior cancel has no effect. -/
theorem cancel_before_search_cex :
    ((search_node true (str_bytes "<a/>") (str_bytes "a") (str_bytes "tag") 0).1.toOption.map
      SearchResult.found) = some true := by decide

/-- A scan that observes the cancellation flag returns the not-found result
from its very first iteration, with no emission. -/
theorem search_internal_cancelled (doc query type_ : List Nat) (start_offset : Nat) :
    search_node_internal true doc query type_ start_offset =
      (Except.ok not_found_result, []) := by
  simp only [search_node_internal]
  obtain ⟨⟨p, ev⟩, tl, heq⟩ := List.exists_cons_of_ne_nil
    (tokenize_ne_nil ((doc.drop start_offset).length + 1) false (doc.drop start_offset)
      start_offset)
  rw [heq]
  simp [search_loop]

/-- Claim C1, amended: `search_node` resets the cancellation flag at the
start of every invocation, so its outcome is independent of the incoming
flag value; a cancellation observed as true during the scan (i.e. set after
the reset) makes the very first iteration return `found: false` with no
emissions. -/
theorem cancel_flag_reset_semantics :
    (∀ flag doc query type_ start_offset,
        search_node flag doc query type_ start_offset =
          search_node false doc query type_ start_offset) ∧
    (∀ doc query type_ start_offset,
        search_node_internal true doc query type_ start_offset =
          (Except.ok not_found_result, [])) :=
  ⟨fun _ _ _ _ _ => rfl, fun doc q t off => search_internal_cancelled doc q t off⟩

/-- Claim C2, counterexample: a search that observes the cancellation flag
completes with no emission at all (no final 100), and an exhausted search
emits 100 twice in a row (the in-loop emission at EOF position plus the
mandatory final one), so the emitted sequence is not strictly increasing. -/
theorem progress_emissions_cex :
    (search_node_internal true (str_bytes "<a/>") (str_bytes "a") (str_bytes "tag") 0).2 = [] ∧
    (search_node_internal false (str_bytes "<a/>") (str_bytes "zzz") (str_bytes "tag") 0).2 =
      [100, 100] := by decide

/-- Claim C3, counterexample: searching from start offset 2 of a file whose
byte 1 is `<`, the returned offset points at that stray `<` (byte 60), but
the bytes after it do not spell the matched tag name `a`. -/
theorem search_offset_byte_cex :
    ((search_node_internal false cex3_doc (str_bytes "a") (str_bytes "tag") 2).1.toOption.map
      SearchResult.found = some true) ∧
    ((search_node_internal false cex3_doc (str_bytes "a") (str_bytes "tag") 2).1.toOption.map
      SearchResult.offset = some 1) ∧
    cex3_doc.get? 1 = some 60 ∧
    ¬ (str_bytes "a" <+: cex3_doc.drop 2) := by decide

/-- Claim C4, counterexample: on a well-formed document whose root has
exactly one element child followed by a comment containing a `<`, the
forward scan of `first_child` finds the child at offset 3 while the raw
backward scan of `last_child` is fooled by the `</x>` inside the comment
and returns offset 0 with garbage text. -/
theorem first_last_child_disagree_cex :
    ((get_first_child_internal cex4_doc).toOption.map SearchResult.offset = some 3) ∧
    ((get_first_child_internal cex4_doc).toOption.map SearchResult.element_text =
      some (str_bytes "<a/>")) ∧
    ((get_last_child_internal cex4_doc).toOption.map SearchResult.offset = some 0) ∧
    ((get_last_child_internal cex4_doc).toOption.map SearchResult.element_text =
      some (str_bytes "<r><a/><!-- </x>")) := by decide

/-- Claim C5, counterexample: when the match is the document root itself,
the search reports xpath `/root` but `resolve_path` at the returned offset
rebuilds an empty parent path and yields `//root`. -/
theorem resolve_xpath_root_cex :
    ((search_node_internal false cex5_doc (str_bytes "root") (str_bytes "tag") 0).1.toOption.map
      SearchResult.found = some true) ∧
    ((search_node_internal false cex5_doc (str_bytes "root") (str_bytes "tag") 0).1.toOption.map
      SearchResult.offset = some 0) ∧
    ((search_node_internal false cex5_doc (str_bytes "root") (str_bytes "tag") 0).1.toOption.map
      SearchResult.xpath = some (str_bytes "/root")) ∧
    resolve_xpath cex5_doc 0 (str_bytes "root") = str_bytes "//root" ∧
    str_bytes "//root" ≠ str_bytes "/root" := by decide

/-- Claim C6, counterexample: with selector `tag` an element whose name does
not contain the query still matches through an attribute literally named
`tag`; and an empty query with selector `id` fails to match an element with
no attributes. -/
theorem matcher_selector_cex :
    element_matches_bytes (str_bytes "x") [(str_bytes "tag", str_bytes "abc")]
      (str_bytes "abc") (str_bytes "tag") = true ∧
    contains_ignore_case (str_bytes "x") (str_bytes "abc") = false ∧
    element_matches_bytes (str_bytes "x") [] [] (str_bytes "id") = false := by decide

/-- Claim C7, counterexample: a non-empty file with no tags at all makes
`last_child` fail with the fall-through "Last child not found" error — an
error situation beyond the two the claim lists (empty file, root boundary
reached with no child). -/
theorem last_child_exhaustion_error_cex :
    str_bytes "hello" ≠ [] ∧ (∀ b ∈ str_bytes "hello", b ≠ 60) ∧
    get_last_child_internal (str_bytes "hello") =
      .error (str_bytes "Last child not found") :=
  ⟨by decide, by decide, by decide⟩

/-- Appending a value strictly above every element keeps the emission list
strictly increasing. -/
theorem chain_lt_snoc (ems : List Nat) (last v : Nat)
    (h1 : List.Chain' (· < ·) ems) (h2 : ∀ x ∈ ems, x ≤ last) (hv : last < v) :
    List.Chain' (· < ·) (ems ++ [v]) := by
  rw [List.chain'_append]
  refine ⟨h1, List.chain'_singleton v, ?_⟩
  intro x hx y hy
  simp only [List.head?_cons, Option.mem_def, Option.some.injEq] at hy
  subst hy
  exact lt_of_le_of_lt (h2 x (List.mem_of_getLast?_eq_some hx)) hv

/-- Emission invariant of the search loop: starting from a strictly
increasing emission list bounded by the running maximum, any successful
(not cancelled, not errored) run produces the in-loop emissions followed by
the mandatory final 100. -/
theorem search_loop_ok_ems (doc : List Nat) (file_len : Nat) (q t : List Nat) :
    ∀ (toks : List (Nat × XmlEvent)) (stack : List (List Nat)) (last : Nat)
      (ems : List Nat) (r : SearchResult) (out : List Nat),
      List.Chain' (· < ·) ems → (∀ x ∈ ems, x ≤ last) →
      search_loop false doc file_len q t toks stack last ems = (.ok r, out) →
      ∃ l, out = l ++ [100] ∧ List.Chain' (· < ·) l := by
  intro toks
  induction toks with
  | nil =>
    intro stack last ems r out h1 h2 heq
    simp only [search_loop, Prod.mk.injEq] at heq
    exact ⟨ems, heq.2.symm, h1⟩
  | cons hd tl ih =>
    obtain ⟨p, ev⟩ := hd
    intro stack last ems r out h1 h2 heq
    simp only [search_loop, Bool.false_eq_true, if_false] at heq
    set prog := progress_at p file_len with hprog
    have h1b : List.Chain' (· < ·) (if prog > last then ems ++ [prog] else ems) := by
      split
      · exact chain_lt_snoc ems last prog h1 h2 (by omega)
      · exact h1
    have h2b : ∀ x ∈ (if prog > last then ems ++ [prog] else ems),
        x ≤ (if prog > last then prog else last) := by
      split
      · intro x hx
        rcases List.mem_append.1 hx with hx | hx
        · exact le_of_lt (lt_of_le_of_lt (h2 x hx) (by omega))
        · simp only [List.mem_singleton] at hx; omega
      · exact h2
    cases ev with
    | startE name attrs =>
      by_cases hm : element_matches_bytes name attrs q t = true
      · simp only [hm, if_true, Prod.mk.injEq] at heq
        exact ⟨_, heq.2.symm, h1b⟩
      · simp only [Bool.not_eq_true] at hm
        simp only [hm, Bool.false_eq_true, if_false] at heq
        exact ih _ _ _ r out h1b h2b heq
    | endE name => exact ih _ _ _ r out h1b h2b heq
    | emptyE name attrs =>
      by_cases hm : element_matches_bytes name attrs q t = true
      · simp only [hm, if_true, Prod.mk.injEq] at heq
        exact ⟨_, heq.2.symm, h1b⟩
      · simp only [Bool.not_eq_true] at hm
        simp only [hm, Bool.false_eq_true, if_false] at heq
        exact ih _ _ _ r out h1b h2b heq
    | textE s => exact ih _ _ _ r out h1b h2b heq
    | otherE => exact ih _ _ _ r out h1b h2b heq
    | eofE =>
      simp only [Prod.mk.injEq] at heq
      exact ⟨_, heq.2.symm, h1b⟩
    | errE => simp only [Prod.mk.injEq] at heq; exact absurd heq.1 (by simp)

/-- Claim C2, amended: when the scan is not cancelled and completes (match
found or exhaustion at EOF, i.e. an `ok` result), the emitted sequence is
the strictly increasing coalesced in-loop emissions followed by the
mandatory final 100 (which may repeat an in-loop 100 at EOF); a cancelled
scan completes with no emission at all, in particular no final 100. -/
theorem progress_emissions_spec :
    (∀ doc query type_ start_offset r ems,
        search_node_internal false doc query type_ start_offset = (.ok r, ems) →
        ems.getLast? = some 100 ∧ List.Chain' (· < ·) ems.dropLast) ∧
    (∀ doc query type_ start_offset,
        (search_node_internal true doc query type_ start_offset).2 = []) := by
  constructor
  · intro doc q t off r ems h
    simp only [search_node_internal] at h
    obtain ⟨l, hl, hc⟩ := search_loop_ok_ems doc doc.length (lower_bytes q) (lower_bytes t)
      _ [] 0 [] r ems (by simp) (by simp) h
    subst hl
    refine ⟨?_, by simpa using hc⟩
    rw [List.getLast?_append]
    simp
  · intro doc q t off
    rw [search_internal_cancelled doc q t off]

/-- Witness for the amended C2 at a concrete exhausted search. -/
theorem progress_emissions_spec_witness :
    search_node_internal false (str_bytes "<a/>") (str_bytes "zzz") (str_bytes "tag") 0 =
      (.ok not_found_result, [100, 100]) ∧
    ([100, 100].getLast? = some 100 ∧ List.Chain' (· < ·) ([100, 100].dropLast)) :=
  ⟨by decide, progress_emissions_spec.1 (str_bytes "<a/>") (str_bytes "zzz") (str_bytes "tag")
    0 not_found_result [100, 100] (by decide)⟩

/-- `key_matches` is case-insensitive equality of the byte strings (the
length test is subsumed by the lowercased comparison). -/
theorem key_matches_iff (k t : List Nat) :
    key_matches k t = true ↔ lower_bytes k = lower_bytes t := by
  simp only [key_matches, Bool.and_eq_true, beq_iff_eq]
  constructor
  · exact fun h => h.2
  · intro h
    refine ⟨?_, h⟩
    have := congrArg List.length h
    simpa [lower_bytes] using this

/-- `contains_ignore_case` decides case-insensitive byte-substring
containment. -/
theorem contains_ignore_case_iff (h q : List Nat) :
    contains_ignore_case h q = true ↔
      ∃ pre mid post, h = pre ++ mid ++ post ∧ lower_bytes mid = lower_bytes q := by
  cases q with
  | nil =>
    simp only [contains_ignore_case, true_iff]
    exact ⟨[], [], h, rfl, rfl⟩
  | cons n ns =>
    induction h with
    | nil =>
      simp only [contains_ignore_case, Bool.false_eq_true, false_iff]
      rintro ⟨pre, mid, post, hdec, hlow⟩
      have hlen : mid.length = ns.length + 1 := by
        have := congrArg List.length hlow
        simpa [lower_bytes] using this
      have hlen0 : pre.length + mid.length + post.length = 0 := by
        have := congrArg List.length hdec
        simp [List.length_append] at this
        omega
      omega
    | cons x hs ih =>
      rw [contains_ignore_case]
      by_cases hlt : (x :: hs).length < (n :: ns).length
      · rw [if_pos hlt]
        simp only [Bool.false_eq_true, false_iff]
        rintro ⟨pre, mid, post, hdec, hlow⟩
        have hlen : mid.length = ns.length + 1 := by
          have := congrArg List.length hlow
          simpa [lower_bytes] using this
        have hlen2 := congrArg List.length hdec
        simp only [List.length_cons, List.length_append] at hlen2 hlt
        omega
      · rw [if_neg hlt]
        simp only [Bool.or_eq_true, beq_iff_eq]
        constructor
        · rintro (htake | hrec)
          · exact ⟨[], (x :: hs).take (n :: ns).length, (x :: hs).drop (n :: ns).length,
              by simp [List.take_append_drop], htake⟩
          · obtain ⟨pre, mid, post, hdec, hlow⟩ := ih.1 hrec
            exact ⟨x :: pre, mid, post, by rw [hdec]; rfl, hlow⟩
        · rintro ⟨pre, mid, post, hdec, hlow⟩
          cases pre with
          | nil =>
            left
            have hlen : mid.length = (n :: ns).length := by
              have := congrArg List.length hlow
              simpa [lower_bytes] using this
            simp only [List.nil_append] at hdec
            rw [hdec, ← hlen, List.take_left]
            exact hlow
          | cons a l =>
            right
            simp only [List.cons_append] at hdec
            have hx := List.cons.inj hdec
            exact ih.2 ⟨l, mid, post, hx.2, hlow⟩

/-- The six-way allow-list test of the `any` selector, as a membership
statement. -/
theorem any_keys_or_iff (k : List Nat) :
    (key_matches k (str_bytes "guid") || key_matches k (str_bytes "id")
      || key_matches k (str_bytes "name") || key_matches k (str_bytes "eaid")
      || key_matches k (str_bytes "value") || key_matches k (str_bytes "guidref")) = true ↔
      ∃ kk ∈ any_attr_keys, lower_bytes k = lower_bytes kk := by
  simp only [Bool.or_eq_true, key_matches_iff, any_attr_keys, List.mem_cons,
    List.not_mem_nil, or_false]
  constructor
  · rintro (((((h | h) | h) | h) | h) | h)
    · exact ⟨_, Or.inl rfl, h⟩
    · exact ⟨_, Or.inr (Or.inl rfl), h⟩
    · exact ⟨_, Or.inr (Or.inr (Or.inl rfl)), h⟩
    · exact ⟨_, Or.inr (Or.inr (Or.inr (Or.inl rfl))), h⟩
    · exact ⟨_, Or.inr (Or.inr (Or.inr (Or.inr (Or.inl rfl)))), h⟩
    · exact ⟨_, Or.inr (Or.inr (Or.inr (Or.inr (Or.inr rfl)))), h⟩
  · rintro ⟨kk, (rfl | rfl | rfl | rfl | rfl | rfl), h⟩ <;> tauto

/-- Claim C6, amended: full characterization of the matcher.  Selector
tag/any/empty match against the (lowercased) tag name; selector `any`
additionally matches any allow-listed attribute whose value contains the
query; every selector other than `any` — including `tag` itself — also
matches an attribute whose key equals the selector case-insensitively and
whose value contains the query.  An empty query matches through the name
check only when the selector is empty, `tag` or `any`; with any other
selector an element with no matching attribute key is not matched. -/
theorem element_matches_characterization (name : List Nat)
    (attrs : List (List Nat × List Nat)) (q t : List Nat) :
    element_matches_bytes name attrs q t = true ↔
      (((t = [] ∨ t = str_bytes "tag" ∨ t = str_bytes "any") ∧
          ∃ pre mid post, name = pre ++ mid ++ post ∧ lower_bytes mid = lower_bytes q) ∨
        (t = str_bytes "any" ∧ ∃ a ∈ attrs,
          (∃ kk ∈ any_attr_keys, lower_bytes a.1 = lower_bytes kk) ∧
          ∃ pre mid post, a.2 = pre ++ mid ++ post ∧ lower_bytes mid = lower_bytes q) ∨
        (t ≠ str_bytes "any" ∧ ∃ a ∈ attrs, lower_bytes a.1 = lower_bytes t ∧
          ∃ pre mid post, a.2 = pre ++ mid ++ post ∧ lower_bytes mid = lower_bytes q)) := by
  rw [element_matches_bytes, Bool.or_eq_true, Bool.and_eq_true, List.any_eq_true]
  by_cases ht : t = str_bytes "any"
  · subst ht
    constructor
    · rintro (⟨_, hc⟩ | ⟨a, ha, hx⟩)
      · exact Or.inl ⟨Or.inr (Or.inr rfl), (contains_ignore_case_iff _ _).1 hc⟩
      · simp only [beq_self_eq_true, if_true, Bool.and_eq_true] at hx
        exact Or.inr (Or.inl ⟨rfl, a, ha, (any_keys_or_iff a.1).1 (by
            simpa [Bool.or_eq_true] using hx.1),
          (contains_ignore_case_iff _ _).1 hx.2⟩)
    · rintro (⟨_, hname⟩ | ⟨_, a, ha, hk, hv⟩ | ⟨hne, _⟩)
      · exact Or.inl ⟨by simp, (contains_ignore_case_iff _ _).2 hname⟩
      · refine Or.inr ⟨a, ha, ?_⟩
        simp only [beq_self_eq_true, if_true, Bool.and_eq_true]
        exact ⟨by simpa [Bool.or_eq_true] using (any_keys_or_iff a.1).2 hk,
          (contains_ignore_case_iff _ _).2 hv⟩
      · exact absurd rfl hne
  · have htb : (t == str_bytes "any") = false := by
      rw [beq_eq_false_iff_ne]
      exact ht
    constructor
    · rintro (⟨hsel, hc⟩ | ⟨a, ha, hx⟩)
      · refine Or.inl ⟨?_, (contains_ignore_case_iff _ _).1 hc⟩
        simpa [List.isEmpty_iff, or_assoc] using hsel
      · rw [htb] at hx
        simp only [Bool.false_eq_true, if_false, Bool.and_eq_true] at hx
        exact Or.inr (Or.inr ⟨ht, a, ha, (key_matches_iff _ _).1 hx.1,
          (contains_ignore_case_iff _ _).1 hx.2⟩)
    · rintro (⟨hsel, hname⟩ | ⟨habs, _⟩ | ⟨_, a, ha, hk, hv⟩)
      · refine Or.inl ⟨?_, (contains_ignore_case_iff _ _).2 hname⟩
        rcases hsel with rfl | rfl | rfl
        · simp
        · simp
        · exact absurd rfl ht
      · exact absurd habs ht
      · refine Or.inr ⟨a, ha, ?_⟩
        rw [htb]
        simp only [Bool.false_eq_true, if_false, Bool.and_eq_true]
        exact ⟨(key_matches_iff _ _).2 hk, (contains_ignore_case_iff _ _).2 hv⟩

/-- Every result built by the boundary resolver is marked found. -/
theorem extract_found (doc : List Nat) (file_len approx_start approx_end : Nat)
    (xp : List Nat) :
    (extract_and_build_result doc file_len approx_start approx_end xp).found = true := rfl

/-- Any successful return of the backward scan's inner loop carries
`found = true`. -/
theorem last_child_inner_ok_found (doc : List Nat) (len current_pos read_size : Nat) :
    ∀ (i : Nat) (st : LastScanState) (r : SearchResult),
      last_child_inner doc len current_pos read_size i st = .inl (.ok r) →
      r.found = true := by
  intro i
  induction i with
  | zero => intro st r h; simp [last_child_inner] at h
  | succ i ih =>
    intro st r h
    rw [last_child_inner] at h
    repeat' split at h
    all_goals first
      | exact ih _ _ h
      | (simp only [Sum.inl.injEq, Except.ok.injEq] at h
         rw [← h]
         exact extract_found _ _ _ _ _)
      | exact absurd h (by simp)

/-- Any successful return of the backward scan's outer loop carries
`found = true`. -/
theorem last_child_outer_ok_found (doc : List Nat) (len : Nat) :
    ∀ (fuel current_pos : Nat) (st : LastScanState) (r : SearchResult),
      last_child_outer doc len fuel current_pos st = .ok r → r.found = true := by
  intro fuel
  induction fuel with
  | zero => intro cp st r h; simp [last_child_outer] at h
  | succ fuel ih =>
    intro cp st r h
    rw [last_child_outer] at h
    split at h
    · exact absurd h (by simp)
    · split at h
      case _ heq =>
        rw [h] at heq
        exact last_child_inner_ok_found doc len _ _ _ _ r heq
      case _ => exact ih _ _ _ h

/-- Claim C7, amended: `last_child` never reports `found: false` — every
non-error outcome is a found result — and it fails with an explicit error
when the file is empty, when the backward scan exits the root's own opening
tag without a recorded child (root has no children), and also when the scan
exhausts the whole file without either event (e.g. a file with no tags at
all). -/
theorem last_child_error_contract :
    (∀ doc r, get_last_child_internal doc = .ok r → r.found = true) ∧
    get_last_child_internal [] = .error (str_bytes "File is empty") ∧
    get_last_child_internal (str_bytes "<r></r>") =
      .error (str_bytes "No last child found (root exited)") := by
  refine ⟨?_, by decide, by decide⟩
  intro doc r h
  rw [get_last_child_internal] at h
  split at h
  · exact absurd h (by simp)
  · exact last_child_outer_ok_found doc doc.length _ _ _ r h

/-- Witness for the amended C7 at a concrete document with a child. -/
theorem last_child_error_contract_witness :
    get_last_child_internal (str_bytes "<r><a/></r>") = .ok last_child_sample ∧
    last_child_sample.found = true :=
  ⟨by decide, last_child_error_contract.1 (str_bytes "<r><a/></r>") last_child_sample
    (by decide)⟩

/-- Unfolding of the join over a stack with at least two entries. -/
theorem join_slash_cons_cons (s : List Nat) (s2 : List Nat) (st : List (List Nat)) :
    join_slash (s :: s2 :: st) = s ++ 47 :: join_slash (s2 :: st) := rfl

/-- The last pushed name is a suffix of the joined path. -/
theorem join_slash_suffix : ∀ (st : List (List Nat)) (name : List Nat),
    name <:+ join_slash (st ++ [name])
  | [], name => List.suffix_refl name
  | s :: st, name => by
    have hstep : join_slash ((s :: st) ++ [name]) = s ++ 47 :: join_slash (st ++ [name]) := by
      cases st <;> rfl
    rw [hstep]
    exact (join_slash_suffix st name).trans
      ((List.suffix_cons 47 _).trans (List.suffix_append s _))

/-- Joining after appending one more name appends a slash and the name. -/
theorem join_slash_append : ∀ (st : List (List Nat)) (name : List Nat), st ≠ [] →
    join_slash (st ++ [name]) = join_slash st ++ 47 :: name
  | [], _, h => absurd rfl h
  | [_], _, _ => rfl
  | s :: s2 :: st2, name, _ => by
    have h1 : join_slash ((s :: s2 :: st2) ++ [name]) =
        s ++ 47 :: join_slash ((s2 :: st2) ++ [name]) := rfl
    rw [h1, join_slash_append (s2 :: st2) name (by simp), join_slash_cons_cons]
    simp

/-- The name appended to a nonempty stack extends the path after a slash. -/
theorem xpath_of_append (st : List (List Nat)) (name : List Nat) (h : st ≠ []) :
    xpath_of (st ++ [name]) = xpath_of st ++ 47 :: name := by
  simp only [xpath_of, join_slash_append st name h]
  rfl

/-- The last pushed name is a suffix of the reported xpath. -/
theorem xpath_of_suffix (st : List (List Nat)) (name : List Nat) :
    name <:+ xpath_of (st ++ [name]) :=
  (join_slash_suffix st name).trans (List.suffix_cons 47 _)

/-- `classify_content` never yields a text, EOF or error event. -/
theorem classify_content_shape (cnt : List Nat) :
    (∀ s, classify_content cnt ≠ .textE s) ∧ classify_content cnt ≠ .eofE ∧
      classify_content cnt ≠ .errE := by
  cases cnt with
  | nil => simp [classify_content]
  | cons c rest =>
    simp only [classify_content]
    split
    · simp
    · split
      · simp
      · split <;> simp

/-- A Start event's name is a prefix of the tag content. -/
theorem classify_content_start_prefix (cnt name : List Nat)
    (attrs : List (List Nat × List Nat)) (h : classify_content cnt = .startE name attrs) :
    name <+: cnt := by
  cases cnt with
  | nil =>
    simp only [classify_content] at h
    cases h
    exact List.nil_prefix
  | cons c rest =>
    simp only [classify_content] at h
    split at h
    · simp at h
    · split at h
      · simp at h
      · split at h
        · simp at h
        · simp only [XmlEvent.startE.injEq] at h
          rw [← h.1]
          exact List.takeWhile_prefix _

/-- An Empty event's name is a prefix of the tag content. -/
theorem classify_content_empty_prefix (cnt name : List Nat)
    (attrs : List (List Nat × List Nat)) (h : classify_content cnt = .emptyE name attrs) :
    name <+: cnt := by
  cases cnt with
  | nil => simp [classify_content] at h
  | cons c rest =>
    simp only [classify_content] at h
    split at h
    · simp at h
    · split at h
      · simp at h
      · split at h
        · simp only [XmlEvent.emptyE.injEq] at h
          rw [← h.1]
          exact (List.takeWhile_prefix _).trans (List.dropLast_prefix _)
        · simp at h

/-- Full dissection of one reader step: either a terminal event, or a tag
event that consumed through a `>` (with the `<` at the step start when the
reader was in the closed state), or a text event. -/
theorem read_event_spec (opened : Bool) (bs : List Nat) (ev : XmlEvent) (c : Nat)
    (op2 : Bool) (h : read_event opened bs = (ev, c, op2)) :
    (ev = .eofE ∨ ev = .errE) ∨
    ((∀ s, ev ≠ .textE s) ∧ ev ≠ .eofE ∧ ev ≠ .errE ∧ op2 = false ∧ 1 ≤ c ∧
      bs[c - 1]? = some 62 ∧
      (opened = false → bs[0]? = some 60 ∧ 2 ≤ c) ∧
      (∀ name attrs, ev = .startE name attrs → name <+: bs.drop (if opened then 0 else 1)) ∧
      (∀ name attrs, ev = .emptyE name attrs → name <+: bs.drop (if opened then 0 else 1))) ∨
    (∃ s, ev = .textE s ∧ opened = false ∧ bs ≠ [] ∧
      ((op2 = true ∧ 2 ≤ c ∧ bs[c - 1]? = some 60) ∨
       (op2 = false ∧ c = bs.length ∧ 1 ≤ c ∧ bs.drop c = []))) := by
  cases opened with
  | true =>
    rcases hfi : bs.findIdx? (fun b => b == 62) with _ | k
    · simp only [read_event, hfi, if_true] at h
      simp only [Prod.mk.injEq] at h
      exact Or.inl (Or.inr h.1.symm)
    · simp only [read_event, hfi, if_true] at h
      simp only [Prod.mk.injEq] at h
      obtain ⟨hev, hc, hop⟩ := h
      obtain ⟨hk, hpk, _⟩ := List.findIdx?_eq_some_iff_getElem.1 hfi
      refine Or.inr (Or.inl ⟨?_, ?_, ?_, hop.symm, by omega, ?_, ?_, ?_, ?_⟩)
      · intro s; rw [← hev]; exact (classify_content_shape _).1 s
      · rw [← hev]; exact (classify_content_shape _).2.1
      · rw [← hev]; exact (classify_content_shape _).2.2
      · have h62 : bs[k]? = some 62 := by
          rw [List.getElem?_eq_some_iff]
          exact ⟨hk, by simpa using hpk⟩
        rw [← hc]
        simpa using h62
      · intro hh; exact absurd hh (by simp)
      · intro name attrs hs
        rw [hs] at hev
        simp only [if_true]
        exact ( classify_content_start_prefix _ _ _ hev).trans (List.take_prefix _ _)
      · intro name attrs hs
        rw [hs] at hev
        simp only [if_true]
        exact ( classify_content_empty_prefix _ _ _ hev).trans (List.take_prefix _ _)
  | false =>
    cases bs with
    | nil =>
      simp only [read_event, Bool.false_eq_true, if_false] at h
      simp only [Prod.mk.injEq] at h
      exact Or.inl (Or.inl h.1.symm)
    | cons b0 brest =>
      rcases hfi : (b0 :: brest).findIdx? (fun b => b == 60) with _ | j
      · simp only [read_event, hfi, Bool.false_eq_true, if_false] at h
        simp only [Prod.mk.injEq] at h
        obtain ⟨hev, hc, hop⟩ := h
        refine Or.inr (Or.inr ⟨b0 :: brest, hev.symm, rfl, by simp,
          Or.inr ⟨hop.symm, hc.symm, ?_, ?_⟩⟩)
        · rw [← hc]; simp
        · rw [← hc]; simp
      · cases j with
        | zero =>
          rcases hfi2 : ((b0 :: brest).drop 1).findIdx? (fun b => b == 62) with _ | k
          · simp only [read_event, hfi, hfi2, Bool.false_eq_true, if_false] at h
            simp only [Prod.mk.injEq] at h
            exact Or.inl (Or.inr h.1.symm)
          · simp only [read_event, hfi, hfi2, Bool.false_eq_true, if_false] at h
            simp only [Prod.mk.injEq] at h
            obtain ⟨hev, hc, hop⟩ := h
            obtain ⟨hj, hpj, _⟩ := List.findIdx?_eq_some_iff_getElem.1 hfi
            obtain ⟨hk, hpk, _⟩ := List.findIdx?_eq_some_iff_getElem.1 hfi2
            refine Or.inr (Or.inl ⟨?_, ?_, ?_, hop.symm, by omega, ?_, ?_, ?_, ?_⟩)
            · intro s; rw [← hev]; exact (classify_content_shape _).1 s
            · rw [← hev]; exact (classify_content_shape _).2.1
            · rw [← hev]; exact (classify_content_shape _).2.2
            · have h62 : ((b0 :: brest).drop 1)[k]? = some 62 := by
                rw [List.getElem?_eq_some_iff]
                exact ⟨hk, by simpa using hpk⟩
              rw [List.getElem?_drop, Nat.add_comm] at h62
              rw [← hc]
              simpa using h62
            · intro _
              refine ⟨?_, by omega⟩
              rw [List.getElem?_eq_some_iff]
              exact ⟨hj, by simpa using hpj⟩
            · intro name attrs hs
              rw [hs] at hev
              simp only [Bool.false_eq_true, if_false]
              exact ( classify_content_start_prefix _ _ _ hev).trans (List.take_prefix _ _)
            · intro name attrs hs
              rw [hs] at hev
              simp only [Bool.false_eq_true, if_false]
              exact ( classify_content_empty_prefix _ _ _ hev).trans (List.take_prefix _ _)
        | succ j2 =>
          simp only [read_event, hfi, Bool.false_eq_true, if_false] at h
          simp only [Prod.mk.injEq] at h
          obtain ⟨hev, hc, hop⟩ := h
          obtain ⟨hj, hpj, _⟩ := List.findIdx?_eq_some_iff_getElem.1 hfi
          refine Or.inr (Or.inr ⟨(b0 :: brest).take (j2 + 1), hev.symm, rfl, by simp,
            Or.inl ⟨hop.symm, by omega, ?_⟩⟩)
          have h60 : (b0 :: brest)[j2 + 1]? = some 60 := by
            rw [List.getElem?_eq_some_iff]
            exact ⟨hj, by simpa using hpj⟩
          rw [← hc]
          simpa using h60

/-- One un-cancelled scan step on a Start token. -/
theorem search_loop_false_start (doc : List Nat) (fl : Nat) (q t : List Nat) (p : Nat)
    (name : List Nat) (attrs : List (List Nat × List Nat)) (rest : List (Nat × XmlEvent))
    (stack : List (List Nat)) (last : Nat) (ems : List Nat) :
    search_loop false doc fl q t ((p, .startE name attrs) :: rest) stack last ems =
      (if element_matches_bytes name attrs q t then
        (.ok (extract_and_build_result doc fl p
            (find_element_end_pos name fl (next_pos rest p) rest 1)
            (xpath_of (stack ++ [name]))),
          (if progress_at p fl > last then ems ++ [progress_at p fl] else ems) ++ [100])
       else search_loop false doc fl q t rest (stack ++ [name])
          (if progress_at p fl > last then progress_at p fl else last)
          (if progress_at p fl > last then ems ++ [progress_at p fl] else ems)) := rfl

/-- One un-cancelled scan step on an Empty token. -/
theorem search_loop_false_empty (doc : List Nat) (fl : Nat) (q t : List Nat) (p : Nat)
    (name : List Nat) (attrs : List (List Nat × List Nat)) (rest : List (Nat × XmlEvent))
    (stack : List (List Nat)) (last : Nat) (ems : List Nat) :
    search_loop false doc fl q t ((p, .emptyE name attrs) :: rest) stack last ems =
      (if element_matches_bytes name attrs q t then
        (.ok (extract_and_build_result doc fl p (next_pos rest p)
            (xpath_of (stack ++ [name]))),
          (if progress_at p fl > last then ems ++ [progress_at p fl] else ems) ++ [100])
       else search_loop false doc fl q t rest stack
          (if progress_at p fl > last then progress_at p fl else last)
          (if progress_at p fl > last then ems ++ [progress_at p fl] else ems)) := rfl

/-- One un-cancelled scan step on an End token. -/
theorem search_loop_false_end (doc : List Nat) (fl : Nat) (q t : List Nat) (p : Nat)
    (name : List Nat) (rest : List (Nat × XmlEvent)) (stack : List (List Nat)) (last : Nat)
    (ems : List Nat) :
    search_loop false doc fl q t ((p, .endE name) :: rest) stack last ems =
      search_loop false doc fl q t rest stack.dropLast
        (if progress_at p fl > last then progress_at p fl else last)
        (if progress_at p fl > last then ems ++ [progress_at p fl] else ems) := rfl

/-- One un-cancelled scan step on a Text token. -/
theorem search_loop_false_text (doc : List Nat) (fl : Nat) (q t : List Nat) (p : Nat)
    (s : List Nat) (rest : List (Nat × XmlEvent)) (stack : List (List Nat)) (last : Nat)
    (ems : List Nat) :
    search_loop false doc fl q t ((p, .textE s) :: rest) stack last ems =
      search_loop false doc fl q t rest stack
        (if progress_at p fl > last then progress_at p fl else last)
        (if progress_at p fl > last then ems ++ [progress_at p fl] else ems) := rfl

/-- One un-cancelled scan step on an ignored token. -/
theorem search_loop_false_other (doc : List Nat) (fl : Nat) (q t : List Nat) (p : Nat)
    (rest : List (Nat × XmlEvent)) (stack : List (List Nat)) (last : Nat) (ems : List Nat) :
    search_loop false doc fl q t ((p, .otherE) :: rest) stack last ems =
      search_loop false doc fl q t rest stack
        (if progress_at p fl > last then progress_at p fl else last)
        (if progress_at p fl > last then ems ++ [progress_at p fl] else ems) := rfl

/-- The un-cancelled scan's exhaustion step. -/
theorem search_loop_false_eof (doc : List Nat) (fl : Nat) (q t : List Nat) (p : Nat)
    (rest : List (Nat × XmlEvent)) (stack : List (List Nat)) (last : Nat) (ems : List Nat) :
    search_loop false doc fl q t ((p, .eofE) :: rest) stack last ems =
      (.ok not_found_result,
        (if progress_at p fl > last then ems ++ [progress_at p fl] else ems) ++ [100]) := rfl

/-- The un-cancelled scan's error step. -/
theorem search_loop_false_err (doc : List Nat) (fl : Nat) (q t : List Nat) (p : Nat)
    (rest : List (Nat × XmlEvent)) (stack : List (List Nat)) (last : Nat) (ems : List Nat) :
    search_loop false doc fl q t ((p, .errE) :: rest) stack last ems =
      (.error (search_err_msg p),
        if progress_at p fl > last then ems ++ [progress_at p fl] else ems) := rfl

/-- One replay step of `reconstruct_xpath`. -/
theorem recon_loop_cons (target p : Nat) (ev : XmlEvent) (rest : List (Nat × XmlEvent))
    (stack : List (List Nat)) :
    recon_loop target ((p, ev) :: rest) stack =
      (if p ≥ target then stack
       else
        match ev with
        | .startE name _ => recon_loop target rest (stack ++ [name])
        | .endE _ => recon_loop target rest stack.dropLast
        | .eofE => stack
        | .errE => stack
        | _ => recon_loop target rest stack) := rfl

/-- The backward 2 KiB window of the boundary resolver ends at the byte
just before the approximate start. -/
theorem scan_back_getLast (doc : List Nat) (aStart : Nat) (h0 : 0 < aStart)
    (hle : aStart ≤ doc.length) :
    ((doc.drop (if aStart > 2048 then aStart - 2048 else 0)).take
      (aStart - (if aStart > 2048 then aStart - 2048 else 0))).getLast? =
      doc[aStart - 1]? := by
  set s := (if aStart > 2048 then aStart - 2048 else 0) with hs
  have hslt : s < aStart := by rw [hs]; split <;> omega
  rw [List.getLast?_eq_getElem?]
  have hlen : ((doc.drop s).take (aStart - s)).length = aStart - s := by
    simp only [List.length_take, List.length_drop]
    omega
  rw [hlen, List.getElem?_take_of_lt (by omega), List.getElem?_drop]
  congr 1
  omega

/-- The offset field of the boundary resolver, written out. -/
theorem extract_offset_eq (doc : List Nat) (fl aStart aEnd : Nat) (xp : List Nat) :
    (extract_and_build_result doc fl aStart aEnd xp).offset =
      (if aStart - (if aStart > 2048 then aStart - 2048 else 0) > 0 then
        (if ((doc.drop (if aStart > 2048 then aStart - 2048 else 0)).take
              (aStart - (if aStart > 2048 then aStart - 2048 else 0))).getLast? = some 60
         then aStart - 1
         else
          match ((doc.drop aStart).take 256).findIdx? (fun b => b == 60) with
          | some i => aStart + i
          | none => aStart)
       else aStart) := rfl

/-- When the tokenizer position sits one past the `<` (text was consumed),
the resolver lands exactly on that `<`. -/
theorem extract_offset_opened (doc : List Nat) (fl aStart aEnd : Nat) (xp : List Nat)
    (h0 : 0 < aStart) (hle : aStart ≤ doc.length) (h : doc[aStart - 1]? = some 60) :
    (extract_and_build_result doc fl aStart aEnd xp).offset = aStart - 1 := by
  rw [extract_offset_eq, if_pos (by split <;> omega),
    if_pos (by rw [scan_back_getLast doc aStart h0 hle]; exact h)]

/-- When the tokenizer position sits exactly on the `<` (start of file or
right after the previous tag's `>`), the resolver keeps it. -/
theorem extract_offset_closed (doc : List Nat) (fl aStart aEnd : Nat) (xp : List Nat)
    (h : doc[aStart]? = some 60) (hprev : aStart = 0 ∨ doc[aStart - 1]? = some 62) :
    (extract_and_build_result doc fl aStart aEnd xp).offset = aStart := by
  rw [extract_offset_eq]
  by_cases h0 : aStart = 0
  · subst h0
    simp
  · rcases hprev with h00 | hprev
    · exact absurd h00 h0
    · have hlt : aStart < doc.length := (List.getElem?_eq_some_iff.1 h).1
      rw [if_pos (by split <;> omega),
        if_neg (by rw [scan_back_getLast doc aStart (by omega) (by omega), hprev]; simp)]
      have hfind : ((doc.drop aStart).take 256).findIdx? (fun b => b == 60) = some 0 := by
        rw [List.findIdx?_eq_some_iff_getElem]
        have hlen : ((doc.drop aStart).take 256).length = min 256 (doc.length - aStart) := by
          simp [List.length_take, List.length_drop]
        have hpos : 0 < ((doc.drop aStart).take 256).length := by omega
        refine ⟨hpos, ?_, ?_⟩
        · have hget : ((doc.drop aStart).take 256)[0]? = some 60 := by
            rw [List.getElem?_take_of_lt (by omega), List.getElem?_drop]
            simpa using h
          have := (List.getElem?_eq_some_iff.1 hget).2
          simp [this]
        · intro j hj
          omega
      rw [hfind]
      simp

/-- Master invariant of the forward scan started anywhere in the closed
state with the reader invariants: any found result's offset lands on a `<`
followed by the matched name, the reported xpath is the slash-join of the
replayed ancestor stack plus the name, and the `reconstruct_xpath` replay
over the same stream stops with exactly that ancestor stack. -/
theorem search_found_master (doc q t : List Nat) :
    ∀ (fuel : Nat) (opened : Bool) (bs : List Nat) (pos : Nat) (stack : List (List Nat))
      (last : Nat) (ems : List Nat) (r : SearchResult) (out : List Nat),
      bs = doc.drop pos →
      (opened = true → 0 < pos ∧ doc[pos - 1]? = some 60) →
      (opened = false → pos = 0 ∨ doc[pos - 1]? = some 62 ∨ bs = []) →
      search_loop false doc doc.length q t (tokenize fuel opened bs pos) stack last ems
        = (.ok r, out) →
      r.found = true →
      (if opened = true then pos - 1 else pos) ≤ r.offset ∧
      ∃ name rstack,
        doc[r.offset]? = some 60 ∧
        name <+: doc.drop (r.offset + 1) ∧
        r.xpath = xpath_of (rstack ++ [name]) ∧
        recon_loop r.offset (tokenize fuel opened bs pos) stack = rstack := by
  intro fuel
  induction fuel with
  | zero =>
    intro opened bs pos stack last ems r out _ _ _ hs _
    rw [tokenize, search_loop_false_err] at hs
    simp at hs
  | succ fuel ih =>
    intro opened bs pos stack last ems r out hbs hop hcl hs hf
    rcases hre : read_event opened bs with ⟨ev, c, op2⟩
    have htok : tokenize (fuel + 1) opened bs pos =
        (if ev = .eofE ∨ ev = .errE then [(pos, ev)]
         else (pos, ev) :: tokenize fuel op2 (bs.drop c) (pos + c)) := by
      rw [tokenize, hre]
    rcases read_event_spec opened bs ev c op2 hre with hterm | htag | htext
    · rw [if_pos hterm] at htok
      rcases hterm with he | he
      · subst he
        rw [htok, search_loop_false_eof] at hs
        simp only [Prod.mk.injEq, Except.ok.injEq] at hs
        rw [← hs.1] at hf
        exact absurd hf (by decide)
      · subst he
        rw [htok, search_loop_false_err] at hs
        simp at hs
    · obtain ⟨hnt, hne, hnr, hop2, hc1, hlast62, hclosed, hpfx_s, hpfx_e⟩ := htag
      subst hop2
      rw [if_neg (by tauto)] at htok
      have hbs2 : bs.drop c = doc.drop (pos + c) := by rw [hbs, List.drop_drop]
      have hprev62 : doc[pos + c - 1]? = some 62 := by
        rw [hbs, List.getElem?_drop] at hlast62
        rw [show pos + c - 1 = pos + (c - 1) by omega]
        exact hlast62
      have hop2f : ((false : Bool) = true) → 0 < pos + c ∧ doc[pos + c - 1]? = some 60 :=
        fun hh => absurd hh (by simp)
      have hcl2 : ((false : Bool) = false) →
          pos + c = 0 ∨ doc[pos + c - 1]? = some 62 ∨ bs.drop c = [] :=
        fun _ => Or.inr (Or.inl hprev62)
      cases ev with
      | startE name attrs =>
        rw [htok, search_loop_false_start] at hs
        by_cases hm : element_matches_bytes name attrs q t = true
        · rw [if_pos hm] at hs
          simp only [Prod.mk.injEq, Except.ok.injEq] at hs
          obtain ⟨hr, _⟩ := hs
          have hxp : r.xpath = xpath_of (stack ++ [name]) := by rw [← hr]; rfl
          cases opened with
          | true =>
            obtain ⟨hpos0, h60⟩ := hop rfl
            have hle : pos ≤ doc.length := by
              have := (List.getElem?_eq_some_iff.1 h60).1
              omega
            have hoff : r.offset = pos - 1 := by
              rw [← hr]
              exact extract_offset_opened doc _ pos _ _ hpos0 hle h60
            refine ⟨by rw [hoff]; simp, name, stack, ?_, ?_, hxp, ?_⟩
            · rw [hoff]; exact h60
            · rw [hoff, show pos - 1 + 1 = pos by omega, ← hbs]
              simpa using hpfx_s name attrs rfl
            · rw [htok, recon_loop_cons, if_pos (by omega)]
          | false =>
            have h60 : doc[pos]? = some 60 := by
              have := (hclosed rfl).1
              rw [hbs, List.getElem?_drop] at this
              simpa using this
            have hprev : pos = 0 ∨ doc[pos - 1]? = some 62 := by
              rcases hcl rfl with hh | hh | hh
              · exact Or.inl hh
              · exact Or.inr hh
              · have := (hclosed rfl).1
                rw [hh] at this
                simp at this
            have hoff : r.offset = pos := by
              rw [← hr]
              exact extract_offset_closed doc _ pos _ _ h60 hprev
            refine ⟨by rw [hoff]; simp, name, stack, ?_, ?_, hxp, ?_⟩
            · rw [hoff]; exact h60
            · rw [hoff]
              have := hpfx_s name attrs rfl
              simp only [Bool.false_eq_true, if_false] at this
              rw [hbs, List.drop_drop] at this
              simpa [Nat.add_comm] using this
            · rw [htok, recon_loop_cons, if_pos (by omega)]
        · rw [if_neg hm] at hs
          obtain ⟨hbound, name2, rstack, hh60, hpfx2, hxp2, hrec⟩ :=
            ih false (bs.drop c) (pos + c) (stack ++ [name]) _ _ r out hbs2 hop2f hcl2 hs hf
          have hble : pos + c ≤ r.offset := by simpa using hbound
          refine ⟨by split <;> omega, name2, rstack, hh60, hpfx2, hxp2, ?_⟩
          rw [htok, recon_loop_cons, if_neg (by omega)]
          exact hrec
      | endE name =>
        rw [htok, search_loop_false_end] at hs
        obtain ⟨hbound, name2, rstack, hh60, hpfx2, hxp2, hrec⟩ :=
          ih false (bs.drop c) (pos + c) stack.dropLast _ _ r out hbs2 hop2f hcl2 hs hf
        have hble : pos + c ≤ r.offset := by simpa using hbound
        refine ⟨by split <;> omega, name2, rstack, hh60, hpfx2, hxp2, ?_⟩
        rw [htok, recon_loop_cons, if_neg (by omega)]
        exact hrec
      | emptyE name attrs =>
        rw [htok, search_loop_false_empty] at hs
        by_cases hm : element_matches_bytes name attrs q t = true
        · rw [if_pos hm] at hs
          simp only [Prod.mk.injEq, Except.ok.injEq] at hs
          obtain ⟨hr, _⟩ := hs
          have hxp : r.xpath = xpath_of (stack ++ [name]) := by rw [← hr]; rfl
          cases opened with
          | true =>
            obtain ⟨hpos0, h60⟩ := hop rfl
            have hle : pos ≤ doc.length := by
              have := (List.getElem?_eq_some_iff.1 h60).1
              omega
            have hoff : r.offset = pos - 1 := by
              rw [← hr]
              exact extract_offset_opened doc _ pos _ _ hpos0 hle h60
            refine ⟨by rw [hoff]; simp, name, stack, ?_, ?_, hxp, ?_⟩
            · rw [hoff]; exact h60
            · rw [hoff, show pos - 1 + 1 = pos by omega, ← hbs]
              simpa using hpfx_e name attrs rfl
            · rw [htok, recon_loop_cons, if_pos (by omega)]
          | false =>
            have h60 : doc[pos]? = some 60 := by
              have := (hclosed rfl).1
              rw [hbs, List.getElem?_drop] at this
              simpa using this
            have hprev : pos = 0 ∨ doc[pos - 1]? = some 62 := by
              rcases hcl rfl with hh | hh | hh
              · exact Or.inl hh
              · exact Or.inr hh
              · have := (hclosed rfl).1
                rw [hh] at this
                simp at this
            have hoff : r.offset = pos := by
              rw [← hr]
              exact extract_offset_closed doc _ pos _ _ h60 hprev
            refine ⟨by rw [hoff]; simp, name, stack, ?_, ?_, hxp, ?_⟩
            · rw [hoff]; exact h60
            · rw [hoff]
              have := hpfx_e name attrs rfl
              simp only [Bool.false_eq_true, if_false] at this
              rw [hbs, List.drop_drop] at this
              simpa [Nat.add_comm] using this
            · rw [htok, recon_loop_cons, if_pos (by omega)]
        · rw [if_neg hm] at hs
          obtain ⟨hbound, name2, rstack, hh60, hpfx2, hxp2, hrec⟩ :=
            ih false (bs.drop c) (pos + c) stack _ _ r out hbs2 hop2f hcl2 hs hf
          have hble : pos + c ≤ r.offset := by simpa using hbound
          refine ⟨by split <;> omega, name2, rstack, hh60, hpfx2, hxp2, ?_⟩
          rw [htok, recon_loop_cons, if_neg (by omega)]
          exact hrec
      | textE s => exact absurd rfl (hnt s)
      | otherE =>
        rw [htok, search_loop_false_other] at hs
        obtain ⟨hbound, name2, rstack, hh60, hpfx2, hxp2, hrec⟩ :=
          ih false (bs.drop c) (pos + c) stack _ _ r out hbs2 hop2f hcl2 hs hf
        have hble : pos + c ≤ r.offset := by simpa using hbound
        refine ⟨by split <;> omega, name2, rstack, hh60, hpfx2, hxp2, ?_⟩
        rw [htok, recon_loop_cons, if_neg (by omega)]
        exact hrec
      | eofE => exact absurd rfl hne
      | errE => exact absurd rfl hnr
    · obtain ⟨s, hevt, hopn, hbne, hrest⟩ := htext
      subst hevt
      subst hopn
      rw [if_neg (by simp)] at htok
      rw [htok, search_loop_false_text] at hs
      have hbs2 : bs.drop c = doc.drop (pos + c) := by rw [hbs, List.drop_drop]
      rcases hrest with ⟨hop2, hc2, h60l⟩ | ⟨hop2, hclen, hc1, hdrop⟩
      · subst hop2
        have h60 : doc[pos + c - 1]? = some 60 := by
          rw [hbs, List.getElem?_drop] at h60l
          rw [show pos + c - 1 = pos + (c - 1) by omega]
          exact h60l
        have hop2t : ((true : Bool) = true) → 0 < pos + c ∧ doc[pos + c - 1]? = some 60 :=
          fun _ => ⟨by omega, h60⟩
        have hcl2 : ((true : Bool) = false) →
            pos + c = 0 ∨ doc[pos + c - 1]? = some 62 ∨ bs.drop c = [] :=
          fun hh => absurd hh (by simp)
        obtain ⟨hbound, name2, rstack, hh60, hpfx2, hxp2, hrec⟩ :=
          ih true (bs.drop c) (pos + c) stack _ _ r out hbs2 hop2t hcl2 hs hf
        have hble : pos + c - 1 ≤ r.offset := by simpa using hbound
        refine ⟨by simp only [Bool.false_eq_true, if_false]; omega, name2, rstack, hh60, hpfx2, hxp2, ?_⟩
        rw [htok, recon_loop_cons, if_neg (by omega)]
        exact hrec
      · subst hop2
        have hop2f : ((false : Bool) = true) → 0 < pos + c ∧ doc[pos + c - 1]? = some 60 :=
          fun hh => absurd hh (by simp)
        have hcl2 : ((false : Bool) = false) →
            pos + c = 0 ∨ doc[pos + c - 1]? = some 62 ∨ bs.drop c = [] :=
          fun _ => Or.inr (Or.inr hdrop)
        obtain ⟨hbound, name2, rstack, hh60, hpfx2, hxp2, hrec⟩ :=
          ih false (bs.drop c) (pos + c) stack _ _ r out hbs2 hop2f hcl2 hs hf
        have hble : pos + c ≤ r.offset := by simpa using hbound
        refine ⟨by simp only [Bool.false_eq_true, if_false]; omega, name2, rstack, hh60, hpfx2, hxp2, ?_⟩
        rw [htok, recon_loop_cons, if_neg (by omega)]
        exact hrec

/-- Claim C3, amended: for every element found by a full-document search
(start offset 0), the file byte at the returned offset is `<` and the bytes
immediately after it spell the matched tag's name (a suffix of the reported
xpath); consequently `read_chunk` from that offset with any sufficient size
returns text beginning with `<` followed by that name.  (With a nonzero
start offset the property can fail when the byte before the seek target is
a stray `<`.) -/
theorem search_result_offset_spec (doc q t : List Nat) (r : SearchResult) (out : List Nat)
    (h : search_node_internal false doc q t 0 = (.ok r, out)) (hf : r.found = true) :
    ∃ name,
      doc[r.offset]? = some 60 ∧
      (60 :: name) <+: doc.drop r.offset ∧
      name <:+ r.xpath ∧
      (∀ size, read_chunk_internal doc r.offset size = .ok ((doc.drop r.offset).take size)) ∧
      (∀ size, name.length + 1 ≤ size → (60 :: name) <+: (doc.drop r.offset).take size) := by
  simp only [search_node_internal, List.drop_zero] at h
  obtain ⟨_, name, rstack, h60, hpfx, hxp, _⟩ :=
    search_found_master doc (lower_bytes q) (lower_bytes t) (doc.length + 1) false doc 0
      [] 0 [] r out (by simp) (fun hh => absurd hh (by simp)) (fun _ => Or.inl rfl) h hf
  have hcons : doc.drop r.offset = 60 :: doc.drop (r.offset + 1) := by
    obtain ⟨hlt, hget⟩ := List.getElem?_eq_some_iff.1 h60
    rw [List.drop_eq_getElem_cons hlt, hget]
  have hp : (60 :: name) <+: doc.drop r.offset := by
    rw [hcons]
    exact List.cons_prefix_cons.mpr ⟨rfl, hpfx⟩
  refine ⟨name, h60, hp, ?_, fun size => rfl, ?_⟩
  · rw [hxp]; exact xpath_of_suffix rstack name
  · intro size hsize
    obtain ⟨post, hpost⟩ := hp
    rw [← hpost, List.take_append_eq_append_take,
      List.take_of_length_le (by simpa using hsize)]
    exact List.prefix_append _ _

/-- Witness for the amended C3 at a concrete found search. -/
theorem search_result_offset_spec_witness :
    search_node_internal false (str_bytes "<r><a/></r>") (str_bytes "a") (str_bytes "tag") 0 =
      (.ok search_sample, [27, 100]) ∧ search_sample.found = true ∧
    (∃ name,
      (str_bytes "<r><a/></r>")[search_sample.offset]? = some 60 ∧
      (60 :: name) <+: (str_bytes "<r><a/></r>").drop search_sample.offset ∧
      name <:+ search_sample.xpath ∧
      (∀ size, read_chunk_internal (str_bytes "<r><a/></r>") search_sample.offset size =
        .ok (((str_bytes "<r><a/></r>").drop search_sample.offset).take size)) ∧
      (∀ size, name.length + 1 ≤ size →
        (60 :: name) <+: ((str_bytes "<r><a/></r>").drop search_sample.offset).take size)) :=
  ⟨by decide, rfl,
    search_result_offset_spec (str_bytes "<r><a/></r>") (str_bytes "a") (str_bytes "tag")
      search_sample [27, 100] (by decide) rfl⟩

/-- Claim C5, amended: for every match found by a full-document search,
`resolve_path` applied to the returned offset and the matched name
reproduces the reported xpath whenever the match has at least one ancestor;
when the match is the document root (empty replayed stack), `resolve_path`
yields the xpath with one extra leading slash instead.  (Searches started
at a nonzero offset report a stack-relative xpath which `resolve_path`
does not reproduce.) -/
theorem resolve_xpath_round_trip (doc q t : List Nat) (r : SearchResult) (out : List Nat)
    (h : search_node_internal false doc q t 0 = (.ok r, out)) (hf : r.found = true) :
    ∃ name rstack,
      r.xpath = xpath_of (rstack ++ [name]) ∧
      (rstack ≠ [] → resolve_xpath doc r.offset name = r.xpath) ∧
      (rstack = [] → resolve_xpath doc r.offset name = 47 :: r.xpath) := by
  simp only [search_node_internal, List.drop_zero] at h
  obtain ⟨_, name, rstack, _, _, hxp, hrec⟩ :=
    search_found_master doc (lower_bytes q) (lower_bytes t) (doc.length + 1) false doc 0
      [] 0 [] r out (by simp) (fun hh => absurd hh (by simp)) (fun _ => Or.inl rfl) h hf
  refine ⟨name, rstack, hxp, ?_, ?_⟩
  · intro hne
    rw [resolve_xpath, reconstruct_xpath, hrec, hxp, xpath_of_append rstack name hne]
    simp
  · intro hemp
    subst hemp
    rw [resolve_xpath, reconstruct_xpath, hrec, hxp]
    rfl

/-- Witness for the amended C5 at a concrete found search with one
ancestor. -/
theorem resolve_xpath_round_trip_witness :
    search_node_internal false (str_bytes "<r><a/></r>") (str_bytes "a") (str_bytes "tag") 0 =
      (.ok search_sample, [27, 100]) ∧ search_sample.found = true ∧
    (∃ name rstack,
      search_sample.xpath = xpath_of (rstack ++ [name]) ∧
      (rstack ≠ [] → resolve_xpath (str_bytes "<r><a/></r>") search_sample.offset name =
        search_sample.xpath) ∧
      (rstack = [] → resolve_xpath (str_bytes "<r><a/></r>") search_sample.offset name =
        47 :: search_sample.xpath)) :=
  ⟨by decide, rfl,
    resolve_xpath_round_trip (str_bytes "<r><a/></r>") (str_bytes "a") (str_bytes "tag")
      search_sample [27, 100] (by decide) rfl⟩

/-- Unfolding of one tokenizer step on a non-terminal event. -/
theorem tokenize_step (fuel : Nat) (opened : Bool) (bs : List Nat) (pos : Nat)
    (ev : XmlEvent) (c : Nat) (op2 : Bool) (hre : read_event opened bs = (ev, c, op2))
    (hev : ¬(ev = .eofE ∨ ev = .errE)) :
    tokenize (fuel + 1) opened bs pos = (pos, ev) :: tokenize fuel op2 (bs.drop c) (pos + c) := by
  rw [tokenize, hre, if_neg hev]

/-- Unfolding of the tokenizer's EOF step. -/
theorem tokenize_eof (fuel : Nat) (opened : Bool) (bs : List Nat) (pos : Nat)
    (c : Nat) (op2 : Bool) (hre : read_event opened bs = (.eofE, c, op2)) :
    tokenize (fuel + 1) opened bs pos = [(pos, .eofE)] := by
  rw [tokenize, hre, if_pos (Or.inl rfl)]

/-- Claim C9: when the end-location scan for a matched element reaches EOF
before the depth returns to zero (here: an unclosed `<a>` followed by
tag-free trailing bytes), or hits a parse error (an unterminated `<b`), the
search still returns a `found: true` result whose approximate end is the
file length, respectively the scan position at the error — no failure is
propagated. -/
theorem find_end_clamped (tail : List Nat) (hne : tail ≠ [])
    (hfree : ∀ b ∈ tail, b ≠ 60 ∧ b ≠ 62) (hlen : tail.length ≤ 1000000) :
    ((search_node_internal false (60 :: 114 :: 62 :: 60 :: 97 :: 62 :: tail)
        (str_bytes "a") (str_bytes "tag") 0).1 =
      .ok (extract_and_build_result (60 :: 114 :: 62 :: 60 :: 97 :: 62 :: tail)
        (tail.length + 6) 3 (tail.length + 6) (xpath_of [[114], [97]])) ∧
     (extract_and_build_result (60 :: 114 :: 62 :: 60 :: 97 :: 62 :: tail)
        (tail.length + 6) 3 (tail.length + 6) (xpath_of [[114], [97]])).found = true) ∧
    ((search_node_internal false (str_bytes "<r><a><b") (str_bytes "a") (str_bytes "tag") 0).1 =
      .ok (extract_and_build_result (str_bytes "<r><a><b") 8 3 6 (str_bytes "/r/a")) ∧
     (extract_and_build_result (str_bytes "<r><a><b") 8 3 6 (str_bytes "/r/a")).found = true) := by
  refine ⟨⟨?_, rfl⟩, by decide⟩
  cases tail with
  | nil => exact absurd rfl hne
  | cons b tb =>
    have hlen2 : tb.length + 1 ≤ 1000000 := by simpa using hlen
    set doc := 60 :: 114 :: 62 :: 60 :: 97 :: 62 :: b :: tb with hdoc
    have hL : doc.length = tb.length + 7 := by simp [hdoc]
    have e1 : read_event false doc = (.startE [114] [], 3, false) := by
      simp [hdoc, read_event, classify_content, qx_name, is_ws, parse_attrs, parse_attrs_go]
    have e2 : read_event false (60 :: 97 :: 62 :: b :: tb) = (.startE [97] [], 3, false) := by
      simp [read_event, classify_content, qx_name, is_ws, parse_attrs, parse_attrs_go]
    have hfi3 : (b :: tb).findIdx? (fun x => x == 60) = none := by
      rw [List.findIdx?_eq_none_iff]
      intro x hx
      simpa using (hfree x hx).1
    have e3 : read_event false (b :: tb) = (.textE (b :: tb), tb.length + 1, false) := by
      simp [read_event, hfi3]
    have htoks : tokenize (doc.length + 1) false doc 0 =
        (0, .startE [114] []) :: (3, .startE [97] []) ::
        (6, .textE (b :: tb)) :: [(7 + tb.length, .eofE)] := by
      rw [tokenize_step (doc.length) false doc 0 _ _ _ e1 (by simp)]
      rw [hL, show tb.length + 7 = tb.length + 6 + 1 by omega]
      rw [show doc.drop 3 = 60 :: 97 :: 62 :: b :: tb by simp [hdoc]]
      rw [tokenize_step (tb.length + 6) false _ 3 _ _ _ e2 (by simp)]
      rw [show tb.length + 6 = tb.length + 5 + 1 by omega]
      rw [show (60 :: 97 :: 62 :: b :: tb).drop 3 = b :: tb from rfl]
      rw [tokenize_step (tb.length + 5) false _ 6 _ _ _ e3 (by simp)]
      rw [show (b :: tb).drop (tb.length + 1) = ([] : List Nat) from
        List.drop_eq_nil_of_le (by simp)]
      rw [show tb.length + 5 = tb.length + 4 + 1 by omega]
      rw [tokenize_eof (tb.length + 4) false [] (6 + (tb.length + 1)) 0 false rfl]
      rw [show 6 + (tb.length + 1) = 7 + tb.length by omega]
    have hend : find_element_end_pos [97] doc.length 6
        ((6, XmlEvent.textE (b :: tb)) :: [(7 + tb.length, XmlEvent.eofE)]) 1 =
        doc.length := by
      show find_element_end_pos [97] doc.length 6 [(7 + tb.length, XmlEvent.eofE)] 1 =
        doc.length
      rw [find_element_end_pos, if_neg (by omega)]
    simp only [search_node_internal, List.drop_zero]
    rw [htoks]
    rw [search_loop_false_start, if_neg (by decide)]
    rw [search_loop_false_start, if_pos (by decide)]
    simp only [next_pos]
    rw [hend]
    have harg : (b :: tb).length + 6 = doc.length := by
      simp only [hL, List.length_cons]
    rw [← harg]
    rfl

/-- Witness for C9 at a concrete tag-free tail. -/
theorem find_end_clamped_witness :
    (([120, 121, 122] : List Nat) ≠ [] ∧ (∀ b ∈ ([120, 121, 122] : List Nat), b ≠ 60 ∧ b ≠ 62) ∧
      ([120, 121, 122] : List Nat).length ≤ 1000000) ∧
    (((search_node_internal false (60 :: 114 :: 62 :: 60 :: 97 :: 62 :: [120, 121, 122])
        (str_bytes "a") (str_bytes "tag") 0).1 =
      .ok (extract_and_build_result (60 :: 114 :: 62 :: 60 :: 97 :: 62 :: [120, 121, 122])
        (([120, 121, 122] : List Nat).length + 6) 3 (([120, 121, 122] : List Nat).length + 6)
        (xpath_of [[114], [97]])) ∧
     (extract_and_build_result (60 :: 114 :: 62 :: 60 :: 97 :: 62 :: [120, 121, 122])
        (([120, 121, 122] : List Nat).length + 6) 3 (([120, 121, 122] : List Nat).length + 6)
        (xpath_of [[114], [97]])).found = true) ∧
    ((search_node_internal false (str_bytes "<r><a><b") (str_bytes "a") (str_bytes "tag") 0).1 =
      .ok (extract_and_build_result (str_bytes "<r><a><b") 8 3 6 (str_bytes "/r/a")) ∧
     (extract_and_build_result (str_bytes "<r><a><b") 8 3 6 (str_bytes "/r/a")).found = true)) :=
  ⟨⟨by decide, by decide, by decide⟩,
    find_end_clamped [120, 121, 122] (by decide) (by decide) (by decide)⟩

/-- Name bytes are neither markup delimiters nor whitespace. -/
theorem name_byte_spec (b : Nat) (h : name_byte b = true) :
    b ≠ 60 ∧ b ≠ 62 ∧ b ≠ 47 ∧ b ≠ 63 ∧ b ≠ 33 ∧ is_ws b = false := by
  simp only [name_byte, is_ws, Bool.not_eq_true', Bool.or_eq_false_iff,
    beq_eq_false_iff_ne, ne_eq] at h
  simp only [is_ws, Bool.or_eq_false_iff, beq_eq_false_iff_ne, ne_eq]
  omega

/-- Whitespace bytes are not markup delimiters, and satisfy `is_ws`. -/
theorem ws_byte_spec (b : Nat) (h : ws_byte b = true) :
    b ≠ 60 ∧ b ≠ 62 ∧ is_ws b = true := by
  simp only [ws_byte, Bool.or_eq_true, beq_iff_eq] at h
  refine ⟨by omega, by omega, ?_⟩
  simp only [is_ws, Bool.or_eq_true, beq_iff_eq]
  omega

/-- Attribute bytes contain no `<`, `>` or `/`. -/
theorem attr_byte_spec (b : Nat) (h : attr_byte b = true) :
    b ≠ 60 ∧ b ≠ 62 ∧ b ≠ 47 := by
  simp only [attr_byte, Bool.not_eq_true', Bool.or_eq_false_iff,
    beq_eq_false_iff_ne, ne_eq] at h
  refine ⟨?_, ?_, ?_⟩ <;> omega

/-- The first hit of a scan is right after a run of misses. -/
theorem findIdx_first (l1 : List Nat) (b : Nat) (l2 : List Nat) (p : Nat → Bool)
    (h1 : ∀ x ∈ l1, p x = false) (hb : p b = true) :
    (l1 ++ b :: l2).findIdx? p = some l1.length := by
  rw [List.findIdx?_append]
  have hn : l1.findIdx? p = none := by
    rw [List.findIdx?_eq_none_iff]
    intro x hx
    simpa using h1 x hx
  rw [hn, List.findIdx?_cons, if_pos hb]
  simp

/-- Unfolding of the tokenizer's parse-error step. -/
theorem tokenize_err (fuel : Nat) (opened : Bool) (bs : List Nat) (pos : Nat)
    (c : Nat) (op2 : Bool) (hre : read_event opened bs = (.errE, c, op2)) :
    tokenize (fuel + 1) opened bs pos = [(pos, .errE)] := by
  rw [tokenize, hre, if_pos (Or.inr rfl)]

/-- The first token of any stream carries the start position. -/
theorem next_pos_tokenize (fuel : Nat) (opened : Bool) (bs : List Nat) (pos p : Nat) :
    next_pos (tokenize fuel opened bs pos) p = pos := by
  cases fuel with
  | zero => rfl
  | succ f =>
    simp only [tokenize]
    split
    · rfl
    · rfl

/-- Any fuel at least one past the suffix length yields the canonical
stream: each event consumes at least one byte. -/
theorem tokenize_fuel_ge (fuel : Nat) :
    ∀ (opened : Bool) (bs : List Nat) (pos : Nat), bs.length + 1 ≤ fuel →
      tokenize fuel opened bs pos = tokenize (bs.length + 1) opened bs pos := by
  induction fuel using Nat.strong_induction_on with
  | _ fuel ih =>
    intro opened bs pos hf
    cases fuel with
    | zero => omega
    | succ f =>
      rcases hre : read_event opened bs with ⟨ev, c, op2⟩
      by_cases hterm : ev = .eofE ∨ ev = .errE
      · rcases hterm with ht | ht
        · rw [ht] at hre
          rw [tokenize_eof f opened bs pos c op2 hre,
            tokenize_eof bs.length opened bs pos c op2 hre]
        · rw [ht] at hre
          rw [tokenize_err f opened bs pos c op2 hre,
            tokenize_err bs.length opened bs pos c op2 hre]
      · have hc : 1 ≤ c ∧ c ≤ bs.length := by
          rcases read_event_spec opened bs ev c op2 hre with h | h | ⟨s, _, _, _, h2 | h2⟩
          · exact absurd h hterm
          · have h1 := h.2.2.2.2.1
            have hg := (List.getElem?_eq_some_iff.1 h.2.2.2.2.2.1).1
            omega
          · have h1 := h2.2.1
            have hg := (List.getElem?_eq_some_iff.1 h2.2.2).1
            omega
          · omega
        have hlen : (bs.drop c).length = bs.length - c := by simp
        rw [tokenize_step f opened bs pos ev c op2 hre hterm,
          tokenize_step bs.length opened bs pos ev c op2 hre hterm]
        rw [ih f (by omega) op2 (bs.drop c) (pos + c) (by omega),
          ih bs.length (by omega) op2 (bs.drop c) (pos + c) (by omega)]

/-- The name scan of the streaming reader stops exactly at the attribute
section (or at the end of the content). -/
theorem qx_name_wf (n a : List Nat) (hn : n.all name_byte = true)
    (hah : a = [] ∨ a.head? = some 32) :
    qx_name (n ++ a) = n := by
  have hpos : ∀ x ∈ n, (!(is_ws x)) = true := by
    intro x hx
    have hb : name_byte x = true := by simpa using List.all_eq_true.1 hn x hx
    simp [(name_byte_spec x hb).2.2.2.2.2]
  rw [qx_name, List.takeWhile_append_of_pos hpos]
  rcases hah with hah | hah
  · subst hah; simp
  · cases a with
    | nil => simp at hah
    | cons h t =>
      have h32 : h = 32 := by simpa using hah
      subst h32
      rw [List.takeWhile_cons_of_neg (by decide)]
      simp

/-- No `62` occurs in a name-plus-attributes run. -/
theorem wf_no62 (n a : List Nat) (hn : n.all name_byte = true)
    (ha : a.all attr_byte = true) :
    ∀ x ∈ n ++ a, (x == 62) = false := by
  intro x hx
  rcases List.mem_append.1 hx with hx | hx
  · have hb : name_byte x = true := by simpa using List.all_eq_true.1 hn x hx
    simpa using (name_byte_spec x hb).2.1
  · have hb : attr_byte x = true := by simpa using List.all_eq_true.1 ha x hx
    simpa using (attr_byte_spec x hb).2.1

/-- No `47` occurs in a name-plus-attributes run. -/
theorem wf_no47 (n a : List Nat) (hn : n.all name_byte = true)
    (ha : a.all attr_byte = true) :
    ∀ x ∈ n ++ a, x ≠ 47 := by
  intro x hx
  rcases List.mem_append.1 hx with hx | hx
  · have hb : name_byte x = true := by simpa using List.all_eq_true.1 hn x hx
    exact (name_byte_spec x hb).2.2.1
  · have hb : attr_byte x = true := by simpa using List.all_eq_true.1 ha x hx
    exact (attr_byte_spec x hb).2.2

/-- Classification of a well-formed open-tag content run. -/
theorem classify_content_wf_start (n a : List Nat) (hn0 : n ≠ [])
    (hn : n.all name_byte = true) (ha : a.all attr_byte = true)
    (hah : a = [] ∨ a.head? = some 32) :
    classify_content (n ++ a) = .startE n (parse_attrs a) := by
  cases n with
  | nil => exact absurd rfl hn0
  | cons c0 n' =>
    have hb0 : name_byte c0 = true := by simpa using List.all_eq_true.1 hn c0 (by simp)
    have hspec := name_byte_spec c0 hb0
    have hlast : (c0 :: (n' ++ a)).getLast? ≠ some 47 := by
      intro hl
      have hmem : (47 : Nat) ∈ (c0 :: n') ++ a := by
        rw [List.cons_append]
        exact List.mem_of_getLast?_eq_some hl
      exact wf_no47 (c0 :: n') a hn ha 47 hmem rfl
    have hq : qx_name (c0 :: (n' ++ a)) = c0 :: n' := by
      have := qx_name_wf (c0 :: n') a hn hah
      rwa [List.cons_append] at this
    have hd : (c0 :: (n' ++ a)).drop (c0 :: n').length = a := by
      rw [← List.cons_append]
      exact List.drop_left _ _
    have hno : ¬(c0 = 63 ∨ c0 = 33) := by
      rintro (h | h)
      · exact hspec.2.2.2.1 h
      · exact hspec.2.2.2.2.1 h
    rw [List.cons_append]
    simp only [classify_content]
    rw [if_neg hspec.2.2.1, if_neg hno, if_neg hlast, hq, hd]

/-- Classification of a well-formed self-closing tag content run. -/
theorem classify_content_wf_empty (n a : List Nat) (hn0 : n ≠ [])
    (hn : n.all name_byte = true) (ha : a.all attr_byte = true)
    (hah : a = [] ∨ a.head? = some 32) :
    classify_content (n ++ (a ++ [47])) = .emptyE n (parse_attrs a) := by
  cases n with
  | nil => exact absurd rfl hn0
  | cons c0 n' =>
    have hb0 : name_byte c0 = true := by simpa using List.all_eq_true.1 hn c0 (by simp)
    have hspec := name_byte_spec c0 hb0
    have hno : ¬(c0 = 63 ∨ c0 = 33) := by
      rintro (h | h)
      · exact hspec.2.2.2.1 h
      · exact hspec.2.2.2.2.1 h
    have hlast : (c0 :: (n' ++ (a ++ [47]))).getLast? = some 47 := by
      have h47 : (((c0 :: n') ++ a) ++ [(47 : Nat)]).getLast? = some 47 :=
        List.getLast?_concat _
      simpa [List.append_assoc] using h47
    have hbody : (c0 :: (n' ++ (a ++ [47]))).dropLast = c0 :: (n' ++ a) := by
      have h47 : (((c0 :: n') ++ a) ++ [(47 : Nat)]).dropLast = (c0 :: n') ++ a :=
        List.dropLast_concat
      simpa [List.append_assoc] using h47
    have hq : qx_name (c0 :: (n' ++ a)) = c0 :: n' := by
      have := qx_name_wf (c0 :: n') a hn hah
      rwa [List.cons_append] at this
    have hd : (c0 :: (n' ++ a)).drop (c0 :: n').length = a := by
      rw [← List.cons_append]
      exact List.drop_left _ _
    rw [List.cons_append]
    simp only [classify_content]
    rw [if_neg hspec.2.2.1, if_neg hno, if_pos hlast, hbody, hq, hd]

/-- Classification of a well-formed close-tag content run. -/
theorem classify_content_wf_close (n : List Nat) (hn : n.all name_byte = true) :
    classify_content (47 :: n) = .endE n := by
  have hq : qx_name n = n := by
    have := qx_name_wf n [] hn (Or.inl rfl)
    simpa using this
  simp only [classify_content]
  simp [hq]

/-- The backward scanner's name extraction stops exactly at the first
delimiter after a well-formed name. -/
theorem etn_wf (n rest : List Nat) (hn : n.all name_byte = true)
    (hr : rest.head? = some 32 ∨ rest.head? = some 62 ∨ rest.head? = some 47) :
    extract_tag_name_from_bytes (n ++ rest) = n := by
  have hpos : ∀ x ∈ n,
      (!(x == 32 || x == 9 || x == 10 || x == 13 || x == 62 || x == 47)) = true := by
    intro x hx
    have hb : name_byte x = true := by simpa using List.all_eq_true.1 hn x hx
    have hspec := name_byte_spec x hb
    have hws : x ≠ 32 ∧ x ≠ 9 ∧ x ≠ 10 ∧ x ≠ 13 := by
      have := hspec.2.2.2.2.2
      simp only [is_ws, Bool.or_eq_false_iff, beq_eq_false_iff_ne, ne_eq] at this
      omega
    have h62 := hspec.2.1
    have h47 := hspec.2.2.1
    simp only [Bool.not_eq_true', Bool.or_eq_false_iff, beq_eq_false_iff_ne, ne_eq]
    omega
  rw [extract_tag_name_from_bytes, List.takeWhile_append_of_pos hpos]
  cases rest with
  | nil => simp at hr
  | cons b t =>
    have hb : b = 32 ∨ b = 62 ∨ b = 47 := by
      rcases hr with h | h | h <;> simp at h <;> omega
    have hpb : (!(b == 32 || b == 9 || b == 10 || b == 13 || b == 62 || b == 47)) = false := by
      rcases hb with h | h | h <;> subst h <;> decide
    rw [List.takeWhile_cons_of_neg (by simp [hpb])]
    simp

/-- The reader on a well-formed open tag in the closed state. -/
theorem read_start_closed (n a rest : List Nat) (hn0 : n ≠ [])
    (hn : n.all name_byte = true) (ha : a.all attr_byte = true)
    (hah : a = [] ∨ a.head? = some 32) :
    read_event false (60 :: (n ++ (a ++ 62 :: rest))) =
      (.startE n (parse_attrs a), n.length + a.length + 2, false) := by
  have hf60 : (60 :: (n ++ (a ++ 62 :: rest))).findIdx? (fun b => b == 60) = some 0 := by
    rw [List.findIdx?_cons]
    simp
  have hf62 : (n ++ (a ++ 62 :: rest)).findIdx? (fun b => b == 62)
      = some (n.length + a.length) := by
    have := findIdx_first (n ++ a) 62 rest (fun b => b == 62) (wf_no62 n a hn ha) (by decide)
    simpa [List.append_assoc] using this
  have htake : (n ++ (a ++ 62 :: rest)).take (n.length + a.length) = n ++ a := by
    have := List.take_left (n ++ a) (62 :: rest)
    simpa [List.append_assoc] using this
  simp only [read_event, Bool.false_eq_true, if_false, hf60, List.drop_succ_cons,
    List.drop_zero, hf62, htake, classify_content_wf_start n a hn0 hn ha hah]

/-- The reader on a well-formed open tag entered in the opened state (the
preceding text event already consumed the `<`). -/
theorem read_start_opened (n a rest : List Nat) (hn0 : n ≠ [])
    (hn : n.all name_byte = true) (ha : a.all attr_byte = true)
    (hah : a = [] ∨ a.head? = some 32) :
    read_event true (n ++ (a ++ 62 :: rest)) =
      (.startE n (parse_attrs a), n.length + a.length + 1, false) := by
  have hf62 : (n ++ (a ++ 62 :: rest)).findIdx? (fun b => b == 62)
      = some (n.length + a.length) := by
    have := findIdx_first (n ++ a) 62 rest (fun b => b == 62) (wf_no62 n a hn ha) (by decide)
    simpa [List.append_assoc] using this
  have htake : (n ++ (a ++ 62 :: rest)).take (n.length + a.length) = n ++ a := by
    have := List.take_left (n ++ a) (62 :: rest)
    simpa [List.append_assoc] using this
  simp only [read_event, if_true, hf62, htake, classify_content_wf_start n a hn0 hn ha hah]

/-- The reader on a well-formed self-closing tag in the closed state. -/
theorem read_empty_closed (n a rest : List Nat) (hn0 : n ≠ [])
    (hn : n.all name_byte = true) (ha : a.all attr_byte = true)
    (hah : a = [] ∨ a.head? = some 32) :
    read_event false (60 :: (n ++ (a ++ 47 :: 62 :: rest))) =
      (.emptyE n (parse_attrs a), n.length + a.length + 3, false) := by
  have hno : ∀ x ∈ (n ++ a) ++ [47], (x == 62) = false := by
    intro x hx
    rcases List.mem_append.1 hx with hx | hx
    · exact wf_no62 n a hn ha x hx
    · simp at hx
      subst hx
      decide
  have hf60 : (60 :: (n ++ (a ++ 47 :: 62 :: rest))).findIdx? (fun b => b == 60)
      = some 0 := by
    rw [List.findIdx?_cons]
    simp
  have hf62 : (n ++ (a ++ 47 :: 62 :: rest)).findIdx? (fun b => b == 62)
      = some (n.length + a.length + 1) := by
    have := findIdx_first ((n ++ a) ++ [47]) 62 rest (fun b => b == 62) hno (by decide)
    simpa [List.append_assoc] using this
  have htake : (n ++ (a ++ 47 :: 62 :: rest)).take (n.length + a.length + 1)
      = n ++ (a ++ [47]) := by
    have := List.take_left ((n ++ a) ++ [47]) (62 :: rest)
    simpa [List.append_assoc] using this
  simp only [read_event, Bool.false_eq_true, if_false, hf60, List.drop_succ_cons,
    List.drop_zero, hf62, htake, classify_content_wf_empty n a hn0 hn ha hah]

/-- The reader on a well-formed self-closing tag in the opened state. -/
theorem read_empty_opened (n a rest : List Nat) (hn0 : n ≠ [])
    (hn : n.all name_byte = true) (ha : a.all attr_byte = true)
    (hah : a = [] ∨ a.head? = some 32) :
    read_event true (n ++ (a ++ 47 :: 62 :: rest)) =
      (.emptyE n (parse_attrs a), n.length + a.length + 2, false) := by
  have hno : ∀ x ∈ (n ++ a) ++ [47], (x == 62) = false := by
    intro x hx
    rcases List.mem_append.1 hx with hx | hx
    · exact wf_no62 n a hn ha x hx
    · simp at hx
      subst hx
      decide
  have hf62 : (n ++ (a ++ 47 :: 62 :: rest)).findIdx? (fun b => b == 62)
      = some (n.length + a.length + 1) := by
    have := findIdx_first ((n ++ a) ++ [47]) 62 rest (fun b => b == 62) hno (by decide)
    simpa [List.append_assoc] using this
  have htake : (n ++ (a ++ 47 :: 62 :: rest)).take (n.length + a.length + 1)
      = n ++ (a ++ [47]) := by
    have := List.take_left ((n ++ a) ++ [47]) (62 :: rest)
    simpa [List.append_assoc] using this
  simp only [read_event, if_true, hf62, htake, classify_content_wf_empty n a hn0 hn ha hah]

/-- The reader on a well-formed close tag in the closed state. -/
theorem read_close_closed (n rest : List Nat) (hn : n.all name_byte = true) :
    read_event false (60 :: 47 :: (n ++ 62 :: rest)) = (.endE n, n.length + 3, false) := by
  have hno : ∀ x ∈ 47 :: n, (x == 62) = false := by
    intro x hx
    rcases List.mem_cons.1 hx with hx | hx
    · subst hx
      decide
    · have hb : name_byte x = true := by simpa using List.all_eq_true.1 hn x hx
      simpa using (name_byte_spec x hb).2.1
  have hf60 : (60 :: 47 :: (n ++ 62 :: rest)).findIdx? (fun b => b == 60) = some 0 := by
    rw [List.findIdx?_cons]
    simp
  have hf62 : (47 :: (n ++ 62 :: rest)).findIdx? (fun b => b == 62)
      = some (n.length + 1) := by
    have := findIdx_first (47 :: n) 62 rest (fun b => b == 62) hno (by decide)
    simpa using this
  have htake : (47 :: (n ++ 62 :: rest)).take (n.length + 1) = 47 :: n := by
    have := List.take_left (47 :: n) (62 :: rest)
    simpa using this
  simp only [read_event, Bool.false_eq_true, if_false, hf60, List.drop_succ_cons,
    List.drop_zero, hf62, htake, classify_content_wf_close n hn]

/-- The reader on a whitespace run followed by a tag: a text event that
consumes the run plus the `<` and leaves the reader opened. -/
theorem read_text_ws (w rest : List Nat) (hw : w.all ws_byte = true) (hw0 : w ≠ []) :
    read_event false (w ++ 60 :: rest) = (.textE w, w.length + 1, true) := by
  cases w with
  | nil => exact absurd rfl hw0
  | cons b t =>
    have hno : ∀ x ∈ b :: t, (x == 60) = false := by
      intro x hx
      have hb : ws_byte x = true := by simpa using List.all_eq_true.1 hw x hx
      simpa using (ws_byte_spec x hb).1
    have hf60 : (b :: (t ++ 60 :: rest)).findIdx? (fun x => x == 60)
        = some (t.length + 1) := by
      have := findIdx_first (b :: t) 60 rest (fun x => x == 60) hno (by decide)
      simpa using this
    have htake : (b :: (t ++ 60 :: rest)).take (t.length + 1) = b :: t := by
      have := List.take_left (b :: t) (60 :: rest)
      simpa using this
    rw [List.cons_append]
    simp only [read_event, Bool.false_eq_true, if_false, hf60, htake, List.length_cons]


/-- The reader on a well-formed close tag entered in the opened state (the
preceding text event already consumed the `<`). -/
theorem read_close_opened (n rest : List Nat) (hn : n.all name_byte = true) :
    read_event true (47 :: (n ++ 62 :: rest)) = (.endE n, n.length + 2, false) := by
  have hno : ∀ x ∈ 47 :: n, (x == 62) = false := by
    intro x hx
    rcases List.mem_cons.1 hx with hx | hx
    · subst hx
      decide
    · have hb : name_byte x = true := by simpa using List.all_eq_true.1 hn x hx
      simpa using (name_byte_spec x hb).2.1
  have hf62 : (47 :: (n ++ 62 :: rest)).findIdx? (fun b => b == 62)
      = some (n.length + 1) := by
    have := findIdx_first (47 :: n) 62 rest (fun b => b == 62) hno (by decide)
    simpa using this
  have htake : (47 :: (n ++ 62 :: rest)).take (n.length + 1) = 47 :: n := by
    have := List.take_left (47 :: n) (62 :: rest)
    simpa using this
  simp only [read_event, if_true, hf62, htake, classify_content_wf_close n hn]

/-- Serialized length of a self-closing element. -/
theorem ser_elem_true_length (n a : List Nat) (kids : XForest) (wend : List Nat) :
    (ser (.elem n a kids wend true)).length = n.length + a.length + 3 := by
  show (60 :: (n ++ a ++ [47, 62])).length = n.length + a.length + 3
  simp only [List.length_cons, List.length_append, List.length_nil] <;> omega

/-- Serialized length of an open element. -/
theorem ser_elem_false_length (n a : List Nat) (kids : XForest) (wend : List Nat) :
    (ser (.elem n a kids wend false)).length
      = n.length + a.length + 2 + (serForest kids).length
        + (wend.length + (n.length + 3)) := by
  show ((60 :: (n ++ a ++ [62])) ++ serForest kids
    ++ (wend ++ (60 :: 47 :: (n ++ [62])))).length = _
  simp only [List.length_cons, List.length_append, List.length_nil] <;> omega

/-- One canonical-stream step through an event with a known byte count. -/
theorem tokenize_step_to_stream (fuel : Nat) (opened : Bool) (bs : List Nat) (pos : Nat)
    (ev : XmlEvent) (c : Nat)
    (hre : read_event opened bs = (ev, c, false)) (hev : ¬(ev = .eofE ∨ ev = .errE))
    (hc : 1 ≤ c) (hcle : c ≤ bs.length) (hf : bs.length + 1 ≤ fuel) :
    tokenize fuel opened bs pos = (pos, ev) :: tokStream (bs.drop c) (pos + c) := by
  rw [tokenize_fuel_ge fuel opened bs pos hf,
    tokenize_step bs.length opened bs pos ev c false hre hev,
    tokenize_fuel_ge bs.length false (bs.drop c) (pos + c)
      (by simp only [List.length_drop]; omega)]
  rfl

/-- One canonical-stream step in the closed state. -/
theorem tokStream_step (bs : List Nat) (pos : Nat) (ev : XmlEvent) (c : Nat)
    (hre : read_event false bs = (ev, c, false)) (hev : ¬(ev = .eofE ∨ ev = .errE))
    (hc : 1 ≤ c) (hcle : c ≤ bs.length) :
    tokStream bs pos = (pos, ev) :: tokStream (bs.drop c) (pos + c) := by
  rw [tokStream]
  exact tokenize_step_to_stream (bs.length + 1) false bs pos ev c hre hev hc hcle
    (Nat.le_refl _)

/-- The canonical stream over a well-formed close tag. -/
theorem tok_close (n rest : List Nat) (hn : n.all name_byte = true) (pos : Nat) :
    tokStream ((60 :: 47 :: (n ++ [62])) ++ rest) pos
      = (pos, .endE n) :: tokStream rest (pos + (n.length + 3)) := by
  have hre : read_event false ((60 :: 47 :: (n ++ [62])) ++ rest)
      = (.endE n, n.length + 3, false) := by
    have hsh : (60 :: 47 :: (n ++ [62])) ++ rest = 60 :: 47 :: (n ++ 62 :: rest) := by simp
    rw [hsh]
    exact read_close_closed n rest hn
  have hdrop : ((60 :: 47 :: (n ++ [62])) ++ rest).drop (n.length + 3) = rest :=
    List.drop_left' (by simp only [List.length_cons, List.length_append, List.length_nil] <;> omega)
  rw [tokStream_step _ pos _ _ hre (by simp) (by omega)
    (by simp only [List.length_append, List.length_cons, List.length_nil] <;> omega), hdrop]

/-- Every serialization starts with `<`. -/
theorem ser_head (n a : List Nat) (kids : XForest) (wend : List Nat) (self : Bool) :
    ∃ tl, ser (.elem n a kids wend self) = 60 :: tl := by
  cases self with
  | true => exact ⟨n ++ a ++ [47, 62], rfl⟩
  | false =>
    refine ⟨(n ++ a ++ [62]) ++ (serForest kids ++ (wend ++ (60 :: 47 :: (n ++ [62])))), ?_⟩
    show (60 :: (n ++ a ++ [62])) ++ serForest kids ++ (wend ++ (60 :: 47 :: (n ++ [62]))) = _
    simp

/-- Every serialization starts with `<`, stated for an arbitrary tree. -/
theorem ser_head_any (k : XTree) : ∃ tl, ser k = 60 :: tl := by
  cases k with
  | elem n a kids wend self => exact ser_head n a kids wend self

/-- Every serialization ends with `>`. -/
theorem ser_concat (n a : List Nat) (kids : XForest) (wend : List Nat) (self : Bool) :
    ∃ s, ser (.elem n a kids wend self) = s ++ [62] := by
  cases self with
  | true =>
    refine ⟨60 :: (n ++ a ++ [47]), ?_⟩
    show 60 :: (n ++ a ++ [47, 62]) = _
    simp
  | false =>
    refine ⟨(60 :: (n ++ a ++ [62])) ++ serForest kids ++ (wend ++ (60 :: 47 :: n)), ?_⟩
    show (60 :: (n ++ a ++ [62])) ++ serForest kids ++ (wend ++ (60 :: 47 :: (n ++ [62]))) = _
    simp

/-- Unfolding of the close-tag token run with no trailing whitespace. -/
theorem wendClose_nil_eq (n : List Nat) (p : Nat) :
    wendClose n [] p = [(p, .endE n)] := rfl

/-- Unfolding of the close-tag token run with trailing whitespace. -/
theorem wendClose_cons_eq (n : List Nat) (wb : Nat) (wt : List Nat) (p : Nat) :
    wendClose n (wb :: wt) p
      = [(p, .textE (wb :: wt)), (p + (wb :: wt).length + 1, .endE n)] := rfl

/-- Unfolding of the token run of a self-closing element. -/
theorem serTokens_true_eq (n a : List Nat) (kids : XForest) (wend : List Nat) (pos sh : Nat) :
    serTokens (.elem n a kids wend true) pos sh
      = [(pos + sh, .emptyE n (parse_attrs a))] := rfl

/-- Unfolding of the token run of an open element. -/
theorem serTokens_false_eq (n a : List Nat) (kids : XForest) (wend : List Nat) (pos sh : Nat) :
    serTokens (.elem n a kids wend false) pos sh
      = (pos + sh, .startE n (parse_attrs a)) ::
        (serTokensF kids (pos + (n.length + a.length + 2)) ++
          wendClose n wend (pos + (n.length + a.length + 2) + (serForest kids).length)) := rfl

/-- Unfolding of the serialization of a nonempty sibling sequence. -/
theorem serForest_cons_eq (w : List Nat) (k : XTree) (ks : XForest) :
    serForest (.cons w k ks) = w ++ (ser k ++ serForest ks) := by
  simp [serForest]

/-- Unfolding of the token run of a sibling sequence with no leading
whitespace. -/
theorem serTokensF_cons_nil_eq (k : XTree) (ks : XForest) (pos : Nat) :
    serTokensF (.cons [] k ks) pos
      = serTokens k pos 0 ++ serTokensF ks (pos + (ser k).length) := by
  simp [serTokensF]

/-- Unfolding of the token run of a sibling sequence with leading
whitespace. -/
theorem serTokensF_cons_cons_eq (wb : Nat) (wt : List Nat) (k : XTree) (ks : XForest)
    (pos : Nat) :
    serTokensF (.cons (wb :: wt) k ks) pos
      = (pos, .textE (wb :: wt)) ::
        (serTokens k (pos + (wb :: wt).length) 1 ++
          serTokensF ks (pos + (wb :: wt).length + (ser k).length)) := by
  simp [serTokensF]

/-- The canonical stream over an optional trailing-whitespace run followed
by a well-formed close tag. -/
theorem tok_wend_close (n wend rest : List Nat) (hn : n.all name_byte = true)
    (hw : wend.all ws_byte = true) (pos : Nat) :
    tokStream (wend ++ ((60 :: 47 :: (n ++ [62])) ++ rest)) pos
      = wendClose n wend pos ++ tokStream rest (pos + (wend.length + (n.length + 3))) := by
  cases wend with
  | nil =>
    rw [List.nil_append, tok_close n rest hn pos, wendClose_nil_eq]
    simp
  | cons wb wt =>
    have hsh : (wb :: wt) ++ ((60 :: 47 :: (n ++ [62])) ++ rest)
        = (wb :: wt) ++ 60 :: (47 :: (n ++ 62 :: rest)) := by simp
    rw [hsh]
    have hre : read_event false ((wb :: wt) ++ 60 :: (47 :: (n ++ 62 :: rest)))
        = (.textE (wb :: wt), (wb :: wt).length + 1, true) :=
      read_text_ws (wb :: wt) _ hw (by simp)
    rw [tokStream, tokenize_step _ false _ pos _ _ _ hre (by simp)]
    have hdrop : ((wb :: wt) ++ 60 :: (47 :: (n ++ 62 :: rest))).drop ((wb :: wt).length + 1)
        = 47 :: (n ++ 62 :: rest) := by
      rw [show (wb :: wt) ++ 60 :: (47 :: (n ++ 62 :: rest))
          = ((wb :: wt) ++ [60]) ++ (47 :: (n ++ 62 :: rest)) by simp]
      exact List.drop_left' (by simp only [List.length_append, List.length_cons,
        List.length_nil] <;> omega)
    rw [hdrop]
    have hre2 : read_event true (47 :: (n ++ 62 :: rest)) = (.endE n, n.length + 2, false) :=
      read_close_opened n rest hn
    rw [tokenize_step_to_stream _ true _ _ _ _ hre2 (by simp) (by omega)
      (by simp only [List.length_append, List.length_cons, List.length_nil] <;> omega)
      (by simp only [List.length_append, List.length_cons, List.length_nil] <;> omega)]
    have hdrop2 : (47 :: (n ++ 62 :: rest)).drop (n.length + 2) = rest := by
      rw [show 47 :: (n ++ 62 :: rest) = (47 :: (n ++ [62])) ++ rest by simp]
      exact List.drop_left' (by simp only [List.length_append, List.length_cons,
        List.length_nil] <;> omega)
    rw [hdrop2, wendClose_cons_eq]
    simp only [List.cons_append, List.singleton_append, List.nil_append]
    rw [show pos + ((wb :: wt).length + 1) = pos + (wb :: wt).length + 1 by omega,
      show pos + (wb :: wt).length + 1 + (n.length + 2)
        = pos + ((wb :: wt).length + (n.length + 3)) by omega]

mutual
/-- The canonical stream over a serialized well-formed tree entered in the
closed state is its token run followed by the continuation's stream. -/
theorem tok_tree_c : ∀ (k : XTree), wf_tree k = true → ∀ (rest : List Nat) (pos : Nat),
    tokStream (ser k ++ rest) pos = serTokens k pos 0 ++ tokStream rest (pos + (ser k).length)
  | .elem n a kids wend self, hk, rest, pos => by
    simp only [wf_tree, Bool.and_eq_true] at hk
    obtain ⟨⟨⟨⟨⟨h1, h2⟩, h3⟩, h4⟩, hwd⟩, h5⟩ := hk
    have hn0 : n ≠ [] := by simpa using h1
    have hah : a = [] ∨ a.head? = some 32 := by simpa using h4
    cases self with
    | true =>
      have hshape : ser (.elem n a kids wend true) ++ rest
          = 60 :: (n ++ (a ++ 47 :: 62 :: rest)) := by
        show (60 :: (n ++ a ++ [47, 62])) ++ rest = _
        simp
      have hre : read_event false (ser (.elem n a kids wend true) ++ rest)
          = (.emptyE n (parse_attrs a), n.length + a.length + 3, false) := by
        rw [hshape]
        exact read_empty_closed n a rest hn0 h2 h3 hah
      have hdrop : (ser (.elem n a kids wend true) ++ rest).drop (n.length + a.length + 3)
          = rest := by
        have := List.drop_left (ser (.elem n a kids wend true)) rest
        rwa [ser_elem_true_length] at this
      rw [tokStream_step _ pos _ _ hre (by simp) (by omega)
        (by simp only [List.length_append, ser_elem_true_length] <;> omega), hdrop]
      simp [serTokens, ser_elem_true_length]
    | false =>
      have hshape : ser (.elem n a kids wend false) ++ rest
          = 60 :: (n ++ (a ++ 62 :: (serForest kids
            ++ (wend ++ ((60 :: 47 :: (n ++ [62])) ++ rest))))) := by
        show ((60 :: (n ++ a ++ [62])) ++ serForest kids
          ++ (wend ++ (60 :: 47 :: (n ++ [62])))) ++ rest = _
        simp
      have hre : read_event false (ser (.elem n a kids wend false) ++ rest)
          = (.startE n (parse_attrs a), n.length + a.length + 2, false) := by
        rw [hshape]
        exact read_start_closed n a _ hn0 h2 h3 hah
      have hdrop : (ser (.elem n a kids wend false) ++ rest).drop (n.length + a.length + 2)
          = serForest kids ++ (wend ++ ((60 :: 47 :: (n ++ [62])) ++ rest)) := by
        have hsh2 : ser (.elem n a kids wend false) ++ rest
            = (60 :: (n ++ (a ++ [62]))) ++ (serForest kids
              ++ (wend ++ ((60 :: 47 :: (n ++ [62])) ++ rest))) := by
          show ((60 :: (n ++ a ++ [62])) ++ serForest kids
            ++ (wend ++ (60 :: 47 :: (n ++ [62])))) ++ rest = _
          simp
        rw [hsh2, List.drop_left'
          (by simp only [List.length_cons, List.length_append, List.length_nil] <;> omega)]
      rw [tokStream_step _ pos _ _ hre (by simp) (by omega)
        (by simp only [List.length_append, ser_elem_false_length] <;> omega), hdrop]
      rw [tok_forest kids h5 (wend ++ ((60 :: 47 :: (n ++ [62])) ++ rest))
        (pos + (n.length + a.length + 2)),
        tok_wend_close n wend rest h2 hwd
          (pos + (n.length + a.length + 2) + (serForest kids).length)]
      simp [serTokens, ser_elem_false_length, List.append_assoc, Nat.add_assoc]
/-- The canonical stream over a serialized well-formed tree whose `<` was
already consumed by a preceding text event. -/
theorem tok_tree_o : ∀ (k : XTree), wf_tree k = true →
    ∀ (rest : List Nat) (pos fuel : Nat), (ser k).length + rest.length ≤ fuel →
    tokenize fuel true ((ser k).drop 1 ++ rest) (pos + 1)
      = serTokens k pos 1 ++ tokStream rest (pos + (ser k).length)
  | .elem n a kids wend self, hk, rest, pos, fuel, hf => by
    simp only [wf_tree, Bool.and_eq_true] at hk
    obtain ⟨⟨⟨⟨⟨h1, h2⟩, h3⟩, h4⟩, hwd⟩, h5⟩ := hk
    have hn0 : n ≠ [] := by simpa using h1
    have hah : a = [] ∨ a.head? = some 32 := by simpa using h4
    cases self with
    | true =>
      rw [ser_elem_true_length] at hf
      have hsh : (ser (.elem n a kids wend true)).drop 1 ++ rest
          = n ++ (a ++ 47 :: 62 :: rest) := by
        show (60 :: (n ++ a ++ [47, 62])).drop 1 ++ rest = _
        simp
      rw [hsh]
      have hre : read_event true (n ++ (a ++ 47 :: 62 :: rest))
          = (.emptyE n (parse_attrs a), n.length + a.length + 2, false) :=
        read_empty_opened n a rest hn0 h2 h3 hah
      rw [tokenize_step_to_stream fuel true _ _ _ _ hre (by simp) (by omega)
        (by simp only [List.length_append, List.length_cons, List.length_nil] <;> omega)
        (by simp only [List.length_append, List.length_cons, List.length_nil] <;> omega)]
      have hdrop : (n ++ (a ++ 47 :: 62 :: rest)).drop (n.length + a.length + 2) = rest := by
        rw [show n ++ (a ++ 47 :: 62 :: rest) = ((n ++ a) ++ [47, 62]) ++ rest by simp]
        exact List.drop_left' (by simp only [List.length_append, List.length_cons,
          List.length_nil] <;> omega)
      rw [hdrop]
      rw [show pos + 1 + (n.length + a.length + 2)
          = pos + (ser (.elem n a kids wend true)).length from by
        rw [ser_elem_true_length]; omega]
      simp [serTokens]
    | false =>
      rw [ser_elem_false_length] at hf
      have hsh : (ser (.elem n a kids wend false)).drop 1 ++ rest
          = n ++ (a ++ 62 :: (serForest kids
            ++ (wend ++ ((60 :: 47 :: (n ++ [62])) ++ rest)))) := by
        show ((60 :: (n ++ a ++ [62])) ++ serForest kids
          ++ (wend ++ (60 :: 47 :: (n ++ [62])))).drop 1 ++ rest = _
        simp
      rw [hsh]
      have hre : read_event true (n ++ (a ++ 62 :: (serForest kids
          ++ (wend ++ ((60 :: 47 :: (n ++ [62])) ++ rest)))))
          = (.startE n (parse_attrs a), n.length + a.length + 1, false) :=
        read_start_opened n a _ hn0 h2 h3 hah
      rw [tokenize_step_to_stream fuel true _ _ _ _ hre (by simp) (by omega)
        (by simp only [List.length_append, List.length_cons, List.length_nil] <;> omega)
        (by simp only [List.length_append, List.length_cons, List.length_nil] <;> omega)]
      have hdrop : (n ++ (a ++ 62 :: (serForest kids
          ++ (wend ++ ((60 :: 47 :: (n ++ [62])) ++ rest))))).drop (n.length + a.length + 1)
          = serForest kids ++ (wend ++ ((60 :: 47 :: (n ++ [62])) ++ rest)) := by
        rw [show n ++ (a ++ 62 :: (serForest kids
            ++ (wend ++ ((60 :: 47 :: (n ++ [62])) ++ rest))))
            = ((n ++ a) ++ [62]) ++ (serForest kids
              ++ (wend ++ ((60 :: 47 :: (n ++ [62])) ++ rest))) by simp]
        exact List.drop_left' (by simp only [List.length_append, List.length_cons,
          List.length_nil] <;> omega)
      rw [hdrop]
      rw [show pos + 1 + (n.length + a.length + 1) = pos + (n.length + a.length + 2) by omega]
      rw [tok_forest kids h5 (wend ++ ((60 :: 47 :: (n ++ [62])) ++ rest))
        (pos + (n.length + a.length + 2)),
        tok_wend_close n wend rest h2 hwd
          (pos + (n.length + a.length + 2) + (serForest kids).length)]
      simp [serTokens, ser_elem_false_length, List.append_assoc, Nat.add_assoc]
/-- The canonical stream over a serialized well-formed sibling sequence. -/
theorem tok_forest : ∀ (ks : XForest), wf_forest ks = true → ∀ (rest : List Nat) (pos : Nat),
    tokStream (serForest ks ++ rest) pos
      = serTokensF ks pos ++ tokStream rest (pos + (serForest ks).length)
  | .nil, _, rest, pos => by simp [serForest, serTokensF]
  | .cons w k ks, hks, rest, pos => by
    simp only [wf_forest, Bool.and_eq_true] at hks
    obtain ⟨⟨hw, hk⟩, hks2⟩ := hks
    cases w with
    | nil =>
      rw [serForest_cons_eq, serTokensF_cons_nil_eq, List.nil_append, List.append_assoc,
        tok_tree_c k hk (serForest ks ++ rest) pos,
        tok_forest ks hks2 rest (pos + (ser k).length)]
      simp [List.append_assoc, Nat.add_assoc]
    | cons wb wt =>
      obtain ⟨tl, htl⟩ := ser_head_any k
      rw [serForest_cons_eq, serTokensF_cons_cons_eq]
      have hsh : ((wb :: wt) ++ (ser k ++ serForest ks)) ++ rest
          = (wb :: wt) ++ 60 :: (tl ++ (serForest ks ++ rest)) := by
        rw [htl]
        simp
      rw [hsh]
      have hre : read_event false ((wb :: wt) ++ 60 :: (tl ++ (serForest ks ++ rest)))
          = (.textE (wb :: wt), (wb :: wt).length + 1, true) :=
        read_text_ws (wb :: wt) _ hw (by simp)
      rw [tokStream, tokenize_step _ false _ pos _ _ _ hre (by simp)]
      have hdrop : ((wb :: wt) ++ 60 :: (tl ++ (serForest ks ++ rest))).drop
          ((wb :: wt).length + 1) = tl ++ (serForest ks ++ rest) := by
        rw [show (wb :: wt) ++ 60 :: (tl ++ (serForest ks ++ rest))
            = ((wb :: wt) ++ [60]) ++ (tl ++ (serForest ks ++ rest)) by simp]
        exact List.drop_left' (by simp only [List.length_append, List.length_cons,
          List.length_nil] <;> omega)
      rw [hdrop]
      have htl1 : tl ++ (serForest ks ++ rest) = (ser k).drop 1 ++ (serForest ks ++ rest) := by
        rw [htl]
        simp
      rw [htl1]
      rw [show pos + ((wb :: wt).length + 1) = pos + (wb :: wt).length + 1 by omega]
      have hfg := tokenize_fuel_ge
        (((wb :: wt) ++ 60 :: ((ser k).drop 1 ++ (serForest ks ++ rest))).length)
        true ((ser k).drop 1 ++ (serForest ks ++ rest)) (pos + (wb :: wt).length + 1)
        (by rw [htl]
            simp only [List.length_append, List.length_cons, List.length_nil,
              List.drop_succ_cons, List.drop_zero] <;> omega)
      rw [hfg]
      have hto := tok_tree_o k hk (serForest ks ++ rest) (pos + (wb :: wt).length)
        (((ser k).drop 1 ++ (serForest ks ++ rest)).length + 1)
        (by rw [htl]
            simp only [List.length_append, List.length_cons, List.length_nil,
              List.drop_succ_cons, List.drop_zero] <;> omega)
      rw [hto]
      rw [tok_forest ks hks2 rest (pos + (wb :: wt).length + (ser k).length)]
      simp only [List.append_assoc, List.length_append, List.length_cons, List.length_nil,
        List.cons_append, Nat.add_assoc]
      rw [show pos + (wt.length + ((ser k).length + ((serForest ks).length + 1)))
          = pos + (wt.length + (1 + ((ser k).length + (serForest ks).length))) by omega]
end

/-- One end-scan step on an Empty token, written out. -/
theorem fe_step_empty (name : List Nat) (fl init p : Nat) (nm : List Nat)
    (ats : List (List Nat × List Nat)) (rest : List (Nat × XmlEvent)) (depth : Nat) :
    find_element_end_pos name fl init ((p, .emptyE nm ats) :: rest) depth =
      if p - init > 10485760 then p
      else find_element_end_pos name fl init rest depth := rfl

/-- One end-scan step on a Start token, written out. -/
theorem fe_step_start (name : List Nat) (fl init p : Nat) (nm : List Nat)
    (ats : List (List Nat × List Nat)) (rest : List (Nat × XmlEvent)) (depth : Nat) :
    find_element_end_pos name fl init ((p, .startE nm ats) :: rest) depth =
      if p - init > 10485760 then p
      else find_element_end_pos name fl init rest
        (if nm = name then depth + 1 else depth) := rfl

/-- One end-scan step on an End token, written out. -/
theorem fe_step_end (name : List Nat) (fl init p : Nat) (nm : List Nat)
    (rest : List (Nat × XmlEvent)) (depth : Nat) :
    find_element_end_pos name fl init ((p, .endE nm) :: rest) depth =
      if p - init > 10485760 then p
      else if nm = name then
        (if depth = 1 then next_pos rest p
         else find_element_end_pos name fl init rest (depth - 1))
      else find_element_end_pos name fl init rest depth := rfl

/-- One end-scan step on a Text token, written out. -/
theorem fe_step_text (name : List Nat) (fl init p : Nat) (s : List Nat)
    (rest : List (Nat × XmlEvent)) (depth : Nat) :
    find_element_end_pos name fl init ((p, .textE s) :: rest) depth =
      if p - init > 10485760 then p
      else find_element_end_pos name fl init rest depth := rfl

mutual
/-- The end-location scan passes over a serialized well-formed subtree
without returning and without changing the depth. -/
theorem fe_tree : ∀ (k : XTree), wf_tree k = true →
    ∀ (name : List Nat) (fl init pos sh : Nat) (restT : List (Nat × XmlEvent)) (depth : Nat),
      1 ≤ depth → sh ≤ 1 → pos + (ser k).length ≤ 10485760 + init →
      find_element_end_pos name fl init (serTokens k pos sh ++ restT) depth
        = find_element_end_pos name fl init restT depth
  | .elem n a kids wend self, hk, name, fl, init, pos, sh, restT, depth, hd, hsh, hb => by
    simp only [wf_tree, Bool.and_eq_true] at hk
    obtain ⟨⟨⟨⟨⟨h1, h2⟩, h3⟩, h4⟩, hwd⟩, h5⟩ := hk
    cases self with
    | true =>
      rw [ser_elem_true_length] at hb
      rw [serTokens_true_eq, List.singleton_append, fe_step_empty, if_neg (by omega)]
    | false =>
      rw [ser_elem_false_length] at hb
      rw [serTokens_false_eq, List.cons_append, List.append_assoc]
      rw [fe_step_start, if_neg (by omega)]
      by_cases hnm : n = name
      · rw [if_pos hnm,
          fe_forest kids h5 name fl init (pos + (n.length + a.length + 2))
            (wendClose n wend (pos + (n.length + a.length + 2) + (serForest kids).length)
              ++ restT) (depth + 1) (by omega) (by omega)]
        cases wend with
        | nil =>
          rw [wendClose_nil_eq, List.singleton_append, fe_step_end, if_neg (by omega),
            if_pos hnm, if_neg (by omega)]
          simp only [Nat.add_sub_cancel]
        | cons wb wt =>
          rw [wendClose_cons_eq]
          simp only [List.cons_append, List.nil_append]
          rw [fe_step_text, if_neg (by omega), fe_step_end, if_neg (by omega),
            if_pos hnm, if_neg (by omega)]
          simp only [Nat.add_sub_cancel]
      · rw [if_neg hnm,
          fe_forest kids h5 name fl init (pos + (n.length + a.length + 2))
            (wendClose n wend (pos + (n.length + a.length + 2) + (serForest kids).length)
              ++ restT) depth hd (by omega)]
        cases wend with
        | nil =>
          rw [wendClose_nil_eq, List.singleton_append, fe_step_end, if_neg (by omega),
            if_neg hnm]
        | cons wb wt =>
          rw [wendClose_cons_eq]
          simp only [List.cons_append, List.nil_append]
          rw [fe_step_text, if_neg (by omega), fe_step_end, if_neg (by omega), if_neg hnm]
/-- The end-location scan passes over a serialized well-formed sibling
sequence without returning and without changing the depth. -/
theorem fe_forest : ∀ (ks : XForest), wf_forest ks = true →
    ∀ (name : List Nat) (fl init pos : Nat) (restT : List (Nat × XmlEvent)) (depth : Nat),
      1 ≤ depth → pos + (serForest ks).length ≤ 10485760 + init →
      find_element_end_pos name fl init (serTokensF ks pos ++ restT) depth
        = find_element_end_pos name fl init restT depth
  | .nil, _, name, fl, init, pos, restT, depth, _, _ => by simp [serTokensF]
  | .cons w k ks, hks, name, fl, init, pos, restT, depth, hd, hb => by
    simp only [wf_forest, Bool.and_eq_true] at hks
    obtain ⟨⟨hw, hk⟩, hks2⟩ := hks
    rw [serForest_cons_eq] at hb
    cases w with
    | nil =>
      have hb2 : pos + ((ser k).length + (serForest ks).length) ≤ 10485760 + init := by
        simp only [List.length_append, List.length_nil] at hb
        omega
      rw [serTokensF_cons_nil_eq, List.append_assoc,
        fe_tree k hk name fl init pos 0
          (serTokensF ks (pos + (ser k).length) ++ restT) depth hd (by omega) (by omega),
        fe_forest ks hks2 name fl init (pos + (ser k).length) restT depth hd (by omega)]
    | cons wb wt =>
      have hb2 : pos + ((wb :: wt).length + ((ser k).length + (serForest ks).length))
          ≤ 10485760 + init := by
        simp only [List.length_append, List.length_cons] at hb ⊢
        omega
      rw [serTokensF_cons_cons_eq, List.cons_append, List.append_assoc]
      rw [fe_step_text, if_neg (by omega)]
      rw [fe_tree k hk name fl init (pos + (wb :: wt).length) 1
        (serTokensF ks (pos + (wb :: wt).length + (ser k).length) ++ restT) depth hd
        (by omega) (by omega)]
      rw [fe_forest ks hks2 name fl init (pos + (wb :: wt).length + (ser k).length) restT
        depth hd (by omega)]
end

/-- Element lookup at the junction of an append. -/
theorem get_append_at (l : List Nat) (y : Nat) (t : List Nat) :
    (l ++ y :: t).get? l.length = some y := by
  rw [List.get?_eq_getElem?, List.getElem?_append_right (Nat.le_refl _), Nat.sub_self]
  simp

/-- Byte lookup inside the middle region of a three-part document split. -/
theorem region_get (doc pre mid post : List Nat) (hdoc : doc = pre ++ mid ++ post)
    (i : Nat) (h : i < mid.length) : doc.get? (pre.length + i) = mid.get? i := by
  subst hdoc
  rw [List.get?_eq_getElem?, List.get?_eq_getElem?, List.append_assoc,
    List.getElem?_append_right (by omega), Nat.add_sub_cancel_left,
    List.getElem?_append_left h]

/-- A `<`-free middle region never satisfies the backward scanner's byte
test. -/
theorem region_no60 (doc pre mid post : List Nat) (a : Nat) (hdoc : doc = pre ++ mid ++ post)
    (ha : a = pre.length) (hmid : ∀ x ∈ mid, x ≠ 60) :
    ∀ t, t < mid.length → ¬ doc.get? (a + t) = some 60 := by
  intro t ht hget
  rw [ha] at hget
  rw [region_get doc pre mid post hdoc t ht] at hget
  rw [List.get?_eq_getElem?] at hget
  exact hmid 60 (List.getElem?_mem hget) rfl

/-- One backward-scan step, written out. -/
theorem inner_step_eq (doc : List Nat) (len cp rs i : Nat) (st : LastScanState) :
    last_child_inner doc len cp rs (i + 1) st =
      (if doc.get? (cp + i) = some 60 then
        match resolve_backward_tag doc len (cp + i) (rs - i) with
        | none => last_child_inner doc len cp rs i st
        | some (tag_name, kind, tag_len) =>
          match kind with
          | .closeK =>
            last_child_inner doc len cp rs i
              { depth := st.depth + 1
                last_tag_end :=
                  if st.depth + 1 = 2 then some (cp + i + tag_len)
                  else st.last_tag_end
                root_name := if st.depth + 1 = 1 then tag_name else st.root_name }
          | .openK =>
            match (if st.depth - 1 = 1 then st.last_tag_end else none) with
            | some e =>
              .inl (.ok (extract_and_build_result doc len (cp + i) e
                (xpath_of [st.root_name, tag_name] ++ str_bytes " (last)")))
            | none =>
              if st.depth - 1 = 0 then
                .inl (.error (str_bytes "No last child found (root exited)"))
              else
                last_child_inner doc len cp rs i
                  { st with depth := st.depth - 1 }
          | .emptyK =>
            if st.depth = 1 then
              .inl (.ok (extract_and_build_result doc len (cp + i)
                (cp + i + tag_len)
                (xpath_of [st.root_name, tag_name] ++ str_bytes " (last)")))
            else last_child_inner doc len cp rs i st
      else last_child_inner doc len cp rs i st) := rfl

/-- One backward-chunk step of the outer loop, written out. -/
theorem outer_step_eq (doc : List Nat) (len fuel cp : Nat) (st : LastScanState) :
    last_child_outer doc len (fuel + 1) cp st =
      if cp = 0 then .error (str_bytes "Last child not found")
      else
        match last_child_inner doc len (cp - min cp 65536) (min cp 65536)
            (min cp 65536) st with
        | .inl r => r
        | .inr st2 => last_child_outer doc len fuel (cp - min cp 65536) st2 := rfl

/-- The backward scan skips over a `<`-free run of bytes. -/
theorem inner_skip (doc : List Nat) (len rs : Nat) :
    ∀ (m a : Nat) (st : LastScanState),
      (∀ t, t < m → ¬ doc.get? (a + t) = some 60) →
      last_child_inner doc len 0 rs (a + m) st = last_child_inner doc len 0 rs a st := by
  intro m
  induction m with
  | zero => intro a st _; rfl
  | succ m ih =>
    intro a st h
    show last_child_inner doc len 0 rs ((a + m) + 1) st = _
    rw [inner_step_eq, if_neg (by rw [Nat.zero_add]; exact h m (by omega))]
    exact ih a st (fun t ht => h t (by omega))

/-- The backward tag resolution at a complete tag whose `>` is the first
one at or after its `<` (single-chunk scan). -/
theorem resolve_backward_at (doc : List Nat) (len : Nat) (pre body post : List Nat)
    (hdoc : doc = pre ++ (body ++ [62]) ++ post) (hlen : len = doc.length)
    (hb : ∀ x ∈ body, (x == 62) = false) :
    resolve_backward_tag doc len pre.length (len - pre.length)
      = classify_tag (body ++ [62]) := by
  have hdl : doc.drop pre.length = (body ++ [62]) ++ post := by
    rw [hdoc, List.append_assoc]
    exact List.drop_left _ _
  have hlen2 : (doc.drop pre.length).length = len - pre.length := by
    rw [hlen]
    simp
  have htk : (doc.drop pre.length).take (len - pre.length) = doc.drop pre.length :=
    List.take_of_length_le (by omega)
  have hfi : ((body ++ [62]) ++ post).findIdx? (fun b => b == 62) = some body.length := by
    have := findIdx_first body 62 post (fun b => b == 62) hb (by decide)
    simpa using this
  have htake2 : ((body ++ [62]) ++ post).take (body.length + 1) = body ++ [62] :=
    List.take_left' (by simp)
  simp only [resolve_backward_tag]
  rw [htk, hdl, hfi]
  show classify_tag (((body ++ [62]) ++ post).take (body.length + 1)) = _
  rw [htake2]

/-- Backward classification of a well-formed close tag. -/
theorem classify_tag_close (n : List Nat) (hn0 : n ≠ []) (hn : n.all name_byte = true) :
    classify_tag (60 :: 47 :: (n ++ [62])) = some (n, .closeK, n.length + 3) := by
  have hlen : (60 :: 47 :: (n ++ [62])).length = n.length + 3 := by
    simp only [List.length_cons, List.length_append, List.length_nil] <;> omega
  simp only [classify_tag]
  rw [if_neg (by rw [hlen]; omega), if_neg (by simp), if_pos (by rfl)]
  have hd2 : (60 :: 47 :: (n ++ [62])).drop 2 = n ++ [62] := rfl
  rw [hd2, etn_wf n [62] hn (Or.inr (Or.inl rfl)), hlen]

/-- Backward classification of a well-formed open tag. -/
theorem classify_tag_open (n a : List Nat) (hn0 : n ≠ [])
    (hn : n.all name_byte = true) (ha : a.all attr_byte = true)
    (hah : a = [] ∨ a.head? = some 32) :
    classify_tag (60 :: (n ++ (a ++ [62]))) = some (n, .openK, n.length + a.length + 2) := by
  obtain ⟨c0, n', rfl⟩ : ∃ c0 n', n = c0 :: n' := by
    cases n with
    | nil => exact absurd rfl hn0
    | cons c0 n' => exact ⟨c0, n', rfl⟩
  have hlen : (60 :: ((c0 :: n') ++ (a ++ [62]))).length = (c0 :: n').length + a.length + 2 := by
    simp only [List.length_cons, List.length_append, List.length_nil] <;> omega
  have hb0 : name_byte c0 = true := by simpa using List.all_eq_true.1 hn c0 (by simp)
  have hspec := name_byte_spec c0 hb0
  have hget1 : (60 :: ((c0 :: n') ++ (a ++ [62]))).get? 1 = some c0 := rfl
  rcases List.eq_nil_or_concat ((c0 :: n') ++ a) with hcon | ⟨l', y, hcon⟩
  · simp at hcon
  · rw [List.concat_eq_append] at hcon
    have hy : y ∈ (c0 :: n') ++ a := by rw [hcon]; simp
    have hy47 : y ≠ 47 := wf_no47 (c0 :: n') a hn ha y hy
    have hcL : (c0 :: n').length + a.length = l'.length + 1 := by
      have := congrArg List.length hcon
      simp only [List.length_append, List.length_cons, List.length_nil] at this
      simp only [List.length_cons]
      omega
    have hsh : 60 :: ((c0 :: n') ++ (a ++ [62])) = (60 :: l') ++ y :: [62] := by
      rw [show (60 : Nat) :: ((c0 :: n') ++ (a ++ [62]))
          = 60 :: (((c0 :: n') ++ a) ++ [62]) by simp, hcon]
      simp
    have hlast : (60 :: ((c0 :: n') ++ (a ++ [62]))).get? (l'.length + 1) = some y := by
      rw [hsh]
      have := get_append_at (60 :: l') y [62]
      simpa using this
    have hc2 : ¬((60 :: ((c0 :: n') ++ (a ++ [62]))).get? 1 = some 63 ∨
        (60 :: ((c0 :: n') ++ (a ++ [62]))).get? 1 = some 33) := by
      rw [hget1]
      rintro (h | h)
      · exact hspec.2.2.2.1 (by simpa using h)
      · exact hspec.2.2.2.2.1 (by simpa using h)
    have hc3 : ¬(60 :: ((c0 :: n') ++ (a ++ [62]))).get? 1 = some 47 := by
      rw [hget1]
      intro h
      exact hspec.2.2.1 (by simpa using h)
    have hc4 : ¬(60 :: ((c0 :: n') ++ (a ++ [62]))).get?
        ((60 :: ((c0 :: n') ++ (a ++ [62]))).length - 2) = some 47 := by
      rw [hlen, show (c0 :: n').length + a.length + 2 - 2 = l'.length + 1 by omega, hlast]
      intro h
      exact hy47 (by simpa using h)
    have hr : (a ++ [62]).head? = some 32 ∨ (a ++ [62]).head? = some 62 ∨
        (a ++ [62]).head? = some 47 := by
      rcases hah with h | h
      · subst h
        simp
      · cases a with
        | nil => simp at h
        | cons b t =>
          left
          simpa using h
    simp only [classify_tag]
    rw [if_neg (by rw [hlen]; omega), if_neg hc2, if_neg hc3, if_neg hc4]
    have hd1 : (60 :: ((c0 :: n') ++ (a ++ [62]))).drop 1 = (c0 :: n') ++ (a ++ [62]) := rfl
    rw [hd1, etn_wf (c0 :: n') (a ++ [62]) hn hr, hlen]

/-- Backward classification of a well-formed self-closing tag. -/
theorem classify_tag_empty (n a : List Nat) (hn0 : n ≠ [])
    (hn : n.all name_byte = true) (ha : a.all attr_byte = true)
    (hah : a = [] ∨ a.head? = some 32) :
    classify_tag (60 :: (n ++ (a ++ [47, 62])))
      = some (n, .emptyK, n.length + a.length + 3) := by
  obtain ⟨c0, n', rfl⟩ : ∃ c0 n', n = c0 :: n' := by
    cases n with
    | nil => exact absurd rfl hn0
    | cons c0 n' => exact ⟨c0, n', rfl⟩
  have hlen : (60 :: ((c0 :: n') ++ (a ++ [47, 62]))).length
      = (c0 :: n').length + a.length + 3 := by
    simp only [List.length_cons, List.length_append, List.length_nil] <;> omega
  have hb0 : name_byte c0 = true := by simpa using List.all_eq_true.1 hn c0 (by simp)
  have hspec := name_byte_spec c0 hb0
  have hget1 : (60 :: ((c0 :: n') ++ (a ++ [47, 62]))).get? 1 = some c0 := rfl
  have hc2 : ¬((60 :: ((c0 :: n') ++ (a ++ [47, 62]))).get? 1 = some 63 ∨
      (60 :: ((c0 :: n') ++ (a ++ [47, 62]))).get? 1 = some 33) := by
    rw [hget1]
    rintro (h | h)
    · exact hspec.2.2.2.1 (by simpa using h)
    · exact hspec.2.2.2.2.1 (by simpa using h)
  have hc3 : ¬(60 :: ((c0 :: n') ++ (a ++ [47, 62]))).get? 1 = some 47 := by
    rw [hget1]
    intro h
    exact hspec.2.2.1 (by simpa using h)
  have hsh : 60 :: ((c0 :: n') ++ (a ++ [47, 62]))
      = (60 :: ((c0 :: n') ++ a)) ++ 47 :: [62] := by simp
  have hc4get : (60 :: ((c0 :: n') ++ (a ++ [47, 62]))).get?
      ((c0 :: n').length + a.length + 1) = some 47 := by
    rw [hsh]
    have h := get_append_at (60 :: ((c0 :: n') ++ a)) 47 [62]
    rw [show (60 :: ((c0 :: n') ++ a)).length = (c0 :: n').length + a.length + 1 from by
      simp only [List.length_cons, List.length_append] <;> omega] at h
    exact h
  have hc4 : (60 :: ((c0 :: n') ++ (a ++ [47, 62]))).get?
      ((60 :: ((c0 :: n') ++ (a ++ [47, 62]))).length - 2) = some 47 := by
    rw [hlen, show (c0 :: n').length + a.length + 3 - 2 = (c0 :: n').length + a.length + 1
      by omega]
    exact hc4get
  have hr : (a ++ [47, 62]).head? = some 32 ∨ (a ++ [47, 62]).head? = some 62 ∨
      (a ++ [47, 62]).head? = some 47 := by
    rcases hah with h | h
    · subst h
      simp
    · cases a with
      | nil => simp at h
      | cons b t =>
        left
        simpa using h
  simp only [classify_tag]
  rw [if_neg (by rw [hlen]; omega), if_neg hc2, if_neg hc3, if_pos hc4]
  have hd1 : (60 :: ((c0 :: n') ++ (a ++ [47, 62]))).drop 1
      = (c0 :: n') ++ (a ++ [47, 62]) := rfl
  rw [hd1, etn_wf (c0 :: n') (a ++ [47, 62]) hn hr, hlen]

/-- The backward scan at the `<` of a well-formed close tag. -/
theorem inner_step_close (doc : List Nat) (len : Nat) (pre post n : List Nat)
    (d : Int) (lte : Option Nat) (rn : List Nat)
    (hdoc : doc = pre ++ (60 :: 47 :: (n ++ [62])) ++ post) (hlen : len = doc.length)
    (hn0 : n ≠ []) (hn : n.all name_byte = true) :
    last_child_inner doc len 0 len (pre.length + 1) ⟨d, lte, rn⟩ =
      last_child_inner doc len 0 len pre.length
        ⟨d + 1,
         if d + 1 = 2 then some (pre.length + (n.length + 3)) else lte,
         if d + 1 = 1 then n else rn⟩ := by
  have hget : doc.get? pre.length = some 60 := by
    have hsh : doc = pre ++ 60 :: (47 :: ((n ++ [62]) ++ post)) := by
      rw [hdoc]
      simp
    rw [hsh]
    exact get_append_at pre 60 _
  have hres : resolve_backward_tag doc len pre.length (len - pre.length)
      = some (n, .closeK, n.length + 3) := by
    have hb : ∀ x ∈ 60 :: 47 :: n, (x == 62) = false := by
      intro x hx
      rcases List.mem_cons.1 hx with hx | hx
      · subst hx
        decide
      rcases List.mem_cons.1 hx with hx | hx
      · subst hx
        decide
      · have hbx : name_byte x = true := by simpa using List.all_eq_true.1 hn x hx
        simpa using (name_byte_spec x hbx).2.1
    have h1 := resolve_backward_at doc len pre (60 :: 47 :: n) post
      (by rw [hdoc]; simp) hlen hb
    rw [show ((60 : Nat) :: 47 :: n) ++ [62] = 60 :: 47 :: (n ++ [62]) by simp] at h1
    rw [h1, classify_tag_close n hn0 hn]
  rw [inner_step_eq]
  simp only [Nat.zero_add]
  rw [if_pos hget, hres]

/-- The backward scan at the `<` of a well-formed open tag. -/
theorem inner_step_open (doc : List Nat) (len : Nat) (pre post n a : List Nat)
    (d : Int) (lte : Option Nat) (rn : List Nat)
    (hdoc : doc = pre ++ (60 :: (n ++ (a ++ [62]))) ++ post) (hlen : len = doc.length)
    (hn0 : n ≠ []) (hn : n.all name_byte = true) (ha : a.all attr_byte = true)
    (hah : a = [] ∨ a.head? = some 32) :
    last_child_inner doc len 0 len (pre.length + 1) ⟨d, lte, rn⟩ =
      (match (if d - 1 = 1 then lte else none) with
       | some e =>
         .inl (.ok (extract_and_build_result doc len pre.length e
           (xpath_of [rn, n] ++ str_bytes " (last)")))
       | none =>
         if d - 1 = 0 then .inl (.error (str_bytes "No last child found (root exited)"))
         else last_child_inner doc len 0 len pre.length ⟨d - 1, lte, rn⟩) := by
  have hget : doc.get? pre.length = some 60 := by
    have hsh : doc = pre ++ 60 :: ((n ++ (a ++ [62])) ++ post) := by
      rw [hdoc]
      simp
    rw [hsh]
    exact get_append_at pre 60 _
  have hres : resolve_backward_tag doc len pre.length (len - pre.length)
      = some (n, .openK, n.length + a.length + 2) := by
    have hb : ∀ x ∈ 60 :: (n ++ a), (x == 62) = false := by
      intro x hx
      rcases List.mem_cons.1 hx with hx | hx
      · subst hx
        decide
      · exact wf_no62 n a hn ha x hx
    have h1 := resolve_backward_at doc len pre (60 :: (n ++ a)) post
      (by rw [hdoc]; simp) hlen hb
    rw [show ((60 : Nat) :: (n ++ a)) ++ [62] = 60 :: (n ++ (a ++ [62])) by simp] at h1
    rw [h1, classify_tag_open n a hn0 hn ha hah]
  rw [inner_step_eq]
  simp only [Nat.zero_add]
  rw [if_pos hget, hres]

/-- The backward scan at the `<` of a well-formed self-closing tag. -/
theorem inner_step_empty_tag (doc : List Nat) (len : Nat) (pre post n a : List Nat)
    (d : Int) (lte : Option Nat) (rn : List Nat)
    (hdoc : doc = pre ++ (60 :: (n ++ (a ++ [47, 62]))) ++ post) (hlen : len = doc.length)
    (hn0 : n ≠ []) (hn : n.all name_byte = true) (ha : a.all attr_byte = true)
    (hah : a = [] ∨ a.head? = some 32) :
    last_child_inner doc len 0 len (pre.length + 1) ⟨d, lte, rn⟩ =
      (if d = 1 then
        .inl (.ok (extract_and_build_result doc len pre.length
          (pre.length + (n.length + a.length + 3))
          (xpath_of [rn, n] ++ str_bytes " (last)")))
      else last_child_inner doc len 0 len pre.length ⟨d, lte, rn⟩) := by
  have hget : doc.get? pre.length = some 60 := by
    have hsh : doc = pre ++ 60 :: ((n ++ (a ++ [47, 62])) ++ post) := by
      rw [hdoc]
      simp
    rw [hsh]
    exact get_append_at pre 60 _
  have hres : resolve_backward_tag doc len pre.length (len - pre.length)
      = some (n, .emptyK, n.length + a.length + 3) := by
    have hb : ∀ x ∈ 60 :: ((n ++ a) ++ [47]), (x == 62) = false := by
      intro x hx
      rcases List.mem_cons.1 hx with hx | hx
      · subst hx
        decide
      rcases List.mem_append.1 hx with hx | hx
      · exact wf_no62 n a hn ha x hx
      · simp at hx
        subst hx
        decide
    have h1 := resolve_backward_at doc len pre (60 :: ((n ++ a) ++ [47])) post
      (by rw [hdoc]; simp) hlen hb
    rw [show ((60 : Nat) :: ((n ++ a) ++ [47])) ++ [62]
        = 60 :: (n ++ (a ++ [47, 62])) by simp] at h1
    rw [h1, classify_tag_empty n a hn0 hn ha hah]
  rw [inner_step_eq]
  simp only [Nat.zero_add]
  rw [if_pos hget, hres]


/-- Whitespace runs contain no `<`. -/
theorem ws_no60 (w : List Nat) (hw : w.all ws_byte = true) : ∀ x ∈ w, x ≠ 60 :=
  fun x hx => (ws_byte_spec x (by simpa using List.all_eq_true.1 hw x hx)).1

mutual
/-- The backward scan crosses a serialized well-formed subtree at depth at
least two without returning and without changing its state. -/
theorem back_tree : ∀ (k : XTree), wf_tree k = true →
    ∀ (doc pre post : List Nat) (len : Nat) (d : Int) (lte : Option Nat) (rn : List Nat),
      doc = pre ++ ser k ++ post → len = doc.length → 2 ≤ d →
      last_child_inner doc len 0 len (pre.length + (ser k).length) ⟨d, lte, rn⟩
        = last_child_inner doc len 0 len pre.length ⟨d, lte, rn⟩
  | .elem n a kids wend self, hk, doc, pre, post, len, d, lte, rn, hdoc, hlen, hd => by
    simp only [wf_tree, Bool.and_eq_true] at hk
    obtain ⟨⟨⟨⟨⟨h1, h2⟩, h3⟩, h4⟩, hwd⟩, h5⟩ := hk
    have hn0 : n ≠ [] := by simpa using h1
    have hah : a = [] ∨ a.head? = some 32 := by simpa using h4
    cases self with
    | true =>
      have hmid : ∀ x ∈ n ++ (a ++ [47, 62]), x ≠ 60 := by
        intro x hx
        rcases List.mem_append.1 hx with hx | hx
        · exact (name_byte_spec x (by simpa using List.all_eq_true.1 h2 x hx)).1
        rcases List.mem_append.1 hx with hx | hx
        · exact (attr_byte_spec x (by simpa using List.all_eq_true.1 h3 x hx)).1
        · simp at hx
          rcases hx with hx | hx <;> subst hx <;> decide
      have hdoc60 : doc = (pre ++ [60]) ++ (n ++ (a ++ [47, 62])) ++ post := by
        rw [hdoc]
        show pre ++ (60 :: (n ++ a ++ [47, 62])) ++ post = _
        simp
      have hskip : ∀ t, t < n.length + a.length + 2 →
          ¬ doc.get? ((pre.length + 1) + t) = some 60 := by
        intro t ht
        refine region_no60 doc (pre ++ [60]) (n ++ (a ++ [47, 62])) post (pre.length + 1)
          hdoc60 (by simp) hmid t ?_
        simp only [List.length_append, List.length_cons, List.length_nil]
        omega
      have harith : pre.length + (ser (.elem n a kids wend true)).length
          = (pre.length + 1) + (n.length + a.length + 2) := by
        rw [ser_elem_true_length]
        omega
      have hdocE : doc = pre ++ (60 :: (n ++ (a ++ [47, 62]))) ++ post := by
        rw [hdoc]
        show pre ++ (60 :: (n ++ a ++ [47, 62])) ++ post = _
        simp
      rw [harith, inner_skip doc len len (n.length + a.length + 2) (pre.length + 1)
        ⟨d, lte, rn⟩ hskip]
      rw [inner_step_empty_tag doc len pre post n a d lte rn hdocE hlen hn0 h2 h3 hah]
      rw [if_neg (by omega)]
    | false =>
      have hmidC : ∀ x ∈ 47 :: (n ++ [62]), x ≠ 60 := by
        intro x hx
        rcases List.mem_cons.1 hx with hx | hx
        · subst hx
          decide
        rcases List.mem_append.1 hx with hx | hx
        · exact (name_byte_spec x (by simpa using List.all_eq_true.1 h2 x hx)).1
        · simp at hx
          subst hx
          decide
      have hdocC : doc
          = (pre ++ (60 :: (n ++ a ++ [62])) ++ serForest kids ++ wend)
            ++ (60 :: 47 :: (n ++ [62])) ++ post := by
        rw [hdoc]
        show pre ++ ((60 :: (n ++ a ++ [62])) ++ serForest kids
          ++ (wend ++ (60 :: 47 :: (n ++ [62])))) ++ post = _
        simp
      have hdocCtail : doc
          = ((pre ++ (60 :: (n ++ a ++ [62])) ++ serForest kids ++ wend) ++ [60])
            ++ (47 :: (n ++ [62])) ++ post := by
        rw [hdoc]
        show pre ++ ((60 :: (n ++ a ++ [62])) ++ serForest kids
          ++ (wend ++ (60 :: 47 :: (n ++ [62])))) ++ post = _
        simp
      have hskip1 : ∀ t, t < n.length + 2 →
          ¬ doc.get?
            (((pre ++ (60 :: (n ++ a ++ [62])) ++ serForest kids ++ wend).length + 1) + t)
            = some 60 := by
        intro t ht
        refine region_no60 doc
          ((pre ++ (60 :: (n ++ a ++ [62])) ++ serForest kids ++ wend) ++ [60])
          (47 :: (n ++ [62])) post _ hdocCtail
          (by simp only [List.length_append, List.length_cons, List.length_nil] <;> omega)
          hmidC t ?_
        simp only [List.length_cons, List.length_append, List.length_nil]
        omega
      have harith1 : pre.length + (ser (.elem n a kids wend false)).length
          = ((pre ++ (60 :: (n ++ a ++ [62])) ++ serForest kids ++ wend).length + 1)
            + (n.length + 2) := by
        rw [ser_elem_false_length]
        simp only [List.length_append, List.length_cons, List.length_nil]
        omega
      rw [harith1, inner_skip doc len len (n.length + 2) _ ⟨d, lte, rn⟩ hskip1]
      rw [inner_step_close doc len
        (pre ++ (60 :: (n ++ a ++ [62])) ++ serForest kids ++ wend) post
        n d lte rn hdocC hlen hn0 h2]
      rw [if_neg (by omega), if_neg (by omega)]
      have harithW : (pre ++ (60 :: (n ++ a ++ [62])) ++ serForest kids ++ wend).length
          = (pre ++ (60 :: (n ++ a ++ [62])) ++ serForest kids).length + wend.length := by
        simp only [List.length_append] <;> omega
      have hdocW : doc = (pre ++ (60 :: (n ++ a ++ [62])) ++ serForest kids)
          ++ wend ++ ((60 :: 47 :: (n ++ [62])) ++ post) := by
        rw [hdoc]
        show pre ++ ((60 :: (n ++ a ++ [62])) ++ serForest kids
          ++ (wend ++ (60 :: 47 :: (n ++ [62])))) ++ post = _
        simp
      have hskipW : ∀ t, t < wend.length →
          ¬ doc.get? ((pre ++ (60 :: (n ++ a ++ [62])) ++ serForest kids).length + t)
            = some 60 := by
        intro t ht
        exact region_no60 doc (pre ++ (60 :: (n ++ a ++ [62])) ++ serForest kids) wend
          ((60 :: 47 :: (n ++ [62])) ++ post) _ hdocW rfl (ws_no60 wend hwd) t ht
      have hsk := inner_skip doc len len wend.length
        ((pre ++ (60 :: (n ++ a ++ [62])) ++ serForest kids).length) ⟨d + 1, lte, rn⟩ hskipW
      rw [harithW, hsk]
      have hdocF : doc = (pre ++ (60 :: (n ++ a ++ [62]))) ++ serForest kids
          ++ (wend ++ ((60 :: 47 :: (n ++ [62])) ++ post)) := by
        rw [hdoc]
        show pre ++ ((60 :: (n ++ a ++ [62])) ++ serForest kids
          ++ (wend ++ (60 :: 47 :: (n ++ [62])))) ++ post = _
        simp
      have harith2 : (pre ++ (60 :: (n ++ a ++ [62])) ++ serForest kids).length
          = (pre ++ (60 :: (n ++ a ++ [62]))).length + (serForest kids).length := by
        simp only [List.length_append, List.length_cons, List.length_nil] <;> omega
      rw [harith2, back_forest kids h5 doc (pre ++ (60 :: (n ++ a ++ [62])))
        (wend ++ ((60 :: 47 :: (n ++ [62])) ++ post)) len (d + 1) lte rn hdocF hlen
        (by omega)]
      have hmidO : ∀ x ∈ n ++ (a ++ [62]), x ≠ 60 := by
        intro x hx
        rcases List.mem_append.1 hx with hx | hx
        · exact (name_byte_spec x (by simpa using List.all_eq_true.1 h2 x hx)).1
        rcases List.mem_append.1 hx with hx | hx
        · exact (attr_byte_spec x (by simpa using List.all_eq_true.1 h3 x hx)).1
        · simp at hx
          subst hx
          decide
      have hdocOtail : doc = (pre ++ [60]) ++ (n ++ (a ++ [62]))
          ++ (serForest kids ++ (wend ++ ((60 :: 47 :: (n ++ [62])) ++ post))) := by
        rw [hdoc]
        show pre ++ ((60 :: (n ++ a ++ [62])) ++ serForest kids
          ++ (wend ++ (60 :: 47 :: (n ++ [62])))) ++ post = _
        simp
      have hskip2 : ∀ t, t < n.length + a.length + 1 →
          ¬ doc.get? ((pre.length + 1) + t) = some 60 := by
        intro t ht
        refine region_no60 doc (pre ++ [60]) (n ++ (a ++ [62]))
          (serForest kids ++ (wend ++ ((60 :: 47 :: (n ++ [62])) ++ post))) (pre.length + 1)
          hdocOtail (by simp) hmidO t ?_
        simp only [List.length_append, List.length_cons, List.length_nil]
        omega
      have harith3 : (pre ++ (60 :: (n ++ a ++ [62]))).length
          = (pre.length + 1) + (n.length + a.length + 1) := by
        simp only [List.length_append, List.length_cons, List.length_nil]
        omega
      rw [harith3, inner_skip doc len len (n.length + a.length + 1) (pre.length + 1)
        ⟨d + 1, lte, rn⟩ hskip2]
      have hdocO : doc = pre ++ (60 :: (n ++ (a ++ [62])))
          ++ (serForest kids ++ (wend ++ ((60 :: 47 :: (n ++ [62])) ++ post))) := by
        rw [hdoc]
        show pre ++ ((60 :: (n ++ a ++ [62])) ++ serForest kids
          ++ (wend ++ (60 :: 47 :: (n ++ [62])))) ++ post = _
        simp
      rw [inner_step_open doc len pre
        (serForest kids ++ (wend ++ ((60 :: 47 :: (n ++ [62])) ++ post))) n a (d + 1) lte rn
        hdocO hlen hn0 h2 h3 hah]
      simp only [Int.add_sub_cancel]
      rw [if_neg (show ¬d = 1 by omega)]
      show (if d = 0 then
          (Sum.inl (Except.error (str_bytes "No last child found (root exited)"))
            : (Except (List Nat) SearchResult) ⊕ LastScanState)
        else last_child_inner doc len 0 len pre.length ⟨d, lte, rn⟩)
        = last_child_inner doc len 0 len pre.length ⟨d, lte, rn⟩
      rw [if_neg (by omega)]
/-- The backward scan crosses a serialized well-formed sibling sequence at
depth at least two without returning and without changing its state. -/
theorem back_forest : ∀ (ks : XForest), wf_forest ks = true →
    ∀ (doc pre post : List Nat) (len : Nat) (d : Int) (lte : Option Nat) (rn : List Nat),
      doc = pre ++ serForest ks ++ post → len = doc.length → 2 ≤ d →
      last_child_inner doc len 0 len (pre.length + (serForest ks).length) ⟨d, lte, rn⟩
        = last_child_inner doc len 0 len pre.length ⟨d, lte, rn⟩
  | .nil, _, doc, pre, post, len, d, lte, rn, hdoc, hlen, hd => rfl
  | .cons w k ks, hks, doc, pre, post, len, d, lte, rn, hdoc, hlen, hd => by
    simp only [wf_forest, Bool.and_eq_true] at hks
    obtain ⟨⟨hw, hk⟩, hks2⟩ := hks
    have hdocU : doc = pre ++ (w ++ (ser k ++ serForest ks)) ++ post := by
      rw [serForest_cons_eq] at hdoc
      exact hdoc
    have hdoc1 : doc = ((pre ++ w) ++ ser k) ++ serForest ks ++ post := by
      rw [hdocU]
      simp
    have h1 : pre.length + (serForest (.cons w k ks)).length
        = ((pre ++ w) ++ ser k).length + (serForest ks).length := by
      rw [serForest_cons_eq]
      simp only [List.length_append] <;> omega
    rw [h1, back_forest ks hks2 doc ((pre ++ w) ++ ser k) post len d lte rn hdoc1 hlen hd]
    have hdoc2 : doc = (pre ++ w) ++ ser k ++ (serForest ks ++ post) := by
      rw [hdocU]
      simp
    have h2 : ((pre ++ w) ++ ser k).length = (pre ++ w).length + (ser k).length := by
      simp only [List.length_append] <;> omega
    rw [h2, back_tree k hk doc (pre ++ w) (serForest ks ++ post) len d lte rn hdoc2 hlen hd]
    have hdocW : doc = pre ++ w ++ (ser k ++ (serForest ks ++ post)) := by
      rw [hdocU]
      simp
    have hskipW : ∀ t, t < w.length → ¬ doc.get? (pre.length + t) = some 60 := by
      intro t ht
      exact region_no60 doc pre w (ser k ++ (serForest ks ++ post)) pre.length hdocW rfl
        (ws_no60 w hw) t ht
    have h3 : (pre ++ w).length = pre.length + w.length := by
      simp only [List.length_append] <;> omega
    rw [h3, inner_skip doc len len w.length pre.length ⟨d, lte, rn⟩ hskipW]
end

/-- One first-child step on a Start token, written out. -/
theorem fcl_start (doc : List Nat) (fl p : Nat) (name : List Nat)
    (ats : List (List Nat × List Nat)) (rest : List (Nat × XmlEvent)) (rf : Bool)
    (rn : List Nat) :
    first_child_loop doc fl ((p, .startE name ats) :: rest) rf rn =
      if rf then
        .ok (extract_and_build_result doc fl p
          (find_element_end_pos name fl (next_pos rest p) rest 1)
          (xpath_of [rn, name] ++ str_bytes " (first)"))
      else first_child_loop doc fl rest true name := rfl

/-- One first-child step on an Empty token, written out. -/
theorem fcl_empty (doc : List Nat) (fl p : Nat) (name : List Nat)
    (ats : List (List Nat × List Nat)) (rest : List (Nat × XmlEvent)) (rf : Bool)
    (rn : List Nat) :
    first_child_loop doc fl ((p, .emptyE name ats) :: rest) rf rn =
      if rf then
        .ok (extract_and_build_result doc fl p (next_pos rest p)
          (xpath_of [rn, name] ++ str_bytes " (first)"))
      else .error (str_bytes "Root element is empty (no children)") := rfl

/-- One first-child step on a text token, written out. -/
theorem fcl_text (doc : List Nat) (fl p : Nat) (s : List Nat)
    (rest : List (Nat × XmlEvent)) (rf : Bool) (rn : List Nat) :
    first_child_loop doc fl ((p, .textE s) :: rest) rf rn =
      first_child_loop doc fl rest rf rn := rfl

/-- The forward child scan after consuming optional leading whitespace and
the root's open tag: the loop continues with the root recorded. -/
theorem first_child_after_root (doc : List Nat) (fl : Nat) (lead rn ra rest0 : List Nat)
    (hlead : lead.all ws_byte = true) (hrn0 : rn ≠ [])
    (hrn : rn.all name_byte = true) (hra : ra.all attr_byte = true)
    (hrah : ra = [] ∨ ra.head? = some 32) :
    first_child_loop doc fl
        (tokStream (lead ++ ((60 :: (rn ++ (ra ++ [62]))) ++ rest0)) 0) false []
      = first_child_loop doc fl
          (tokStream rest0 (lead.length + (rn.length + ra.length + 2))) true rn := by
  cases lead with
  | nil =>
    rw [List.nil_append]
    have hsh : (60 :: (rn ++ (ra ++ [62]))) ++ rest0 = 60 :: (rn ++ (ra ++ 62 :: rest0)) := by
      simp
    have hre : read_event false ((60 :: (rn ++ (ra ++ [62]))) ++ rest0)
        = (.startE rn (parse_attrs ra), rn.length + ra.length + 2, false) := by
      rw [hsh]
      exact read_start_closed rn ra rest0 hrn0 hrn hra hrah
    have hdrop : ((60 :: (rn ++ (ra ++ [62]))) ++ rest0).drop (rn.length + ra.length + 2)
        = rest0 :=
      List.drop_left' (by simp only [List.length_cons, List.length_append, List.length_nil]
        <;> omega)
    rw [tokStream_step _ 0 _ _ hre (by simp) (by omega)
      (by simp only [List.length_append, List.length_cons, List.length_nil] <;> omega), hdrop]
    rw [fcl_start, if_neg (by simp)]
    simp only [List.length_nil, Nat.zero_add]
  | cons b lead' =>
    have hsh : (b :: lead') ++ ((60 :: (rn ++ (ra ++ [62]))) ++ rest0)
        = (b :: lead') ++ 60 :: (rn ++ (ra ++ 62 :: rest0)) := by
      simp
    have hre : read_event false ((b :: lead') ++ 60 :: (rn ++ (ra ++ 62 :: rest0)))
        = (.textE (b :: lead'), (b :: lead').length + 1, true) :=
      read_text_ws (b :: lead') (rn ++ (ra ++ 62 :: rest0)) hlead (by simp)
    rw [hsh, tokStream, tokenize_step _ false _ 0 _ _ _ hre (by simp)]
    have hdrop : ((b :: lead') ++ 60 :: (rn ++ (ra ++ 62 :: rest0))).drop
        ((b :: lead').length + 1) = rn ++ (ra ++ 62 :: rest0) := by
      rw [show (b :: lead') ++ 60 :: (rn ++ (ra ++ 62 :: rest0))
          = ((b :: lead') ++ [60]) ++ (rn ++ (ra ++ 62 :: rest0)) by simp]
      exact List.drop_left' (by simp only [List.length_append, List.length_cons,
        List.length_nil] <;> omega)
    rw [hdrop]
    have hre2 : read_event true (rn ++ (ra ++ 62 :: rest0))
        = (.startE rn (parse_attrs ra), rn.length + ra.length + 1, false) :=
      read_start_opened rn ra rest0 hrn0 hrn hra hrah
    rw [tokenize_step_to_stream _ true _ _ _ _ hre2 (by simp) (by omega)
      (by simp only [List.length_append, List.length_cons, List.length_nil] <;> omega)
      (by simp only [List.length_append, List.length_cons, List.length_nil] <;> omega)]
    have hdrop2 : (rn ++ (ra ++ 62 :: rest0)).drop (rn.length + ra.length + 1) = rest0 := by
      rw [show rn ++ (ra ++ 62 :: rest0) = ((rn ++ ra) ++ [62]) ++ rest0 by simp]
      exact List.drop_left' (by simp only [List.length_append, List.length_cons,
        List.length_nil] <;> omega)
    rw [hdrop2, fcl_text, fcl_start, if_neg (by simp)]
    rw [show 0 + ((b :: lead').length + 1) + (rn.length + ra.length + 1)
        = (b :: lead').length + (rn.length + ra.length + 2) by omega]


/-- The first token of a canonical stream carries the start position. -/
theorem next_pos_tokStream (bs : List Nat) (pos p : Nat) :
    next_pos (tokStream bs pos) p = pos := next_pos_tokenize _ _ _ _ _


/-- The forward child scan at the single child: both the Start and the
Empty forms resolve to the child's exact byte span, whether or not
whitespace precedes the child. -/
theorem first_child_at_child (doc : List Nat) (fl : Nat) (cn ca : List Nat)
    (kids : XForest) (wend : List Nat) (cself : Bool)
    (hc : wf_tree (.elem cn ca kids wend cself) = true)
    (w1 rest1 : List Nat) (hw1 : w1.all ws_byte = true) (p : Nat) (rn : List Nat)
    (hbound : p + w1.length + (ser (.elem cn ca kids wend cself)).length ≤ 10485760) :
    first_child_loop doc fl
        (tokStream (w1 ++ (ser (.elem cn ca kids wend cself) ++ rest1)) p) true rn
      = .ok (extract_and_build_result doc fl
          (if w1 = [] then p else p + w1.length + 1)
          (p + w1.length + (ser (.elem cn ca kids wend cself)).length)
          (xpath_of [rn, cn] ++ str_bytes " (first)")) := by
  have hc2 := hc
  simp only [wf_tree, Bool.and_eq_true] at hc2
  obtain ⟨⟨⟨⟨⟨h1, h2⟩, h3⟩, h4⟩, hwd⟩, h5⟩ := hc2
  cases w1 with
  | nil =>
    simp only [List.length_nil, Nat.add_zero] at hbound ⊢
    rw [List.nil_append, tok_tree_c (.elem cn ca kids wend cself) hc rest1 p, if_pos trivial]
    cases cself with
    | true =>
      rw [serTokens_true_eq, Nat.add_zero, List.singleton_append, fcl_empty, if_pos rfl,
        next_pos_tokStream]
    | false =>
      have hb2 : p + (cn.length + ca.length + 2) + (serForest kids).length
          + (wend.length + (cn.length + 3)) ≤ 10485760 := by
        rw [ser_elem_false_length] at hbound
        omega
      rw [serTokens_false_eq, Nat.add_zero, List.cons_append, List.append_assoc]
      rw [fcl_start, if_pos rfl]
      rw [fe_forest kids h5 cn fl _ (p + (cn.length + ca.length + 2))
        (wendClose cn wend (p + (cn.length + ca.length + 2) + (serForest kids).length)
          ++ tokStream rest1 (p + (ser (.elem cn ca kids wend false)).length)) 1
        (Nat.le_refl _) (by omega)]
      cases wend with
      | nil =>
        rw [wendClose_nil_eq, List.singleton_append, fe_step_end, if_neg (by omega),
          if_pos rfl, if_pos rfl, next_pos_tokStream]
      | cons wb wt =>
        rw [wendClose_cons_eq]
        simp only [List.cons_append, List.nil_append]
        rw [fe_step_text, if_neg (by omega), fe_step_end, if_neg (by omega),
          if_pos rfl, if_pos rfl, next_pos_tokStream]
  | cons b w1' =>
    rw [if_neg (by simp)]
    obtain ⟨tl, htl⟩ := ser_head cn ca kids wend cself
    have hsh : (b :: w1') ++ (ser (.elem cn ca kids wend cself) ++ rest1)
        = (b :: w1') ++ 60 :: (tl ++ rest1) := by
      rw [htl]
      simp
    rw [hsh]
    have hre : read_event false ((b :: w1') ++ 60 :: (tl ++ rest1))
        = (.textE (b :: w1'), (b :: w1').length + 1, true) :=
      read_text_ws (b :: w1') _ hw1 (by simp)
    rw [tokStream, tokenize_step _ false _ p _ _ _ hre (by simp)]
    have hdrop : ((b :: w1') ++ 60 :: (tl ++ rest1)).drop ((b :: w1').length + 1)
        = tl ++ rest1 := by
      rw [show (b :: w1') ++ 60 :: (tl ++ rest1)
          = ((b :: w1') ++ [60]) ++ (tl ++ rest1) by simp]
      exact List.drop_left' (by simp only [List.length_append, List.length_cons,
        List.length_nil] <;> omega)
    rw [hdrop]
    have htl1 : tl ++ rest1 = (ser (.elem cn ca kids wend cself)).drop 1 ++ rest1 := by
      rw [htl]
      simp
    rw [htl1]
    rw [show p + ((b :: w1').length + 1) = p + (b :: w1').length + 1 by omega]
    have hfg := tokenize_fuel_ge
      (((b :: w1') ++ 60 :: ((ser (.elem cn ca kids wend cself)).drop 1 ++ rest1)).length)
      true ((ser (.elem cn ca kids wend cself)).drop 1 ++ rest1) (p + (b :: w1').length + 1)
      (by rw [htl]
          simp only [List.length_append, List.length_cons, List.length_nil,
            List.drop_succ_cons, List.drop_zero] <;> omega)
    rw [hfg]
    have hto := tok_tree_o (.elem cn ca kids wend cself) hc rest1 (p + (b :: w1').length)
      (((ser (.elem cn ca kids wend cself)).drop 1 ++ rest1).length + 1)
      (by rw [htl]
          simp only [List.length_append, List.length_cons, List.length_nil,
            List.drop_succ_cons, List.drop_zero] <;> omega)
    rw [hto]
    cases cself with
    | true =>
      rw [serTokens_true_eq, List.singleton_append, fcl_text, fcl_empty, if_pos rfl,
        next_pos_tokStream]
    | false =>
      have hb2 : p + (b :: w1').length + (cn.length + ca.length + 2)
          + (serForest kids).length + (wend.length + (cn.length + 3)) ≤ 10485760 := by
        rw [ser_elem_false_length] at hbound
        simp only [List.length_cons] at hbound ⊢
        omega
      rw [serTokens_false_eq, List.cons_append, List.append_assoc]
      rw [fcl_text, fcl_start, if_pos rfl]
      rw [fe_forest kids h5 cn fl _ (p + (b :: w1').length + (cn.length + ca.length + 2))
        (wendClose cn wend (p + (b :: w1').length + (cn.length + ca.length + 2)
            + (serForest kids).length)
          ++ tokStream rest1 (p + (b :: w1').length
            + (ser (.elem cn ca kids wend false)).length)) 1
        (Nat.le_refl _) (by omega)]
      cases wend with
      | nil =>
        rw [wendClose_nil_eq, List.singleton_append, fe_step_end, if_neg (by omega),
          if_pos rfl, if_pos rfl, next_pos_tokStream]
      | cons wb wt =>
        rw [wendClose_cons_eq]
        simp only [List.cons_append, List.nil_append]
        rw [fe_step_text, if_neg (by omega), fe_step_end, if_neg (by omega),
          if_pos rfl, if_pos rfl, next_pos_tokStream]

/-- Entering the serialized top child at depth 1 with no candidate yet, the
backward scan returns exactly the child's byte span. -/
theorem back_child (cn ca : List Nat) (kids : XForest) (wend : List Nat) (cself : Bool)
    (hc : wf_tree (.elem cn ca kids wend cself) = true)
    (doc pre post : List Nat) (len : Nat) (rn : List Nat)
    (hdoc : doc = pre ++ ser (.elem cn ca kids wend cself) ++ post)
    (hlen : len = doc.length) :
    last_child_inner doc len 0 len (pre.length + (ser (.elem cn ca kids wend cself)).length)
        ⟨1, none, rn⟩
      = .inl (.ok (extract_and_build_result doc len pre.length
          (pre.length + (ser (.elem cn ca kids wend cself)).length)
          (xpath_of [rn, cn] ++ str_bytes " (last)"))) := by
  have hc2 := hc
  simp only [wf_tree, Bool.and_eq_true] at hc2
  obtain ⟨⟨⟨⟨⟨h1, h2⟩, h3⟩, h4⟩, hwd⟩, h5⟩ := hc2
  have hn0 : cn ≠ [] := by simpa using h1
  have hah : ca = [] ∨ ca.head? = some 32 := by simpa using h4
  cases cself with
  | true =>
    have hmid : ∀ x ∈ cn ++ (ca ++ [47, 62]), x ≠ 60 := by
      intro x hx
      rcases List.mem_append.1 hx with hx | hx
      · exact (name_byte_spec x (by simpa using List.all_eq_true.1 h2 x hx)).1
      rcases List.mem_append.1 hx with hx | hx
      · exact (attr_byte_spec x (by simpa using List.all_eq_true.1 h3 x hx)).1
      · simp at hx
        rcases hx with hx | hx <;> subst hx <;> decide
    have hdoc60 : doc = (pre ++ [60]) ++ (cn ++ (ca ++ [47, 62])) ++ post := by
      rw [hdoc]
      show pre ++ (60 :: (cn ++ ca ++ [47, 62])) ++ post = _
      simp
    have hskip : ∀ t, t < cn.length + ca.length + 2 →
        ¬ doc.get? ((pre.length + 1) + t) = some 60 := by
      intro t ht
      refine region_no60 doc (pre ++ [60]) (cn ++ (ca ++ [47, 62])) post (pre.length + 1)
        hdoc60 (by simp) hmid t ?_
      simp only [List.length_append, List.length_cons, List.length_nil]
      omega
    have hdocE : doc = pre ++ (60 :: (cn ++ (ca ++ [47, 62]))) ++ post := by
      rw [hdoc]
      show pre ++ (60 :: (cn ++ ca ++ [47, 62])) ++ post = _
      simp
    nth_rewrite 1 [show pre.length + (ser (.elem cn ca kids wend true)).length
      = (pre.length + 1) + (cn.length + ca.length + 2) from by
        rw [ser_elem_true_length]; omega]
    rw [inner_skip doc len len (cn.length + ca.length + 2) (pre.length + 1)
      ⟨1, none, rn⟩ hskip]
    rw [inner_step_empty_tag doc len pre post cn ca 1 none rn hdocE hlen hn0 h2 h3 hah]
    rw [if_pos rfl]
    rw [show pre.length + (cn.length + ca.length + 3)
      = pre.length + (ser (.elem cn ca kids wend true)).length from by
        rw [ser_elem_true_length]]
  | false =>
    have hmidC : ∀ x ∈ 47 :: (cn ++ [62]), x ≠ 60 := by
      intro x hx
      rcases List.mem_cons.1 hx with hx | hx
      · subst hx
        decide
      rcases List.mem_append.1 hx with hx | hx
      · exact (name_byte_spec x (by simpa using List.all_eq_true.1 h2 x hx)).1
      · simp at hx
        subst hx
        decide
    have hdocC : doc
        = (pre ++ (60 :: (cn ++ ca ++ [62])) ++ serForest kids ++ wend)
          ++ (60 :: 47 :: (cn ++ [62])) ++ post := by
      rw [hdoc]
      show pre ++ ((60 :: (cn ++ ca ++ [62])) ++ serForest kids
        ++ (wend ++ (60 :: 47 :: (cn ++ [62])))) ++ post = _
      simp
    have hdocCtail : doc
        = ((pre ++ (60 :: (cn ++ ca ++ [62])) ++ serForest kids ++ wend) ++ [60])
          ++ (47 :: (cn ++ [62])) ++ post := by
      rw [hdoc]
      show pre ++ ((60 :: (cn ++ ca ++ [62])) ++ serForest kids
        ++ (wend ++ (60 :: 47 :: (cn ++ [62])))) ++ post = _
      simp
    have hskip1 : ∀ t, t < cn.length + 2 →
        ¬ doc.get?
          (((pre ++ (60 :: (cn ++ ca ++ [62])) ++ serForest kids ++ wend).length + 1) + t)
          = some 60 := by
      intro t ht
      refine region_no60 doc
        ((pre ++ (60 :: (cn ++ ca ++ [62])) ++ serForest kids ++ wend) ++ [60])
        (47 :: (cn ++ [62])) post _ hdocCtail
        (by simp only [List.length_append, List.length_cons, List.length_nil] <;> omega)
        hmidC t ?_
      simp only [List.length_cons, List.length_append, List.length_nil]
      omega
    nth_rewrite 1 [show pre.length + (ser (.elem cn ca kids wend false)).length
      = ((pre ++ (60 :: (cn ++ ca ++ [62])) ++ serForest kids ++ wend).length + 1)
        + (cn.length + 2) from by
        rw [ser_elem_false_length]
        simp only [List.length_append, List.length_cons, List.length_nil]
        omega]
    rw [inner_skip doc len len (cn.length + 2) _ ⟨1, none, rn⟩ hskip1]
    rw [inner_step_close doc len
      (pre ++ (60 :: (cn ++ ca ++ [62])) ++ serForest kids ++ wend) post
      cn 1 none rn hdocC hlen hn0 h2]
    rw [if_pos (by decide), if_neg (by decide)]
    have harithW : (pre ++ (60 :: (cn ++ ca ++ [62])) ++ serForest kids ++ wend).length
        = (pre ++ (60 :: (cn ++ ca ++ [62])) ++ serForest kids).length + wend.length := by
      simp only [List.length_append] <;> omega
    have hdocW : doc = (pre ++ (60 :: (cn ++ ca ++ [62])) ++ serForest kids)
        ++ wend ++ ((60 :: 47 :: (cn ++ [62])) ++ post) := by
      rw [hdoc]
      show pre ++ ((60 :: (cn ++ ca ++ [62])) ++ serForest kids
        ++ (wend ++ (60 :: 47 :: (cn ++ [62])))) ++ post = _
      simp
    have hskipW : ∀ t, t < wend.length →
        ¬ doc.get? ((pre ++ (60 :: (cn ++ ca ++ [62])) ++ serForest kids).length + t)
          = some 60 := by
      intro t ht
      exact region_no60 doc (pre ++ (60 :: (cn ++ ca ++ [62])) ++ serForest kids) wend
        ((60 :: 47 :: (cn ++ [62])) ++ post) _ hdocW rfl (ws_no60 wend hwd) t ht
    have hskW := inner_skip doc len len wend.length
      ((pre ++ (60 :: (cn ++ ca ++ [62])) ++ serForest kids).length)
      ⟨1 + 1, some ((pre ++ (60 :: (cn ++ ca ++ [62])) ++ serForest kids ++ wend).length
        + (cn.length + 3)), rn⟩ hskipW
    nth_rewrite 1 [harithW]
    rw [hskW]
    have hdocF : doc = (pre ++ (60 :: (cn ++ ca ++ [62]))) ++ serForest kids
        ++ (wend ++ ((60 :: 47 :: (cn ++ [62])) ++ post)) := by
      rw [hdoc]
      show pre ++ ((60 :: (cn ++ ca ++ [62])) ++ serForest kids
        ++ (wend ++ (60 :: 47 :: (cn ++ [62])))) ++ post = _
      simp
    have harith2 : (pre ++ (60 :: (cn ++ ca ++ [62])) ++ serForest kids).length
        = (pre ++ (60 :: (cn ++ ca ++ [62]))).length + (serForest kids).length := by
      simp only [List.length_append, List.length_cons, List.length_nil] <;> omega
    rw [harith2, back_forest kids h5 doc (pre ++ (60 :: (cn ++ ca ++ [62])))
      (wend ++ ((60 :: 47 :: (cn ++ [62])) ++ post)) len (1 + 1) _ rn hdocF hlen (by omega)]
    have hmidO : ∀ x ∈ cn ++ (ca ++ [62]), x ≠ 60 := by
      intro x hx
      rcases List.mem_append.1 hx with hx | hx
      · exact (name_byte_spec x (by simpa using List.all_eq_true.1 h2 x hx)).1
      rcases List.mem_append.1 hx with hx | hx
      · exact (attr_byte_spec x (by simpa using List.all_eq_true.1 h3 x hx)).1
      · simp at hx
        subst hx
        decide
    have hdocOtail : doc = (pre ++ [60]) ++ (cn ++ (ca ++ [62]))
        ++ (serForest kids ++ (wend ++ ((60 :: 47 :: (cn ++ [62])) ++ post))) := by
      rw [hdoc]
      show pre ++ ((60 :: (cn ++ ca ++ [62])) ++ serForest kids
        ++ (wend ++ (60 :: 47 :: (cn ++ [62])))) ++ post = _
      simp
    have hskip2 : ∀ t, t < cn.length + ca.length + 1 →
        ¬ doc.get? ((pre.length + 1) + t) = some 60 := by
      intro t ht
      refine region_no60 doc (pre ++ [60]) (cn ++ (ca ++ [62]))
        (serForest kids ++ (wend ++ ((60 :: 47 :: (cn ++ [62])) ++ post))) (pre.length + 1)
        hdocOtail (by simp) hmidO t ?_
      simp only [List.length_append, List.length_cons, List.length_nil]
      omega
    have harith3 : (pre ++ (60 :: (cn ++ ca ++ [62]))).length
        = (pre.length + 1) + (cn.length + ca.length + 1) := by
      simp only [List.length_append, List.length_cons, List.length_nil]
      omega
    have hskO := inner_skip doc len len (cn.length + ca.length + 1) (pre.length + 1)
      ⟨1 + 1, some ((pre ++ (60 :: (cn ++ ca ++ [62])) ++ serForest kids ++ wend).length
        + (cn.length + 3)), rn⟩ hskip2
    nth_rewrite 1 [harith3]
    rw [hskO]
    have hdocO : doc = pre ++ (60 :: (cn ++ (ca ++ [62])))
        ++ (serForest kids ++ (wend ++ ((60 :: 47 :: (cn ++ [62])) ++ post))) := by
      rw [hdoc]
      show pre ++ ((60 :: (cn ++ ca ++ [62])) ++ serForest kids
        ++ (wend ++ (60 :: 47 :: (cn ++ [62])))) ++ post = _
      simp
    rw [inner_step_open doc len pre
      (serForest kids ++ (wend ++ ((60 :: 47 :: (cn ++ [62])) ++ post))) cn ca (1 + 1)
      _ rn hdocO hlen hn0 h2 h3 hah]
    rw [if_pos (by decide)]
    have hfin : (pre ++ (60 :: (cn ++ ca ++ [62])) ++ serForest kids ++ wend).length
        + (cn.length + 3) = pre.length + (ser (.elem cn ca kids wend false)).length := by
      rw [ser_elem_false_length]
      simp only [List.length_append, List.length_cons, List.length_nil]
      omega
    rw [hfin]

theorem last_inner_on_family (doc : List Nat) (len : Nat)
    (lead w1 w2 trail rn ra cn ca : List Nat) (kids : XForest) (wend : List Nat) (cself : Bool)
    (hdoc : doc = lead ++ ((60 :: (rn ++ (ra ++ [62]))) ++ (w1 ++
      (ser (.elem cn ca kids wend cself) ++ (w2 ++ ((60 :: 47 :: (rn ++ [62])) ++ trail))))))
    (hlen : len = doc.length)
    (hw2 : w2.all ws_byte = true) (htrail : trail.all ws_byte = true)
    (hrn0 : rn ≠ []) (hrn : rn.all name_byte = true)
    (hc : wf_tree (.elem cn ca kids wend cself) = true) :
    last_child_inner doc len 0 len len ⟨0, none, []⟩
      = .inl (.ok (extract_and_build_result doc len
          (lead.length + (rn.length + ra.length + 2) + w1.length)
          (lead.length + (rn.length + ra.length + 2) + w1.length
            + (ser (.elem cn ca kids wend cself)).length)
          (xpath_of [rn, cn] ++ str_bytes " (last)"))) := by
  have hdocT : doc = ((((lead ++ ((60 :: (rn ++ (ra ++ [62]))) ++ w1))
      ++ ser (.elem cn ca kids wend cself)) ++ w2) ++ (60 :: 47 :: (rn ++ [62])))
      ++ trail ++ [] := by
    rw [hdoc]
    simp
  have hs1 : ∀ t, t < trail.length →
      ¬ doc.get? (((((lead ++ ((60 :: (rn ++ (ra ++ [62]))) ++ w1))
        ++ ser (.elem cn ca kids wend cself)) ++ w2).length + 1 + (rn.length + 2)) + t)
        = some 60 := by
    intro t ht
    refine region_no60 doc ((((lead ++ ((60 :: (rn ++ (ra ++ [62]))) ++ w1))
      ++ ser (.elem cn ca kids wend cself)) ++ w2) ++ (60 :: 47 :: (rn ++ [62]))) trail []
      _ hdocT
      (by simp only [List.length_append, List.length_cons, List.length_nil] <;> omega)
      (ws_no60 trail htrail) t ht
  have hdocCt : doc = (((((lead ++ ((60 :: (rn ++ (ra ++ [62]))) ++ w1))
      ++ ser (.elem cn ca kids wend cself)) ++ w2) ++ [60]) ++ (47 :: (rn ++ [62])))
      ++ trail := by
    rw [hdoc]
    simp
  have hmidC : ∀ x ∈ 47 :: (rn ++ [62]), x ≠ 60 := by
    intro x hx
    rcases List.mem_cons.1 hx with hx | hx
    · subst hx
      decide
    rcases List.mem_append.1 hx with hx | hx
    · exact (name_byte_spec x (by simpa using List.all_eq_true.1 hrn x hx)).1
    · simp at hx
      subst hx
      decide
  have hs2 : ∀ t, t < rn.length + 2 →
      ¬ doc.get? (((((lead ++ ((60 :: (rn ++ (ra ++ [62]))) ++ w1))
        ++ ser (.elem cn ca kids wend cself)) ++ w2).length + 1) + t) = some 60 := by
    intro t ht
    refine region_no60 doc ((((lead ++ ((60 :: (rn ++ (ra ++ [62]))) ++ w1))
      ++ ser (.elem cn ca kids wend cself)) ++ w2) ++ [60]) (47 :: (rn ++ [62])) trail
      _ (by rw [hdoc]; simp)
      (by simp only [List.length_append, List.length_cons, List.length_nil] <;> omega)
      hmidC t ?_
    simp only [List.length_cons, List.length_append, List.length_nil]
    omega
  have hdocC : doc = (((lead ++ ((60 :: (rn ++ (ra ++ [62]))) ++ w1))
      ++ ser (.elem cn ca kids wend cself)) ++ w2) ++ (60 :: 47 :: (rn ++ [62])) ++ trail := by
    rw [hdoc]
    simp
  have hlenM : ((((lead ++ ((60 :: (rn ++ (ra ++ [62]))) ++ w1))
      ++ ser (.elem cn ca kids wend cself)) ++ w2).length + 1 + (rn.length + 2))
      + trail.length = doc.length := by
    rw [hdoc]
    simp only [List.length_append, List.length_cons, List.length_nil]
    omega
  rw [show len = ((((lead ++ ((60 :: (rn ++ (ra ++ [62]))) ++ w1))
      ++ ser (.elem cn ca kids wend cself)) ++ w2).length + 1 + (rn.length + 2))
      + trail.length from by rw [hlen, ← hlenM]]
  rw [inner_skip doc _ _ trail.length _ ⟨0, none, []⟩ hs1]
  rw [inner_skip doc _ _ (rn.length + 2) _ ⟨0, none, []⟩ hs2]
  rw [inner_step_close doc _ (((lead ++ ((60 :: (rn ++ (ra ++ [62]))) ++ w1))
    ++ ser (.elem cn ca kids wend cself)) ++ w2) trail rn 0 none [] hdocC
    (by rw [← hlenM]) hrn0 hrn]
  rw [if_neg (by decide), if_pos (by decide)]
  rw [show ((0 : Int) + 1) = 1 from by decide]
  have hsplit2 : (((lead ++ ((60 :: (rn ++ (ra ++ [62]))) ++ w1))
      ++ ser (.elem cn ca kids wend cself)) ++ w2).length
      = ((lead ++ ((60 :: (rn ++ (ra ++ [62]))) ++ w1))
        ++ ser (.elem cn ca kids wend cself)).length + w2.length := by
    simp only [List.length_append, List.length_cons, List.length_nil] <;> omega
  rw [hsplit2]
  have hs3 : ∀ t, t < w2.length →
      ¬ doc.get? (((lead ++ ((60 :: (rn ++ (ra ++ [62]))) ++ w1))
        ++ ser (.elem cn ca kids wend cself)).length + t) = some 60 := by
    intro t ht
    refine region_no60 doc ((lead ++ ((60 :: (rn ++ (ra ++ [62]))) ++ w1))
      ++ ser (.elem cn ca kids wend cself)) w2 ((60 :: 47 :: (rn ++ [62])) ++ trail)
      _ (by rw [hdoc]; simp) rfl (ws_no60 w2 hw2) t ht
  rw [inner_skip doc _ _ w2.length _ ⟨1, none, rn⟩ hs3]
  have hsplit3 : ((lead ++ ((60 :: (rn ++ (ra ++ [62]))) ++ w1))
      ++ ser (.elem cn ca kids wend cself)).length
      = (lead ++ ((60 :: (rn ++ (ra ++ [62]))) ++ w1)).length
        + (ser (.elem cn ca kids wend cself)).length := by
    simp only [List.length_append, List.length_cons, List.length_nil] <;> omega
  rw [hsplit3]
  rw [back_child cn ca kids wend cself hc doc (lead ++ ((60 :: (rn ++ (ra ++ [62]))) ++ w1))
    (w2 ++ ((60 :: 47 :: (rn ++ [62])) ++ trail)) _ rn (by rw [hdoc]; simp)
    (by rw [hdoc]; simp only [List.length_append, List.length_cons, List.length_nil]; omega)]
  have hsplit4 : (lead ++ ((60 :: (rn ++ (ra ++ [62]))) ++ w1)).length
      = lead.length + (rn.length + ra.length + 2) + w1.length := by
    simp only [List.length_append, List.length_cons, List.length_nil]
    omega
  rw [hsplit4]

/-- The byte region of the middle part of a document split. -/
theorem region_extract (doc pre mid post : List Nat) (hdoc : doc = pre ++ mid ++ post) :
    (doc.drop pre.length).take mid.length = mid := by
  subst hdoc
  rw [List.append_assoc, List.drop_left, List.take_left]

/-- When the byte before the approximate start is anything but `<` and the
approximate start sits on a `<`, the resolver keeps it. -/
theorem extract_offset_closed_gen (doc : List Nat) (fl aStart aEnd : Nat) (xp : List Nat)
    (h : doc[aStart]? = some 60)
    (hprev : aStart = 0 ∨ ∃ b, doc[aStart - 1]? = some b ∧ b ≠ 60) :
    (extract_and_build_result doc fl aStart aEnd xp).offset = aStart := by
  rw [extract_offset_eq]
  by_cases h0 : aStart = 0
  · subst h0
    simp
  · rcases hprev with h00 | ⟨b, hprev, hb⟩
    · exact absurd h00 h0
    · have hlt : aStart < doc.length := (List.getElem?_eq_some_iff.1 h).1
      rw [if_pos (by split <;> omega),
        if_neg (by rw [scan_back_getLast doc aStart (by omega) (by omega), hprev]; simp [hb])]
      have hfind : ((doc.drop aStart).take 256).findIdx? (fun b => b == 60) = some 0 := by
        rw [List.findIdx?_eq_some_iff_getElem]
        have hlen : ((doc.drop aStart).take 256).length = min 256 (doc.length - aStart) := by
          simp [List.length_take, List.length_drop]
        have hpos : 0 < ((doc.drop aStart).take 256).length := by omega
        refine ⟨hpos, ?_, ?_⟩
        · have hget : ((doc.drop aStart).take 256)[0]? = some 60 := by
            rw [List.getElem?_take_of_lt (by omega), List.getElem?_drop]
            simpa using h
          have := (List.getElem?_eq_some_iff.1 hget).2
          simp [this]
        · intro j hj
          omega
      rw [hfind]
      simp

/-- When the byte just before the approximate end is `>`, the forward end
refinement lands exactly on the approximate end. -/
theorem extract_end_val (doc : List Nat) (fl aEnd : Nat)
    (hend : doc[aEnd - 1]? = some 62) (h0e : 0 < aEnd) (hle : aEnd ≤ fl)
    (hfl : fl ≤ doc.length) :
    (match ((doc.drop (if aEnd > 0 then aEnd - 1 else 0)).take
        (min 128 (fl - (if aEnd > 0 then aEnd - 1 else 0)))).findIdx? (fun b => b == 62) with
     | some i => (if aEnd > 0 then aEnd - 1 else 0) + i + 1
     | none => aEnd) = aEnd := by
  rw [if_pos h0e]
  have hlt : aEnd - 1 < doc.length := by
    have := (List.getElem?_eq_some_iff.1 hend).1
    omega
  have hfb : ((doc.drop (aEnd - 1)).take (min 128 (fl - (aEnd - 1)))).findIdx?
      (fun b => b == 62) = some 0 := by
    rw [List.findIdx?_eq_some_iff_getElem]
    have hlen : ((doc.drop (aEnd - 1)).take (min 128 (fl - (aEnd - 1)))).length
        = min (min 128 (fl - (aEnd - 1))) (doc.length - (aEnd - 1)) := by
      simp [List.length_take, List.length_drop]
    have hpos : 0 < ((doc.drop (aEnd - 1)).take (min 128 (fl - (aEnd - 1)))).length := by
      omega
    refine ⟨hpos, ?_, ?_⟩
    · have hget : ((doc.drop (aEnd - 1)).take (min 128 (fl - (aEnd - 1))))[0]? = some 62 := by
        rw [List.getElem?_take_of_lt (by omega), List.getElem?_drop]
        simpa using hend
      have := (List.getElem?_eq_some_iff.1 hget).2
      simp [this]
    · intro j hj
      omega
  rw [hfb]
  show (aEnd - 1) + 0 + 1 = aEnd
  omega

/-- The element text is the slice from the resolved offset to the resolved
end, written out. -/
theorem extract_text_eq (doc : List Nat) (fl aStart aEnd : Nat) (xp : List Nat) :
    (extract_and_build_result doc fl aStart aEnd xp).element_text =
      (doc.drop (extract_and_build_result doc fl aStart aEnd xp).offset).take
        ((match ((doc.drop (if aEnd > 0 then aEnd - 1 else 0)).take
            (min 128 (fl - (if aEnd > 0 then aEnd - 1 else 0)))).findIdx?
            (fun b => b == 62) with
          | some i => (if aEnd > 0 then aEnd - 1 else 0) + i + 1
          | none => aEnd)
          - (extract_and_build_result doc fl aStart aEnd xp).offset) := rfl

/-- The full forward scan on a family document. -/
theorem first_child_on_family (doc : List Nat)
    (lead w1 rn ra cn ca : List Nat) (kids : XForest) (wend : List Nat) (cself : Bool) (rest1 : List Nat)
    (hdoc : doc = lead ++ ((60 :: (rn ++ (ra ++ [62]))) ++ (w1 ++
      (ser (.elem cn ca kids wend cself) ++ rest1))))
    (hlead : lead.all ws_byte = true) (hw1 : w1.all ws_byte = true)
    (hrn0 : rn ≠ []) (hrn : rn.all name_byte = true)
    (hra : ra.all attr_byte = true) (hrah : ra = [] ∨ ra.head? = some 32)
    (hc : wf_tree (.elem cn ca kids wend cself) = true)
    (hbound : lead.length + (rn.length + ra.length + 2) + w1.length
        + (ser (.elem cn ca kids wend cself)).length ≤ 10485760) :
    get_first_child_internal doc
      = .ok (extract_and_build_result doc doc.length
          (if w1 = [] then lead.length + (rn.length + ra.length + 2)
           else lead.length + (rn.length + ra.length + 2) + w1.length + 1)
          (lead.length + (rn.length + ra.length + 2) + w1.length
            + (ser (.elem cn ca kids wend cself)).length)
          (xpath_of [rn, cn] ++ str_bytes " (first)")) := by
  have hstream : tokenize (doc.length + 1) false doc 0 = tokStream doc 0 := rfl
  rw [get_first_child_internal, hstream, hdoc]
  rw [first_child_after_root _ _ lead rn ra
    (w1 ++ (ser (.elem cn ca kids wend cself) ++ rest1)) hlead hrn0 hrn hra hrah]
  rw [first_child_at_child _ _ cn ca kids wend cself hc w1 rest1 hw1
    (lead.length + (rn.length + ra.length + 2)) rn (by omega)]

/-- The full backward scan on a family document. -/
theorem last_child_on_family (doc : List Nat)
    (lead w1 w2 trail rn ra cn ca : List Nat) (kids : XForest) (wend : List Nat) (cself : Bool)
    (hdoc : doc = lead ++ ((60 :: (rn ++ (ra ++ [62]))) ++ (w1 ++
      (ser (.elem cn ca kids wend cself) ++ (w2 ++ ((60 :: 47 :: (rn ++ [62])) ++ trail))))))
    (hw2 : w2.all ws_byte = true) (htrail : trail.all ws_byte = true)
    (hrn0 : rn ≠ []) (hrn : rn.all name_byte = true)
    (hc : wf_tree (.elem cn ca kids wend cself) = true)
    (hle : doc.length ≤ 65536) :
    get_last_child_internal doc
      = .ok (extract_and_build_result doc doc.length
          (lead.length + (rn.length + ra.length + 2) + w1.length)
          (lead.length + (rn.length + ra.length + 2) + w1.length
            + (ser (.elem cn ca kids wend cself)).length)
          (xpath_of [rn, cn] ++ str_bytes " (last)")) := by
  have hne : ¬doc.length = 0 := by
    rw [hdoc]
    simp only [List.length_append, List.length_cons]
    omega
  rw [get_last_child_internal, if_neg hne]
  rw [show doc.length / 65536 + 2 = (doc.length / 65536 + 1) + 1 from rfl]
  rw [outer_step_eq, if_neg hne, Nat.min_eq_left hle, Nat.sub_self]
  rw [last_inner_on_family doc doc.length lead w1 w2 trail rn ra cn ca kids wend cself hdoc
    rfl hw2 htrail hrn0 hrn hc]

/-- Claim C4 (amended): over the serialized well-formed document family — a
root element whose tag name is free of whitespace and of the markup bytes
`<` `>` `/` `?` `!`, an optional attribute section free of `<`, `>` and `/`
that begins with a space, whitespace-only text runs between any tags, and
exactly one direct child subtree of the same shape (itself containing
arbitrary nested elements and whitespace text), the whole document fitting
in a single 64 KiB backward chunk — `first_child` (forward streaming scan
from the file start) and `last_child` (backward chunked scan from the end
of file) return identical element boundaries: both report the child's `<`
byte as offset and the child's exact serialization as element_text.  (The
unrestricted claim is refuted by `first_last_child_disagree_cex`: a comment
containing `<` derails the backward scanner.) -/
theorem first_last_child_agree (doc : List Nat)
    (lead w1 w2 trail rn ra cn ca : List Nat) (kids : XForest) (wend : List Nat) (cself : Bool)
    (hdoc : doc = lead ++ ((60 :: (rn ++ (ra ++ [62]))) ++ (w1 ++
      (ser (.elem cn ca kids wend cself) ++ (w2 ++ ((60 :: 47 :: (rn ++ [62])) ++ trail))))))
    (hlead : lead.all ws_byte = true) (hw1 : w1.all ws_byte = true)
    (hw2 : w2.all ws_byte = true) (htrail : trail.all ws_byte = true)
    (hrn0 : rn ≠ []) (hrn : rn.all name_byte = true)
    (hra : ra.all attr_byte = true) (hrah : ra = [] ∨ ra.head? = some 32)
    (hc : wf_tree (.elem cn ca kids wend cself) = true)
    (hle : doc.length ≤ 65536) :
    (get_first_child_internal doc).map (fun r => (r.offset, r.element_text))
      = .ok (lead.length + (rn.length + ra.length + 2) + w1.length,
          ser (.elem cn ca kids wend cself)) ∧
    (get_last_child_internal doc).map (fun r => (r.offset, r.element_text))
      = .ok (lead.length + (rn.length + ra.length + 2) + w1.length,
          ser (.elem cn ca kids wend cself)) := by
  obtain ⟨tl, htl⟩ := ser_head cn ca kids wend cself
  obtain ⟨sI, hsI⟩ := ser_concat cn ca kids wend cself
  have hLpos : 1 ≤ (ser (.elem cn ca kids wend cself)).length := by
    rw [hsI]
    simp
  have hdocChild : doc = (lead ++ ((60 :: (rn ++ (ra ++ [62]))) ++ w1))
      ++ ser (.elem cn ca kids wend cself)
      ++ (w2 ++ ((60 :: 47 :: (rn ++ [62])) ++ trail)) := by
    rw [hdoc]
    simp
  have hCP : (lead ++ ((60 :: (rn ++ (ra ++ [62]))) ++ w1)).length
      = lead.length + (rn.length + ra.length + 2) + w1.length := by
    simp only [List.length_append, List.length_cons, List.length_nil]
    omega
  have h60 : doc[lead.length + (rn.length + ra.length + 2) + w1.length]? = some 60 := by
    have hsh : doc = (lead ++ ((60 :: (rn ++ (ra ++ [62]))) ++ w1)) ++ 60 ::
        (tl ++ (w2 ++ ((60 :: 47 :: (rn ++ [62])) ++ trail))) := by
      rw [hdocChild, htl]
      simp
    have hg := get_append_at (lead ++ ((60 :: (rn ++ (ra ++ [62]))) ++ w1)) 60
      (tl ++ (w2 ++ ((60 :: 47 :: (rn ++ [62])) ++ trail)))
    rw [List.get?_eq_getElem?, hCP] at hg
    rw [hsh]
    exact hg
  have hprev : ∃ b, doc[lead.length + (rn.length + ra.length + 2) + w1.length - 1]?
      = some b ∧ b ≠ 60 := by
    cases w1 with
    | nil =>
      refine ⟨62, ?_, by decide⟩
      have hsh : doc = (lead ++ (60 :: (rn ++ ra))) ++ 62 ::
          (ser (.elem cn ca kids wend cself) ++ (w2 ++ ((60 :: 47 :: (rn ++ [62])) ++ trail))) := by
        rw [hdoc]
        simp
      have hidx : (lead ++ (60 :: (rn ++ ra))).length
          = lead.length + (rn.length + ra.length + 2) + ([] : List Nat).length - 1 := by
        simp only [List.length_append, List.length_cons, List.length_nil]
        omega
      have hg := get_append_at (lead ++ (60 :: (rn ++ ra))) 62
        (ser (.elem cn ca kids wend cself) ++ (w2 ++ ((60 :: 47 :: (rn ++ [62])) ++ trail)))
      rw [List.get?_eq_getElem?, hidx] at hg
      rw [hsh]
      exact hg
    | cons wb w1' =>
      rcases List.eq_nil_or_concat (wb :: w1') with hni | ⟨winit, y, hcon⟩
      · simp at hni
      · rw [List.concat_eq_append] at hcon
        have hyws : y ∈ wb :: w1' := by
          rw [hcon]
          simp
        have hy : ws_byte y = true := by simpa using List.all_eq_true.1 hw1 y hyws
        refine ⟨y, ?_, (ws_byte_spec y hy).1⟩
        have hsh : doc = (lead ++ ((60 :: (rn ++ (ra ++ [62]))) ++ winit)) ++ y ::
            (ser (.elem cn ca kids wend cself) ++ (w2 ++ ((60 :: 47 :: (rn ++ [62])) ++ trail))) := by
          rw [hdoc, hcon]
          simp
        have hidx : (lead ++ ((60 :: (rn ++ (ra ++ [62]))) ++ winit)).length
            = lead.length + (rn.length + ra.length + 2) + (wb :: w1').length - 1 := by
          have hlc := congrArg List.length hcon
          simp only [List.length_append, List.length_cons, List.length_nil] at hlc ⊢
          omega
        have hg := get_append_at (lead ++ ((60 :: (rn ++ (ra ++ [62]))) ++ winit)) y
          (ser (.elem cn ca kids wend cself) ++ (w2 ++ ((60 :: 47 :: (rn ++ [62])) ++ trail)))
        rw [List.get?_eq_getElem?, hidx] at hg
        rw [hsh]
        exact hg
  have hend62 : doc[lead.length + (rn.length + ra.length + 2) + w1.length
      + (ser (.elem cn ca kids wend cself)).length - 1]? = some 62 := by
    have hsh : doc = ((lead ++ ((60 :: (rn ++ (ra ++ [62]))) ++ w1)) ++ sI) ++ 62 ::
        (w2 ++ ((60 :: 47 :: (rn ++ [62])) ++ trail)) := by
      rw [hdocChild, hsI]
      simp
    have hidx : ((lead ++ ((60 :: (rn ++ (ra ++ [62]))) ++ w1)) ++ sI).length
        = lead.length + (rn.length + ra.length + 2) + w1.length
          + (ser (.elem cn ca kids wend cself)).length - 1 := by
      have hls := congrArg List.length hsI
      simp only [List.length_append, List.length_cons, List.length_nil] at hls ⊢
      omega
    have hg := get_append_at ((lead ++ ((60 :: (rn ++ (ra ++ [62]))) ++ w1)) ++ sI) 62
      (w2 ++ ((60 :: 47 :: (rn ++ [62])) ++ trail))
    rw [List.get?_eq_getElem?, hidx] at hg
    rw [hsh]
    exact hg
  have hCEle : lead.length + (rn.length + ra.length + 2) + w1.length
      + (ser (.elem cn ca kids wend cself)).length ≤ doc.length := by
    rw [hdoc]
    simp only [List.length_append, List.length_cons, List.length_nil]
    omega
  have h0e : 0 < lead.length + (rn.length + ra.length + 2) + w1.length
      + (ser (.elem cn ca kids wend cself)).length := by omega
  have hfst := first_child_on_family doc lead w1 rn ra cn ca kids wend cself
    (w2 ++ ((60 :: 47 :: (rn ++ [62])) ++ trail)) hdoc hlead hw1 hrn0 hrn hra hrah hc
    (by omega)
  have hlst := last_child_on_family doc lead w1 w2 trail rn ra cn ca kids wend cself hdoc
    hw2 htrail hrn0 hrn hc hle
  have hev := extract_end_val doc doc.length
    (lead.length + (rn.length + ra.length + 2) + w1.length
      + (ser (.elem cn ca kids wend cself)).length) hend62 h0e hCEle (Nat.le_refl _)
  have htextgen : ∀ (AS : Nat) (xp : List Nat),
      (extract_and_build_result doc doc.length AS
        (lead.length + (rn.length + ra.length + 2) + w1.length
          + (ser (.elem cn ca kids wend cself)).length) xp).offset
        = lead.length + (rn.length + ra.length + 2) + w1.length →
      (extract_and_build_result doc doc.length AS
        (lead.length + (rn.length + ra.length + 2) + w1.length
          + (ser (.elem cn ca kids wend cself)).length) xp).element_text
        = ser (.elem cn ca kids wend cself) := by
    intro AS xp hoff
    rw [extract_text_eq, hev, hoff, Nat.add_sub_cancel_left]
    have hre := region_extract doc (lead ++ ((60 :: (rn ++ (ra ++ [62]))) ++ w1))
      (ser (.elem cn ca kids wend cself)) (w2 ++ ((60 :: 47 :: (rn ++ [62])) ++ trail)) hdocChild
    rw [hCP] at hre
    exact hre
  have hoffL : (extract_and_build_result doc doc.length
      (lead.length + (rn.length + ra.length + 2) + w1.length)
      (lead.length + (rn.length + ra.length + 2) + w1.length
        + (ser (.elem cn ca kids wend cself)).length)
      (xpath_of [rn, cn] ++ str_bytes " (last)")).offset
      = lead.length + (rn.length + ra.length + 2) + w1.length :=
    extract_offset_closed_gen doc doc.length _ _ _ h60 (Or.inr hprev)
  constructor
  · rw [hfst]
    have hoffF : (extract_and_build_result doc doc.length
        (if w1 = [] then lead.length + (rn.length + ra.length + 2)
         else lead.length + (rn.length + ra.length + 2) + w1.length + 1)
        (lead.length + (rn.length + ra.length + 2) + w1.length
          + (ser (.elem cn ca kids wend cself)).length)
        (xpath_of [rn, cn] ++ str_bytes " (first)")).offset
        = lead.length + (rn.length + ra.length + 2) + w1.length := by
      by_cases hw1e : w1 = []
      · rw [if_pos hw1e]
        have h60a : doc[lead.length + (rn.length + ra.length + 2)]? = some 60 := by
          have h := h60
          rw [hw1e] at h
          simpa using h
        have hpreva : ∃ b, doc[lead.length + (rn.length + ra.length + 2) - 1]?
            = some b ∧ b ≠ 60 := by
          have h := hprev
          rw [hw1e] at h
          simpa using h
        rw [extract_offset_closed_gen doc doc.length _ _ _ h60a (Or.inr hpreva), hw1e]
        simp
      · rw [if_neg hw1e]
        have hop := extract_offset_opened doc doc.length
          (lead.length + (rn.length + ra.length + 2) + w1.length + 1)
          (lead.length + (rn.length + ra.length + 2) + w1.length
            + (ser (.elem cn ca kids wend cself)).length)
          (xpath_of [rn, cn] ++ str_bytes " (first)") (by omega) (by omega)
          (by simpa using h60)
        rw [hop]
        omega
    simp only [Except.map]
    rw [hoffF, htextgen _ _ hoffF]
  · rw [hlst]
    simp only [Except.map]
    rw [hoffL, htextgen _ _ hoffL]

/-- Witness for C4 at the concrete document `<r> <a id="x-y"> <b/> </a> </r>`
followed by a newline — the child carries a quoted hyphenated attribute and a
whitespace-separated nested child: both scanners return offset 4 and the
child's exact 22-byte serialization as element text. -/
theorem first_last_child_agree_witness :
    ((([] : List Nat).all ws_byte = true ∧ ([32] : List Nat).all ws_byte = true ∧
      ([10] : List Nat).all ws_byte = true) ∧
     (([114] : List Nat) ≠ [] ∧ ([114] : List Nat).all name_byte = true ∧
      ([] : List Nat).all attr_byte = true ∧
      wf_tree (XTree.elem [97] [32, 105, 100, 61, 34, 120, 45, 121, 34]
        (.cons [32] (.elem [98] [] .nil [] true) .nil) [32] false) = true) ∧
     (([] : List Nat) ++ ((60 :: (([114] : List Nat) ++ (([] : List Nat) ++ [62]))) ++
       ([32] ++ (ser (XTree.elem [97] [32, 105, 100, 61, 34, 120, 45, 121, 34]
           (.cons [32] (.elem [98] [] .nil [] true) .nil) [32] false) ++
         ([32] ++ ((60 :: 47 :: (([114] : List Nat) ++ [62])) ++ [10])))))).length
       ≤ 65536) ∧
    ((get_first_child_internal (([] : List Nat) ++
        ((60 :: (([114] : List Nat) ++ (([] : List Nat) ++ [62]))) ++
          ([32] ++ (ser (XTree.elem [97] [32, 105, 100, 61, 34, 120, 45, 121, 34]
              (.cons [32] (.elem [98] [] .nil [] true) .nil) [32] false) ++
            ([32] ++ ((60 :: 47 :: (([114] : List Nat) ++ [62])) ++ [10]))))))).map
        (fun r => (r.offset, r.element_text))
      = .ok (([] : List Nat).length + (([114] : List Nat).length + ([] : List Nat).length + 2)
          + ([32] : List Nat).length,
          ser (XTree.elem [97] [32, 105, 100, 61, 34, 120, 45, 121, 34]
            (.cons [32] (.elem [98] [] .nil [] true) .nil) [32] false)) ∧
     (get_last_child_internal (([] : List Nat) ++
        ((60 :: (([114] : List Nat) ++ (([] : List Nat) ++ [62]))) ++
          ([32] ++ (ser (XTree.elem [97] [32, 105, 100, 61, 34, 120, 45, 121, 34]
              (.cons [32] (.elem [98] [] .nil [] true) .nil) [32] false) ++
            ([32] ++ ((60 :: 47 :: (([114] : List Nat) ++ [62])) ++ [10]))))))).map
        (fun r => (r.offset, r.element_text))
      = .ok (([] : List Nat).length + (([114] : List Nat).length + ([] : List Nat).length + 2)
          + ([32] : List Nat).length,
          ser (XTree.elem [97] [32, 105, 100, 61, 34, 120, 45, 121, 34]
            (.cons [32] (.elem [98] [] .nil [] true) .nil) [32] false))) :=
  ⟨⟨⟨by decide, by decide, by decide⟩, ⟨by decide, by decide, by decide, by decide⟩,
      by decide⟩,
    first_last_child_agree _ [] [32] [32] [10] [114] []
      [97] [32, 105, 100, 61, 34, 120, 45, 121, 34]
      (.cons [32] (.elem [98] [] .nil [] true) .nil) [32] false rfl
      (by decide) (by decide) (by decide) (by decide) (by decide) (by decide) (by decide)
      (Or.inl rfl) (by decide) (by decide)⟩
